import Mathlib

/-!
Shallow embedding of the shakmaty chess kernel (src/attacks.rs, src/position.rs,
src/san.rs, src/color.rs) for verifying specification claims.

Bitboards are `Nat` values whose meaningful bits are 0..63; squares are `Fin 64`
with `file = sq % 8`, `rank = sq / 8`.  Modules of the repository that are not
present under src/ (bitboard.rs, square.rs, types.rs, board.rs, setup.rs,
material.rs, movelist.rs) are modelled from the specification where needed;
such definitions carry a doc comment starting `Modelled from the spec:`.
-/

/-- Modelled from the spec: `Color` is `{White, Black}` (color.rs is in src, the
enum matches it). -/
inductive Color where
  | white
  | black
deriving DecidableEq, Repr

/-- Source `!color` (color.rs `ops::Not`): toggles the color. -/
def Color.other : Color → Color
  | .white => .black
  | .black => .white

/-- Source color.rs `fold` (2019 API: `fold(white_value, black_value)`). -/
def Color.fold {α : Type} (c : Color) (w b : α) : α :=
  match c with
  | .white => w
  | .black => b

def Color.isWhite (c : Color) : Bool := c = Color.white
def Color.isBlack (c : Color) : Bool := c = Color.black

/-- Modelled from the spec: `Role` is `{Pawn, Knight, Bishop, Rook, Queen, King}`
(types.rs is not in src). -/
inductive Role where
  | pawn
  | knight
  | bishop
  | rook
  | queen
  | king
deriving DecidableEq, Repr

/-- Modelled from the spec: a `Piece` is a `(Color, Role)` pair. -/
structure Piece where
  color : Color
  role : Role
deriving DecidableEq, Repr

/-- Squares are integers 0..63 with `file = sq & 7`, `rank = sq >> 3`. -/
abbrev Square := Fin 64

namespace Square

def file (s : Square) : Nat := s.val % 8
def rank (s : Square) : Nat := s.val / 8

/-- Modelled from the spec: square from (file, rank) coordinates, both in 0..7. -/
def mk (f r : Nat) (hf : f < 8) (hr : r < 8) : Square :=
  ⟨8 * r + f, by omega⟩

/-- Modelled from the spec: fallible `Square::from_coords` over integers. -/
def fromCoords (f r : Int) : Option Square :=
  if h : 0 ≤ f ∧ f < 8 ∧ 0 ≤ r ∧ r < 8 then
    some ⟨(8 * r + f).toNat, by omega⟩
  else
    none

/-- `Square::offset`: add a delta, `None` if the result leaves the board. -/
def offset (s : Square) (delta : Int) : Option Square :=
  let t : Int := (s.val : Int) + delta
  if h : 0 ≤ t ∧ t < 64 then some ⟨t.toNat, by omega⟩ else none

/-- The square on (file of `a`, rank of `b`), used by en-passant capture removal. -/
def withRankOf (a b : Square) : Square :=
  ⟨8 * (b.val / 8) + a.val % 8, by omega⟩

end Square

/-! ### Bitboards -/

/-- All 64 board bits set (`Bitboard::all`). -/
def bbAll : Nat := 0xFFFFFFFFFFFFFFFF

/-- The bitboard with exactly the bit of square `s` set. -/
def bbSquare (s : Square) : Nat := 1 <<< s.val

/-- Bitboard complement within the 64 board bits (`!bb` on a `u64`). -/
def bbNot (bb : Nat) : Nat := bb ^^^ bbAll

/-- `Bitboard::contains`. -/
def bbContains (bb : Nat) (s : Square) : Bool := bb.testBit s.val

/-- LSB-first iteration over the squares of a bitboard. -/
def bbSquares (bb : Nat) : List Square :=
  (List.finRange 64).filter (fun s => bb.testBit s.val)

/-- `Bitboard::first`: least significant set square. -/
def bbFirst (bb : Nat) : Option Square := (bbSquares bb).head?

/-- `Bitboard::last`: most significant set square. -/
def bbLast (bb : Nat) : Option Square := (bbSquares bb).getLast?

/-- `Bitboard::count` (popcount restricted to the 64 board bits). -/
def bbCount (bb : Nat) : Nat := (bbSquares bb).length

/-- `Bitboard::more_than_one`. -/
def bbMoreThanOne (bb : Nat) : Bool := bb &&& (bb - 1) ≠ 0

/-- `Bitboard::single_square`: `Some(sq)` iff exactly one bit is set. -/
def bbSingleSquare (bb : Nat) : Option Square :=
  if bbMoreThanOne bb then none else bbFirst bb

/-- `Bitboard::rank(r)`: the eight squares of rank `r`. -/
def bbRank (r : Nat) : Nat := 0xFF <<< (8 * r)

/-- `Bitboard::file(f)`: the eight squares of file `f`. -/
def bbFile (f : Nat) : Nat := 0x0101010101010101 <<< f

/-- `Bitboard::BACKRANKS`: ranks 1 and 8. -/
def bbBackranks : Nat := bbRank 0 ||| bbRank 7

/-- `Bitboard::relative_rank(color, rank)`. -/
def bbRelativeRank (c : Color) (r : Nat) : Nat :=
  bbRank (c.fold r (7 - r))

/-- `Bitboard::relative_shift(color, shift)`: `<<` for White, `>>` for Black,
truncated to 64 bits like a `u64` shift. -/
def bbRelativeShift (c : Color) (bb : Nat) (shift : Nat) : Nat :=
  match c with
  | .white => (bb <<< shift) &&& bbAll
  | .black => bb >>> shift

/-! ### Attacks (attacks.rs) -/

def ROOK_DELTAS : List Int := [8, 1, -8, -1]
def BISHOP_DELTAS : List Int := [9, 7, -9, -7]
def KING_DELTAS : List Int := [9, 8, 7, 1, -9, -8, -7, -1]
def KNIGHT_DELTAS : List Int := [17, 15, 10, 6, -17, -15, -10, -6]
def WHITE_PAWN_DELTAS : List Int := [7, 9]
def BLACK_PAWN_DELTAS : List Int := [-7, -9]

/-- `square::distance`: Chebyshev distance between two in-range square indices. -/
def sqDist (a b : Int) : Nat :=
  max (a % 8 - b % 8).natAbs (a / 8 - b / 8).natAbs

/-- One ray of `sliding_attacks`: starting at `s`, repeatedly add `delta`,
collect squares until leaving the board (bounds or wrap-around detected by the
distance check) or hitting a blocker in `occupied`.  The source loop breaks
after at most seven steps; the fuel of 64 is never exhausted. -/
def walkRay (occupied : Nat) (delta : Int) : Int → Nat → Nat
  | _, 0 => 0
  | s, fuel + 1 =>
    let u := s + delta
    if u < 0 ∨ 64 ≤ u ∨ 2 < sqDist u s then 0
    else (1 <<< u.toNat) |||
      (if occupied.testBit u.toNat then 0 else walkRay occupied delta u fuel)

/-- attacks.rs `sliding_attacks`. -/
def slidingAttacks (sq : Square) (occupied : Nat) (deltas : List Int) : Nat :=
  deltas.foldl (fun attack delta => attack ||| walkRay occupied delta sq.val 64) 0

/-- attacks.rs `step_attacks`. -/
def stepAttacks (sq : Square) (deltas : List Int) : Nat :=
  slidingAttacks sq bbAll deltas

/-- `Precomp::knight_attacks` (table of `step_attacks`). -/
def knightAttacks (sq : Square) : Nat := stepAttacks sq KNIGHT_DELTAS

/-- `Precomp::king_attacks`. -/
def kingAttacks (sq : Square) : Nat := stepAttacks sq KING_DELTAS

/-- `Precomp::pawn_attacks`. -/
def pawnAttacks (c : Color) (sq : Square) : Nat :=
  match c with
  | .white => stepAttacks sq WHITE_PAWN_DELTAS
  | .black => stepAttacks sq BLACK_PAWN_DELTAS

/-- `Precomp::rook_attacks` as the direct ray scan; claim C4 proves that the
magic-table lookup of attacks.rs computes this same function. -/
def rookAttacks (sq : Square) (occupied : Nat) : Nat :=
  slidingAttacks sq occupied ROOK_DELTAS

/-- `Precomp::bishop_attacks` as the direct ray scan (the table initialisation
stores exactly `sliding_attacks` results). -/
def bishopAttacks (sq : Square) (occupied : Nat) : Nat :=
  slidingAttacks sq occupied BISHOP_DELTAS

/-- `Precomp::queen_attacks`. -/
def queenAttacks (sq : Square) (occupied : Nat) : Nat :=
  rookAttacks sq occupied ||| bishopAttacks sq occupied

/-- `Precomp::attacks` for a piece. -/
def pieceAttacks (sq : Square) (p : Piece) (occupied : Nat) : Nat :=
  match p.role with
  | .pawn => pawnAttacks p.color sq
  | .knight => knightAttacks sq
  | .bishop => bishopAttacks sq occupied
  | .rook => rookAttacks sq occupied
  | .queen => queenAttacks sq occupied
  | .king => kingAttacks sq

/-- `Precomp::ray`: the full common line of `a` and `b`, as precomputed by
`Precomp::new` from empty-occupancy attacks. -/
def ray (a b : Square) : Nat :=
  if bbContains (bishopAttacks a 0) b then
    ((bishopAttacks a 0 &&& bishopAttacks b 0) ||| bbSquare a) ||| bbSquare b
  else if bbContains (rookAttacks a 0) b then
    ((rookAttacks a 0 &&& rookAttacks b 0) ||| bbSquare a) ||| bbSquare b
  else 0

/-- `Precomp::between`: squares strictly between `a` and `b` on a common ray. -/
def between (a b : Square) : Nat :=
  if bbContains (bishopAttacks a 0) b then
    bishopAttacks a (bbSquare b) &&& bishopAttacks b (bbSquare a)
  else if bbContains (rookAttacks a 0) b then
    rookAttacks a (bbSquare b) &&& rookAttacks b (bbSquare a)
  else 0

/-- `Precomp::aligned`. -/
def aligned (a b c : Square) : Bool := bbContains (ray a b) c

/-! ### Board (board.rs is not in src; modelled from the spec) -/

/-- Modelled from the spec: the board is eight bitboards — two per color, six
per role — plus a `promoted` bitboard. -/
structure Board where
  white : Nat
  black : Nat
  pawns : Nat
  knights : Nat
  bishops : Nat
  rooks : Nat
  queens : Nat
  kings : Nat
  promoted : Nat
deriving DecidableEq, Repr

namespace Board

def occupied (b : Board) : Nat := b.white ||| b.black

def byColor (b : Board) (c : Color) : Nat := c.fold b.white b.black

def byRole (b : Board) (r : Role) : Nat :=
  match r with
  | .pawn => b.pawns
  | .knight => b.knights
  | .bishop => b.bishops
  | .rook => b.rooks
  | .queen => b.queens
  | .king => b.kings

def rooksAndQueens (b : Board) : Nat := b.rooks ||| b.queens

def bishopsAndQueens (b : Board) : Nat := b.bishops ||| b.queens

/-- Modelled from the spec: sliding pieces (bishops, rooks, queens). -/
def sliders (b : Board) : Nat := b.bishops ||| b.rooks ||| b.queens

/-- Modelled from the spec: the role on a square, if any. -/
def roleAt (b : Board) (s : Square) : Option Role :=
  if b.pawns.testBit s.val then some .pawn
  else if b.knights.testBit s.val then some .knight
  else if b.bishops.testBit s.val then some .bishop
  else if b.rooks.testBit s.val then some .rook
  else if b.queens.testBit s.val then some .queen
  else if b.kings.testBit s.val then some .king
  else none

/-- Modelled from the spec: the color on a square, if any. -/
def colorAt (b : Board) (s : Square) : Option Color :=
  if b.white.testBit s.val then some .white
  else if b.black.testBit s.val then some .black
  else none

/-- Modelled from the spec: `Board::attacks_to` — the pieces of color
`attacker` that attack square `s` under occupancy `occupied`. -/
def attacksTo (b : Board) (s : Square) (attacker : Color) (occupied : Nat) : Nat :=
  b.byColor attacker &&&
    ((rookAttacks s occupied &&& b.rooksAndQueens) |||
     (bishopAttacks s occupied &&& b.bishopsAndQueens) |||
     (knightAttacks s &&& b.knights) |||
     (kingAttacks s &&& b.kings) |||
     (pawnAttacks attacker.other s &&& b.pawns))

/-- Modelled from the spec: `Board::king_of` — the unique king of a color. -/
def kingOf (b : Board) (c : Color) : Option Square :=
  bbSingleSquare (b.kings &&& b.byColor c)

/-- Modelled from the spec: remove whatever piece occupies `s`. -/
def discardPieceAt (b : Board) (s : Square) : Board :=
  let m := bbNot (bbSquare s)
  { white := b.white &&& m
    black := b.black &&& m
    pawns := b.pawns &&& m
    knights := b.knights &&& m
    bishops := b.bishops &&& m
    rooks := b.rooks &&& m
    queens := b.queens &&& m
    kings := b.kings &&& m
    promoted := b.promoted &&& m }

/-- Modelled from the spec: put `piece` on `s`, replacing any prior piece and
setting the `promoted` flag as given. -/
def setPieceAt (b : Board) (s : Square) (piece : Piece) (promoted : Bool) : Board :=
  let b := b.discardPieceAt s
  let bit := bbSquare s
  { b with
    white := if piece.color = .white then b.white ||| bit else b.white
    black := if piece.color = .black then b.black ||| bit else b.black
    pawns := if piece.role = .pawn then b.pawns ||| bit else b.pawns
    knights := if piece.role = .knight then b.knights ||| bit else b.knights
    bishops := if piece.role = .bishop then b.bishops ||| bit else b.bishops
    rooks := if piece.role = .rook then b.rooks ||| bit else b.rooks
    queens := if piece.role = .queen then b.queens ||| bit else b.queens
    kings := if piece.role = .king then b.kings ||| bit else b.kings
    promoted := if promoted then b.promoted ||| bit else b.promoted }

/-- Modelled from the spec: board validity — white and black are disjoint, the
six role bitboards partition `occupied`, `promoted ⊆ occupied`, and all
bitboards fit in 64 bits. -/
def Valid (b : Board) : Prop :=
  b.white &&& b.black = 0 ∧
  (b.pawns ||| b.knights ||| b.bishops ||| b.rooks ||| b.queens ||| b.kings) = b.occupied ∧
  b.pawns &&& b.knights = 0 ∧ b.pawns &&& b.bishops = 0 ∧ b.pawns &&& b.rooks = 0 ∧
  b.pawns &&& b.queens = 0 ∧ b.pawns &&& b.kings = 0 ∧ b.knights &&& b.bishops = 0 ∧
  b.knights &&& b.rooks = 0 ∧ b.knights &&& b.queens = 0 ∧ b.knights &&& b.kings = 0 ∧
  b.bishops &&& b.rooks = 0 ∧ b.bishops &&& b.queens = 0 ∧ b.bishops &&& b.kings = 0 ∧
  b.rooks &&& b.queens = 0 ∧ b.rooks &&& b.kings = 0 ∧ b.queens &&& b.kings = 0 ∧
  b.promoted &&& b.occupied = b.promoted ∧
  b.white < 2 ^ 64 ∧ b.black < 2 ^ 64

instance (b : Board) : Decidable b.Valid := by
  unfold Board.Valid
  infer_instance

end Board

/-! ### Moves (types.rs is not in src; modelled from the spec) -/

/-- Modelled from the spec: the `Move` enum. -/
inductive Move where
  | normal (role : Role) (fromSq : Square) (capture : Option Role)
      (toSq : Square) (promotion : Option Role)
  | castle (king : Square) (rook : Square)
  | enPassant (fromSq : Square) (toSq : Square)
  | put (role : Role) (toSq : Square)
deriving DecidableEq, Repr

namespace Move

/-- Modelled from the spec: `Move::is_capture`. -/
def isCapture : Move → Bool
  | .normal _ _ (some _) _ _ => true
  | .enPassant _ _ => true
  | _ => false

/-- Modelled from the spec: `Move::is_en_passant`. -/
def isEnPassant : Move → Bool
  | .enPassant _ _ => true
  | _ => false

/-- Modelled from the spec: `Move::is_promotion`. -/
def isPromotion : Move → Bool
  | .normal _ _ _ _ (some _) => true
  | _ => false

/-- Modelled from the spec: `Move::is_zeroing` — pawn moves, captures, castling
and drops reset the halfmove clock. -/
def isZeroing : Move → Bool
  | .normal .pawn _ _ _ _ => true
  | .normal _ _ (some _) _ _ => true
  | .castle _ _ => true
  | .enPassant _ _ => true
  | .put _ _ => true
  | _ => false

def isPut : Move → Bool
  | .put _ _ => true
  | _ => false

end Move

/-- Modelled from the spec: `CastlingSide`. -/
inductive CastlingSide where
  | kingSide
  | queenSide
deriving DecidableEq, Repr

namespace CastlingSide

/-- Modelled from the spec: file of the king's castling destination (g/c). -/
def kingToFile : CastlingSide → Nat
  | .kingSide => 6
  | .queenSide => 2

/-- Modelled from the spec: file of the rook's castling destination (f/d). -/
def rookToFile : CastlingSide → Nat
  | .kingSide => 5
  | .queenSide => 3

/-- Modelled from the spec: the king's castling destination square. -/
def kingTo (side : CastlingSide) (c : Color) : Square :=
  Square.mk side.kingToFile (c.fold 0 7) (by cases side <;> decide) (by cases c <;> decide)

/-- Modelled from the spec: the rook's castling destination square. -/
def rookTo (side : CastlingSide) (c : Color) : Square :=
  Square.mk side.rookToFile (c.fold 0 7) (by cases side <;> decide) (by cases c <;> decide)

/-- Modelled from the spec: `CastlingSide::from_queen_side`. -/
def fromQueenSide (queenSide : Bool) : CastlingSide :=
  if queenSide then .queenSide else .kingSide

end CastlingSide

/-- Modelled from the spec: castling state — for each (color, side) the square
of the unmoved rook, if the right is still available, plus the precomputed
path that must be empty. -/
structure Castles where
  rookSq : Color → CastlingSide → Option Square
  path : Color → CastlingSide → Nat

namespace Castles

def empty : Castles := { rookSq := fun _ _ => none, path := fun _ _ => 0 }

/-- Modelled from the spec: castling rights are discarded for a whole side
when its king moves (or castles, or explodes). -/
def discardSide (c : Castles) (color : Color) : Castles :=
  { c with rookSq := fun col side => if col = color then none else c.rookSq col side }

/-- Modelled from the spec: the right tied to a rook home square is discarded
when a rook moves from it or a piece is captured on it. -/
def discardRook (c : Castles) (s : Square) : Castles :=
  { c with rookSq := fun col side =>
      if c.rookSq col side = some s then none else c.rookSq col side }

/-- Modelled from the spec: `Castles::has_side`. -/
def hasSide (c : Castles) (color : Color) : Bool :=
  (c.rookSq color .kingSide).isSome || (c.rookSq color .queenSide).isSome

/-- Modelled from the spec: the bitboard of unmoved-rook squares. -/
def castlingRights (c : Castles) : Nat :=
  [ c.rookSq .white .kingSide, c.rookSq .white .queenSide,
    c.rookSq .black .kingSide, c.rookSq .black .queenSide ].foldl
    (fun acc o => match o with | some s => acc ||| bbSquare s | none => acc) 0

end Castles

/-! ### Setup helpers (setup.rs is not in src; modelled from the spec) -/

/-- Modelled from the spec: `Setup::us` — the pieces of the side to move. -/
def usBB (b : Board) (turn : Color) : Nat := b.byColor turn

/-- Modelled from the spec: `Setup::them`. -/
def themBB (b : Board) (turn : Color) : Nat := b.byColor turn.other

/-- Modelled from the spec: `Setup::our(role)`. -/
def ourBB (b : Board) (turn : Color) (role : Role) : Nat :=
  usBB b turn &&& b.byRole role

/-- Modelled from the spec: `Setup::their(role)`. -/
def theirBB (b : Board) (turn : Color) (role : Role) : Nat :=
  themBB b turn &&& b.byRole role

/-! ### Move generation helpers (position.rs) -/

/-- position.rs `push_promotions`. -/
def pushPromotions (fromSq toSq : Square) (capture : Option Role) : List Move :=
  [ Move.normal .pawn fromSq capture toSq (some .queen),
    Move.normal .pawn fromSq capture toSq (some .rook),
    Move.normal .pawn fromSq capture toSq (some .bishop),
    Move.normal .pawn fromSq capture toSq (some .knight) ]

/-- position.rs `gen_pawn_moves`. -/
def genPawnMoves (b : Board) (turn : Color) (target : Nat) : List Move :=
  let seventh := ourBB b turn .pawn &&& bbRelativeRank turn 6
  let captures :=
    (bbSquares (ourBB b turn .pawn &&& bbNot seventh)).flatMap (fun f =>
      (bbSquares (pawnAttacks turn f &&& themBB b turn &&& target)).map (fun t =>
        Move.normal .pawn f (b.roleAt t) t none))
  let capturePromotions :=
    (bbSquares seventh).flatMap (fun f =>
      (bbSquares (pawnAttacks turn f &&& themBB b turn &&& target)).flatMap (fun t =>
        pushPromotions f t (b.roleAt t)))
  let singleMoves := bbRelativeShift turn (ourBB b turn .pawn) 8 &&& bbNot b.occupied
  let doubleMoves := bbRelativeShift turn singleMoves 8 &&&
    (bbRelativeRank turn 3 ||| bbRelativeRank turn 2) &&& bbNot b.occupied
  let singles :=
    (bbSquares (singleMoves &&& target &&& bbNot bbBackranks)).filterMap (fun t =>
      (t.offset (turn.fold (-8) 8)).map (fun f => Move.normal .pawn f none t none))
  let singlePromotions :=
    (bbSquares (singleMoves &&& target &&& bbBackranks)).flatMap (fun t =>
      match t.offset (turn.fold (-8) 8) with
      | some f => pushPromotions f t none
      | none => [])
  let doubles :=
    (bbSquares (doubleMoves &&& target)).filterMap (fun t =>
      (t.offset (turn.fold (-16) 16)).map (fun f => Move.normal .pawn f none t none))
  captures ++ capturePromotions ++ singles ++ singlePromotions ++ doubles

/-- position.rs `Stepper::gen_moves` / `Slider::gen_moves`, with the role's
attack function passed in place of the tag type. -/
def genAttackMoves (role : Role) (attackFn : Square → Nat)
    (b : Board) (turn : Color) (target : Nat) : List Move :=
  (bbSquares (ourBB b turn role)).flatMap (fun f =>
    (bbSquares (attackFn f &&& target)).map (fun t =>
      Move.normal role f (b.roleAt t) t none))

/-- position.rs `gen_non_king`. -/
def genNonKing (b : Board) (turn : Color) (target : Nat) : List Move :=
  genPawnMoves b turn target ++
  genAttackMoves .knight knightAttacks b turn target ++
  genAttackMoves .bishop (fun f => bishopAttacks f b.occupied) b turn target ++
  genAttackMoves .rook (fun f => rookAttacks f b.occupied) b turn target ++
  genAttackMoves .queen (fun f => queenAttacks f b.occupied) b turn target

/-- position.rs `gen_safe_king`. -/
def genSafeKing (b : Board) (turn : Color) (king : Square) (target : Nat) : List Move :=
  (bbSquares (kingAttacks king &&& target)).filterMap (fun t =>
    if b.attacksTo t turn.other b.occupied = 0 then
      some (Move.normal .king king (b.roleAt t) t none)
    else none)

/-- position.rs `gen_en_passant` (the pushed moves; `found` is nonemptiness). -/
def genEnPassant (b : Board) (turn : Color) (epSquare : Option Square) : List Move :=
  match epSquare with
  | none => []
  | some t =>
    (bbSquares (b.pawns &&& b.byColor turn &&& pawnAttacks turn.other t)).map
      (fun f => Move.enPassant f t)

/-- position.rs `evasions`. -/
def evasions (b : Board) (turn : Color) (king : Square) (checkers : Nat) : List Move :=
  let sliderCheckers := checkers &&& b.sliders
  let attacked := (bbSquares sliderCheckers).foldl
    (fun acc c => acc ||| (ray c king ^^^ bbSquare c)) 0
  genSafeKing b turn king (bbNot (usBB b turn) &&& bbNot attacked) ++
  (match bbSingleSquare checkers with
   | some checker => genNonKing b turn (between king checker ||| bbSquare checker)
   | none => [])

/-- position.rs `gen_castling_moves`, with the position's `king_attackers`
function passed explicitly (it is a trait method that variants override). -/
def genCastlingMoves (kingAttackers : Square → Color → Nat → Nat)
    (b : Board) (turn : Color) (castles : Castles) (king : Square)
    (side : CastlingSide) : List Move :=
  match castles.rookSq turn side with
  | none => []
  | some rook =>
    if castles.path turn side &&& b.occupied ≠ 0 then []
    else if (bbSquares (between king (side.kingTo turn) ||| bbSquare king)).any
        (fun sq => kingAttackers sq turn.other (b.occupied ^^^ bbSquare king) ≠ 0) then []
    else if kingAttackers (side.kingTo turn) turn.other
        (((b.occupied ^^^ bbSquare king) ^^^ bbSquare rook) ^^^
          bbSquare (side.rookTo turn)) ≠ 0 then []
    else [Move.castle king rook]

/-- position.rs `slider_blockers`. -/
def sliderBlockers (b : Board) (enemy : Nat) (king : Square) : Nat :=
  let snipers := (rookAttacks king 0 &&& b.rooksAndQueens) |||
                 (bishopAttacks king 0 &&& b.bishopsAndQueens)
  (bbSquares (snipers &&& enemy)).foldl (fun blockers sniper =>
    let bb := between king sniper &&& b.occupied
    if bbMoreThanOne bb then blockers else blockers ||| bb) 0

/-- position.rs `is_safe`. -/
def isSafe (b : Board) (turn : Color) (king : Square) (m : Move)
    (blockers : Nat) : Bool :=
  match m with
  | .normal _ f _ t _ => !blockers.testBit f.val || aligned f t king
  | .enPassant f t =>
    let occupied := (((b.occupied ^^^ bbSquare f) ^^^
      bbSquare (Square.withRankOf t f)) ||| bbSquare t)
    (rookAttacks king occupied &&& themBB b turn &&& b.rooksAndQueens) = 0 &&
    (bishopAttacks king occupied &&& themBB b turn &&& b.bishopsAndQueens) = 0
  | _ => true

/-- position.rs `filter_san_candidates` (the retained predicate). -/
def sanCandidateKeep (role : Role) (toSq : Square) (m : Move) : Bool :=
  match m with
  | .normal r _ _ t _ => toSq = t && role = r
  | .put r t => toSq = t && role = r
  | .enPassant _ t => role = .pawn && t = toSq
  | .castle _ _ => false

/-- position.rs `filter_san_candidates`. -/
def filterSanCandidates (role : Role) (toSq : Square) (moves : List Move) : List Move :=
  moves.filter (sanCandidateKeep role toSq)

/-- position.rs `add_king_promotions` (appends a king-promotion copy of every
queen promotion in the list; Antichess only). -/
def addKingPromotions (moves : List Move) : List Move :=
  moves ++ moves.filterMap (fun m =>
    match m with
    | .normal role f capture t (some .queen) =>
      some (Move.normal role f capture t (some .king))
    | _ => none)

/-! ### The standard Chess position (position.rs `Chess`) -/

structure Chess where
  board : Board
  turn : Color
  castles : Castles
  epSquare : Option Square
  halfmoves : Nat
  fullmoves : Nat

namespace Chess

/-- `Position::checkers` (provided trait method, via the default
`king_attackers` which `Chess` does not override): attackers of the first of
our kings, or the empty bitboard when we have no king. -/
def checkers (pos : Chess) : Nat :=
  match bbFirst (ourBB pos.board pos.turn .king) with
  | none => 0
  | some king => pos.board.attacksTo king pos.turn.other pos.board.occupied

/-- `Position::is_check`. -/
def isCheck (pos : Chess) : Bool := pos.checkers ≠ 0

/-- `Chess::legal_moves`.  The source unwraps `king_of` with
`expect("king in standard chess")`; the kingless case (a panic in the source)
is modelled as the empty list. -/
def legalMoves (pos : Chess) : List Move :=
  match pos.board.kingOf pos.turn with
  | none => []
  | some king =>
    let epMoves := genEnPassant pos.board pos.turn pos.epSquare
    let hasEp := !epMoves.isEmpty
    let checkers := pos.checkers
    let body :=
      if checkers = 0 then
        let target := bbNot (usBB pos.board pos.turn)
        genNonKing pos.board pos.turn target ++
        genSafeKing pos.board pos.turn king target ++
        genCastlingMoves (fun s c occ => pos.board.attacksTo s c occ)
          pos.board pos.turn pos.castles king .kingSide ++
        genCastlingMoves (fun s c occ => pos.board.attacksTo s c occ)
          pos.board pos.turn pos.castles king .queenSide
      else
        evasions pos.board pos.turn king checkers
    let moves := epMoves ++ body
    let blockers := sliderBlockers pos.board (themBB pos.board pos.turn) king
    if blockers ≠ 0 ∨ hasEp then
      moves.filter (fun m => isSafe pos.board pos.turn king m blockers)
    else moves

/-- `Chess::castling_moves` (kingless panic modelled as the empty list). -/
def castlingMoves (pos : Chess) (side : CastlingSide) : List Move :=
  match pos.board.kingOf pos.turn with
  | none => []
  | some king =>
    genCastlingMoves (fun s c occ => pos.board.attacksTo s c occ)
      pos.board pos.turn pos.castles king side

/-- `Chess::en_passant_moves` (kingless panic modelled as the empty list). -/
def enPassantMoves (pos : Chess) : List Move :=
  let moves := genEnPassant pos.board pos.turn pos.epSquare
  if moves.isEmpty then moves
  else
    match pos.board.kingOf pos.turn with
    | none => []
    | some king =>
      let blockers := sliderBlockers pos.board (themBB pos.board pos.turn) king
      moves.filter (fun m => isSafe pos.board pos.turn king m blockers)

/-- position.rs `has_relevant_ep` instantiated at `Chess`. -/
def hasRelevantEp (pos : Chess) : Bool := !pos.enPassantMoves.isEmpty

/-- The `Setup::ep_square` implementation of `Chess`:
`self.ep_square.filter(|_| has_relevant_ep(self))`. -/
def epSquareAccessor (pos : Chess) : Option Square :=
  pos.epSquare.filter (fun _ => pos.hasRelevantEp)

/-- `Chess::san_candidates` (kingless panic modelled as the empty list). -/
def sanCandidates (pos : Chess) (role : Role) (toSq : Square) : List Move :=
  match pos.board.kingOf pos.turn with
  | none => []
  | some king =>
    let checkers := pos.checkers
    let body :=
      if checkers = 0 then
        let pieceFrom :=
          match role with
          | .pawn | .king => 0
          | .knight => knightAttacks toSq
          | .bishop => bishopAttacks toSq pos.board.occupied
          | .rook => rookAttacks toSq pos.board.occupied
          | .queen => queenAttacks toSq pos.board.occupied
        if !(usBB pos.board pos.turn).testBit toSq.val then
          (match role with
           | .pawn => genPawnMoves pos.board pos.turn (bbSquare toSq)
           | .king => genSafeKing pos.board pos.turn king (bbSquare toSq)
           | _ => []) ++
          (bbSquares (pieceFrom &&& ourBB pos.board pos.turn role)).map (fun f =>
            Move.normal role f (pos.board.roleAt toSq) toSq none)
        else []
      else
        filterSanCandidates role toSq (evasions pos.board pos.turn king checkers)
    let epMoves :=
      if role = .pawn ∧ some toSq = pos.epSquare then
        genEnPassant pos.board pos.turn pos.epSquare
      else []
    let hasEp := !epMoves.isEmpty
    let moves := body ++ epMoves
    let blockers := sliderBlockers pos.board (themBB pos.board pos.turn) king
    if blockers ≠ 0 ∨ hasEp then
      moves.filter (fun m => isSafe pos.board pos.turn king m blockers)
    else moves

/-- `Position::is_legal` (provided trait method, with `Chess`'s overridden
`san_candidates` and `castling_moves`). -/
def isLegal (pos : Chess) (m : Move) : Bool :=
  match m with
  | .normal role _ _ toSq _ => decide (m ∈ pos.sanCandidates role toSq)
  | .put role toSq => decide (m ∈ pos.sanCandidates role toSq)
  | .enPassant _ toSq => decide (m ∈ pos.sanCandidates .pawn toSq)
  | .castle king rook =>
    if king.file < rook.file then decide (m ∈ pos.castlingMoves .kingSide)
    else decide (m ∈ pos.castlingMoves .queenSide)

end Chess

/-- `u32::saturating_add(1)`. -/
def saturatingIncU32 (n : Nat) : Nat := min (n + 1) (2 ^ 32 - 1)

/-- position.rs `do_move`, gathered into a function from a `Chess`-shaped
state to the updated state (the source mutates the six components in place). -/
def doMove (pos : Chess) (m : Move) : Chess :=
  let color := pos.turn
  let halfmoves := if m.isZeroing then 0 else saturatingIncU32 pos.halfmoves
  let (board, castles, epSquare) :=
    match m with
    | .normal role f capture t promotion =>
      let epSquare :=
        if role = .pawn ∧ (t.val : Int) - f.val = 16 ∧ f.rank = 1 then
          f.offset 8
        else if role = .pawn ∧ (f.val : Int) - t.val = 16 ∧ f.rank = 6 then
          f.offset (-8)
        else none
      let castles :=
        if role = .king then pos.castles.discardSide color
        else if role = .rook then pos.castles.discardRook f
        else pos.castles
      let castles :=
        if capture = some .rook then castles.discardRook t else castles
      let promoted := pos.board.promoted.testBit f.val ∨ promotion.isSome
      let board := (pos.board.discardPieceAt f).setPieceAt t
        ⟨color, promotion.getD role⟩ promoted
      (board, castles, epSquare)
    | .castle king rook =>
      let side := CastlingSide.fromQueenSide (rook < king)
      let board := (pos.board.discardPieceAt king).discardPieceAt rook
      let board := board.setPieceAt
        (Square.mk side.rookToFile rook.rank (by cases side <;> decide)
          (Nat.div_lt_of_lt_mul (by omega)))
        ⟨color, .rook⟩ false
      let board := board.setPieceAt
        (Square.mk side.kingToFile king.rank (by cases side <;> decide)
          (Nat.div_lt_of_lt_mul (by omega)))
        ⟨color, .king⟩ false
      (board, pos.castles.discardSide color, none)
    | .enPassant f t =>
      let board := (pos.board.discardPieceAt (Square.withRankOf t f)).discardPieceAt f
      (board.setPieceAt t ⟨color, .pawn⟩ false, pos.castles, none)
    | .put role t =>
      (pos.board.setPieceAt t ⟨color, role⟩ false, pos.castles, none)
  let fullmoves :=
    if color.isBlack then saturatingIncU32 pos.fullmoves else pos.fullmoves
  { board := board, turn := color.other, castles := castles,
    epSquare := epSquare, halfmoves := halfmoves, fullmoves := fullmoves }

/-- `Chess::play_unchecked`. -/
def Chess.playUnchecked (pos : Chess) (m : Move) : Chess := doMove pos m

/-- `Position::play` (provided trait method, identical for every variant):
check legality, then either apply `play_unchecked` by value or return the
original position unchanged. -/
def playGeneric {α : Type} (isLegalFn : α → Move → Bool)
    (playUncheckedFn : α → Move → α) (pos : α) (m : Move) : Except α α :=
  if isLegalFn pos m then Except.ok (playUncheckedFn pos m) else Except.error pos

/-- `Chess::play`. -/
def Chess.play (pos : Chess) (m : Move) : Except Chess Chess :=
  playGeneric Chess.isLegal Chess.playUnchecked pos m

/-! ### Validation (position.rs `validate`, instantiated at `Chess`) -/

def EMPTY_BOARD : Nat := 1 <<< 0
def MISSING_KING : Nat := 1 <<< 1
def TOO_MANY_KINGS : Nat := 1 <<< 2
def PAWNS_ON_BACKRANK : Nat := 1 <<< 3
def BAD_CASTLING_RIGHTS : Nat := 1 <<< 4
def INVALID_EP_SQUARE : Nat := 1 <<< 5
def OPPOSITE_CHECK : Nat := 1 <<< 6
def IMPOSSIBLE_CHECK : Nat := 1 <<< 7
def VARIANT : Nat := 1 <<< 8

def squareA1 : Square := ⟨0, by decide⟩

/-- position.rs `validate`, with the trait methods instantiated at `Chess`
(`ep_square()` is the relevance-filtered accessor, `king_attackers` is
`Board::attacks_to`).  The `expect("ep square is on sixth rank")` unwraps are
guarded by the sixth-rank test and cannot fail on their executed paths. -/
def validateChess (pos : Chess) : Nat :=
  let errEmpty := if pos.board.occupied = 0 then EMPTY_BOARD else 0
  let errPawns := if pos.board.pawns &&& bbBackranks ≠ 0 then PAWNS_ON_BACKRANK else 0
  let errEp :=
    match pos.epSquareAccessor with
    | none => 0
    | some ep =>
      if ¬ (bbRelativeRank pos.turn 5).testBit ep.val then INVALID_EP_SQUARE
      else
        let fifthRankSq := (ep.offset (pos.turn.fold (-8) 8)).getD squareA1
        let seventhRankSq := (ep.offset (pos.turn.fold 8 (-8))).getD squareA1
        (if ¬ (theirBB pos.board pos.turn .pawn).testBit fifthRankSq.val then
          INVALID_EP_SQUARE else 0) |||
        (if pos.board.occupied.testBit ep.val ∨
            pos.board.occupied.testBit seventhRankSq.val then
          INVALID_EP_SQUARE else 0)
  let errMissing :=
    if (pos.board.kingOf .white).isNone ∨ (pos.board.kingOf .black).isNone then
      MISSING_KING else 0
  let errTooMany :=
    if bbMoreThanOne (pos.board.kings &&& pos.board.white) ∨
       bbMoreThanOne (pos.board.kings &&& pos.board.black) then
      TOO_MANY_KINGS else 0
  let errOpposite :=
    match pos.board.kingOf pos.turn.other with
    | none => 0
    | some theirKing =>
      if pos.board.attacksTo theirKing pos.turn pos.board.occupied ≠ 0 then
        OPPOSITE_CHECK else 0
  let errImpossible :=
    match pos.board.kingOf pos.turn with
    | none => 0
    | some ourKing =>
      let ck := pos.checkers
      match bbFirst ck, bbLast ck with
      | some a, some b =>
        if a ≠ b ∧ (2 < bbCount ck ∨ aligned a b ourKing) then IMPOSSIBLE_CHECK else 0
      | _, _ => 0
  errEmpty ||| errPawns ||| errEp ||| errMissing ||| errTooMany |||
    errOpposite ||| errImpossible

/-- Modelled from the spec: the external `Setup` view consumed by
`from_setup_with_mode` (setup.rs / fen.rs are not in src). -/
structure SetupData where
  board : Board
  turn : Color
  castlingRights : Nat
  epSquare : Option Square
  halfmoves : Nat
  fullmoves : Nat

/-- Modelled from the spec: `Castles::from_setup_with_mode` in standard mode —
empty castling rights extract to empty castles with no error; a nonzero right
is valid only if it names an unmoved own rook on the owner's backrank while
that king stands on its home square (e1/e8).  Returns the castles and the
`BAD_CASTLING_RIGHTS` contribution. -/
def castlesFromSetup (s : SetupData) : Castles × Nat :=
  if s.castlingRights = 0 then (Castles.empty, 0)
  else
    let validFor (c : Color) (side : CastlingSide) : Option Square :=
      let backrank := bbRank (c.fold 0 7)
      let kingHome : Square := Square.mk 4 (c.fold 0 7) (by decide) (by cases c <;> decide)
      let candidates := s.castlingRights &&& backrank &&& s.board.rooks &&&
        s.board.byColor c &&&
        (match side with
         | .kingSide => bbFile 5 ||| bbFile 6 ||| bbFile 7
         | .queenSide => bbFile 0 ||| bbFile 1 ||| bbFile 2 ||| bbFile 3)
      if (s.board.kings &&& s.board.byColor c).testBit kingHome.val then
        match side with
        | .kingSide => bbLast candidates
        | .queenSide => bbFirst candidates
      else none
    let castles : Castles :=
      { rookSq := fun c side => validFor c side
        path := fun c side =>
          match validFor c side with
          | some rook =>
            between (Square.mk 4 (c.fold 0 7) (by decide) (by cases c <;> decide)) rook
          | none => 0 }
    let recognized := [ (Color.white, CastlingSide.kingSide),
        (Color.white, CastlingSide.queenSide), (Color.black, CastlingSide.kingSide),
        (Color.black, CastlingSide.queenSide) ].foldl
      (fun acc p => match validFor p.1 p.2 with
        | some sq => acc ||| bbSquare sq
        | none => acc) 0
    (castles, if recognized = s.castlingRights &&& bbAll then 0 else BAD_CASTLING_RIGHTS)

/-- `Chess::from_setup_with_mode_unchecked`: build the candidate position and
accumulate the castling-extraction error with `validate`. -/
def chessFromSetupUnchecked (s : SetupData) : Chess × Nat :=
  let (castles, castleErr) := castlesFromSetup s
  let pos : Chess :=
    { board := s.board, turn := s.turn, castles := castles,
      epSquare := s.epSquare, halfmoves := s.halfmoves, fullmoves := s.fullmoves }
  (pos, castleErr ||| validateChess pos)

/-- `Chess::from_setup_with_mode` (the `strict()` path): succeed iff no error
flag is set, otherwise report the accumulated flags with the candidate. -/
def chessFromSetup (s : SetupData) : Except (Nat × Chess) Chess :=
  let (pos, errors) := chessFromSetupUnchecked s
  if errors = 0 then Except.ok pos else Except.error (errors, pos)

/-! ### Antichess (position.rs `Antichess`) -/

structure Antichess where
  board : Board
  turn : Color
  epSquare : Option Square
  halfmoves : Nat
  fullmoves : Nat

namespace Antichess

/-- `Antichess::en_passant_moves`: plain `gen_en_passant`, no safety filter. -/
def enPassantMoves (pos : Antichess) : List Move :=
  genEnPassant pos.board pos.turn pos.epSquare

/-- `Antichess::capture_moves`: en passant, then non-king captures, then
king-promotion copies, then king captures. -/
def captureMoves (pos : Antichess) : List Move :=
  let them := themBB pos.board pos.turn
  addKingPromotions (pos.enPassantMoves ++ genNonKing pos.board pos.turn them) ++
    genAttackMoves .king kingAttacks pos.board pos.turn them

/-- `Antichess::legal_moves`: compulsory capture — all captures if any exists,
otherwise all quiet moves. -/
def legalMoves (pos : Antichess) : List Move :=
  let moves := pos.captureMoves
  if moves.isEmpty then
    let target := bbNot pos.board.occupied
    addKingPromotions (moves ++ genNonKing pos.board pos.turn target) ++
      genAttackMoves .king kingAttacks pos.board pos.turn target
  else moves

end Antichess

/-! ### Crazyhouse (position.rs `Crazyhouse`) -/

/-- Modelled from the spec: one side of a Crazyhouse pocket (material.rs is
not in src): a count for each role. -/
structure MaterialSide where
  pawns : Nat
  knights : Nat
  bishops : Nat
  rooks : Nat
  queens : Nat
  kings : Nat
deriving DecidableEq, Repr

namespace MaterialSide

def byRole (ms : MaterialSide) (r : Role) : Nat :=
  match r with
  | .pawn => ms.pawns
  | .knight => ms.knights
  | .bishop => ms.bishops
  | .rook => ms.rooks
  | .queen => ms.queens
  | .king => ms.kings

/-- `*side.by_role_mut(role) += 1`. -/
def incRole (ms : MaterialSide) (r : Role) : MaterialSide :=
  match r with
  | .pawn => { ms with pawns := ms.pawns + 1 }
  | .knight => { ms with knights := ms.knights + 1 }
  | .bishop => { ms with bishops := ms.bishops + 1 }
  | .rook => { ms with rooks := ms.rooks + 1 }
  | .queen => { ms with queens := ms.queens + 1 }
  | .king => { ms with kings := ms.kings + 1 }

/-- `*side.by_role_mut(role) -= 1` (`u8` subtraction; legal only when the
count is at least one, which claim C10 establishes for generated drops). -/
def decRole (ms : MaterialSide) (r : Role) : MaterialSide :=
  match r with
  | .pawn => { ms with pawns := ms.pawns - 1 }
  | .knight => { ms with knights := ms.knights - 1 }
  | .bishop => { ms with bishops := ms.bishops - 1 }
  | .rook => { ms with rooks := ms.rooks - 1 }
  | .queen => { ms with queens := ms.queens - 1 }
  | .king => { ms with kings := ms.kings - 1 }

end MaterialSide

/-- Modelled from the spec: a Crazyhouse pocket pair. -/
structure Material where
  white : MaterialSide
  black : MaterialSide
deriving DecidableEq, Repr

def Material.byColor (m : Material) (c : Color) : MaterialSide :=
  c.fold m.white m.black

def Material.setColor (m : Material) (c : Color) (ms : MaterialSide) : Material :=
  match c with
  | .white => { m with white := ms }
  | .black => { m with black := ms }

structure Crazyhouse where
  chess : Chess
  pockets : Material

namespace Crazyhouse

/-- `Crazyhouse::our_pocket`. -/
def ourPocket (pos : Crazyhouse) : MaterialSide :=
  pos.pockets.byColor pos.chess.turn

/-- `Crazyhouse::legal_put_squares` (the kingless `expect` is modelled as the
empty bitboard). -/
def legalPutSquares (pos : Crazyhouse) : Nat :=
  let checkers := pos.chess.checkers
  if checkers = 0 then bbNot pos.chess.board.occupied
  else
    match bbSingleSquare checkers with
    | some checker =>
      match pos.chess.board.kingOf pos.chess.turn with
      | some king => between checker king
      | none => 0
    | none => 0

/-- `Crazyhouse::legal_moves`: the standard moves plus pocket drops. -/
def legalMoves (pos : Crazyhouse) : List Move :=
  let pocket := pos.ourPocket
  let targets := pos.legalPutSquares
  pos.chess.legalMoves ++
  (bbSquares targets).flatMap (fun t =>
    [Role.knight, Role.bishop, Role.rook, Role.queen].filterMap (fun r =>
      if 0 < pocket.byRole r then some (Move.put r t) else none)) ++
  (if 0 < pocket.pawns then
    (bbSquares (targets &&& bbNot bbBackranks)).map (fun t => Move.put .pawn t)
  else [])

/-- `Crazyhouse::san_candidates`. -/
def sanCandidates (pos : Crazyhouse) (role : Role) (toSq : Square) : List Move :=
  pos.chess.sanCandidates role toSq ++
  (if 0 < pos.ourPocket.byRole role ∧ pos.legalPutSquares.testBit toSq.val ∧
      (role ≠ .pawn ∨ ¬ bbBackranks.testBit toSq.val) then
    [Move.put role toSq]
  else [])

/-- `Crazyhouse::play_unchecked`: update the pocket, then play on the inner
board. -/
def playUnchecked (pos : Crazyhouse) (m : Move) : Crazyhouse :=
  let turn := pos.chess.turn
  let pockets :=
    match m with
    | .normal _ _ (some capture) t _ =>
      let capture :=
        if pos.chess.board.promoted.testBit t.val then Role.pawn else capture
      pos.pockets.setColor turn ((pos.pockets.byColor turn).incRole capture)
    | .enPassant _ _ =>
      pos.pockets.setColor turn ((pos.pockets.byColor turn).incRole .pawn)
    | .put role _ =>
      pos.pockets.setColor turn ((pos.pockets.byColor turn).decRole role)
    | _ => pos.pockets
  { chess := pos.chess.playUnchecked m, pockets := pockets }

end Crazyhouse

/-! ### Outcome and the `Position` trait surface used by SAN -/

/-- position.rs `Outcome`. -/
inductive Outcome where
  | decisive (winner : Color)
  | draw
deriving DecidableEq, Repr

/-- The `Position` trait as a record of its required methods: `san_plus` and
`san` are generic over `P: Position` in the source, so they are embedded as
functions over this record.  The provided trait methods (`checkers`,
`outcome`, ...) are derived below exactly as in position.rs. -/
structure PositionOps (α : Type) where
  board : α → Board
  turn : α → Color
  legalMoves : α → List Move
  playUnchecked : α → Move → α
  kingAttackers : α → Square → Color → Nat → Nat
  isVariantEnd : α → Bool
  hasInsufficientMaterial : α → Color → Bool
  variantOutcome : α → Option Outcome

namespace PositionOps

variable {α : Type}

/-- `Position::checkers` (provided method). -/
def checkers (ops : PositionOps α) (pos : α) : Nat :=
  match bbFirst (ourBB (ops.board pos) (ops.turn pos) .king) with
  | none => 0
  | some king =>
    ops.kingAttackers pos king (ops.turn pos).other (ops.board pos).occupied

/-- `Position::is_checkmate` (provided method). -/
def isCheckmate (ops : PositionOps α) (pos : α) : Bool :=
  ops.checkers pos ≠ 0 && (ops.legalMoves pos).isEmpty

/-- `Position::is_stalemate` (provided method). -/
def isStalemate (ops : PositionOps α) (pos : α) : Bool :=
  ops.checkers pos = 0 && !ops.isVariantEnd pos && (ops.legalMoves pos).isEmpty

/-- `Position::is_insufficient_material` (provided method). -/
def isInsufficientMaterial (ops : PositionOps α) (pos : α) : Bool :=
  ops.hasInsufficientMaterial pos .white && ops.hasInsufficientMaterial pos .black

/-- `Position::outcome` (provided method). -/
def outcome (ops : PositionOps α) (pos : α) : Option Outcome :=
  match ops.variantOutcome pos with
  | some o => some o
  | none =>
    if ops.isCheckmate pos then some (.decisive (ops.turn pos).other)
    else if ops.isInsufficientMaterial pos || ops.isStalemate pos then some .draw
    else none

end PositionOps

/-! ### SAN (san.rs) -/

/-- san.rs `San`.  File and rank disambiguators are 0..7 indices. -/
inductive San where
  | normal (role : Role) (file : Option Nat) (rank : Option Nat)
      (capture : Bool) (toSq : Square) (promotion : Option Role)
  | castleShort
  | castleLong
  | put (role : Role) (toSq : Square)
  | null
deriving DecidableEq, Repr

/-- san.rs `SanPlus`. -/
structure SanPlus where
  san : San
  check : Bool
  checkmate : Bool
deriving DecidableEq, Repr

/-- Modelled from the spec: `Role::char` (lowercase letter of types.rs). -/
def Role.char : Role → Char
  | .pawn => 'p'
  | .knight => 'n'
  | .bishop => 'b'
  | .rook => 'r'
  | .queen => 'q'
  | .king => 'k'

/-- Modelled from the spec: `Role::from_char`, accepting either case as the
SAN parser passes uppercase letters directly. -/
def Role.fromByte (ch : Nat) : Option Role :=
  if ch = 112 ∨ ch = 80 then some .pawn
  else if ch = 110 ∨ ch = 78 then some .knight
  else if ch = 98 ∨ ch = 66 then some .bishop
  else if ch = 114 ∨ ch = 82 then some .rook
  else if ch = 113 ∨ ch = 81 then some .queen
  else if ch = 107 ∨ ch = 75 then some .king
  else none

/-- san.rs `rank_from_char` (byte value to 0..7). -/
def rankFromByte (ch : Nat) : Option Nat :=
  if 49 ≤ ch ∧ ch ≤ 56 then some (ch - 49) else none

/-- san.rs `file_from_char`. -/
def fileFromByte (ch : Nat) : Option Nat :=
  if 97 ≤ ch ∧ ch ≤ 104 then some (ch - 97) else none

/-- `u8::is_uppercase` as used on ASCII input. -/
def isUpperByte (ch : Nat) : Bool := 65 ≤ ch && ch ≤ 90

/-- Modelled from the spec: `Square::from_bytes` — exactly two bytes naming a
file a..h and a rank 1..8. -/
def squareFromBytes (bs : List Nat) : Option Square :=
  match bs with
  | [f, r] =>
    match fileFromByte f, rankFromByte r with
    | some fv, some rv => Square.fromCoords fv rv
    | _, _ => none
  | _ => none

/-- san.rs `San::from_bytes`, over the byte values of the input. -/
def sanFromBytes (input : List Nat) : Option San :=
  let san :=
    if input.getLast? = some 35 ∨ input.getLast? = some 43 then input.dropLast
    else input
  if san = [45, 45] then some .null
  else if san = [79, 45, 79] then some .castleShort
  else if san = [79, 45, 79, 45, 79] then some .castleLong
  else if san.length = 3 ∧ san.head? = some 64 then
    (squareFromBytes (san.drop 1)).map (fun sq => San.put .pawn sq)
  else if san.length = 4 ∧ san.get? 1 = some 64 then
    match san with
    | r :: _ :: sqBytes =>
      match Role.fromByte r, squareFromBytes sqBytes with
      | some role, some sq => some (San.put role sq)
      | _, _ => none
    | _ => none
  else do
    let (role, next, rest) ←
      match san with
      | [] => none
      | ch :: rest =>
        if isUpperByte ch then
          match Role.fromByte ch, rest with
          | some role, n :: rest => some (role, n, rest)
          | _, _ => none
        else some (Role.pawn, ch, rest)
    let (file, next, rest) ←
      if 97 ≤ next ∧ next ≤ 104 then
        match rest with
        | n :: rest => some (some (next - 97), n, rest)
        | [] => none
      else some ((none : Option Nat), next, rest)
    let (rank, nextOpt, rest) :=
      if 49 ≤ next ∧ next ≤ 56 then ((some (next - 49) : Option Nat), rest.head?, rest.tail)
      else (none, some next, rest)
    let (capture, file, rank, toSq, nextOpt, rest) ←
      match nextOpt with
      | some n =>
        if n = 120 then do
          let toFile ← rest.head? >>= fileFromByte
          let toRank ← rest.tail.head? >>= rankFromByte
          let sq ← Square.fromCoords toFile toRank
          pure (true, file, rank, sq, rest.tail.tail.head?, rest.tail.tail.tail)
        else if n = 61 then do
          let f ← file
          let r ← rank
          let sq ← Square.fromCoords f r
          pure (false, (none : Option Nat), (none : Option Nat), sq,
            (some 61 : Option Nat), rest)
        else do
          let toFile ← fileFromByte n
          let toRank ← rest.head? >>= rankFromByte
          let sq ← Square.fromCoords toFile toRank
          pure (false, file, rank, sq, rest.tail.head?, rest.tail.tail)
      | none => do
        let f ← file
        let r ← rank
        let sq ← Square.fromCoords f r
        pure (false, (none : Option Nat), (none : Option Nat), sq,
          (none : Option Nat), rest)
    let promotion ←
      match nextOpt with
      | some 61 => do
        let pc ← rest.head?
        let role ← Role.fromByte pc
        pure (some role)
      | some _ => none
      | none => pure (none : Option Role)
    pure (San.normal role file rank capture toSq promotion)

/-- san.rs `SanPlus::from_bytes`: parse the `San` and record whether the raw
input ended in `#` or `+`. -/
def sanPlusFromBytes (input : List Nat) : Option SanPlus :=
  (sanFromBytes input).map (fun s =>
    { san := s, checkmate := input.getLast? = some 35,
      check := input.getLast? = some 43 })

/-- `Display` for squares (file letter then rank digit). -/
def squareName (s : Square) : String :=
  ⟨[Char.ofNat (97 + s.file), Char.ofNat (49 + s.rank)]⟩

/-- san.rs `Display` for `San`. -/
def sanToString (s : San) : String :=
  match s with
  | .normal role file rank capture toSq promotion =>
    (if role ≠ .pawn then String.singleton role.char.toUpper else "") ++
    (match file with
     | some f => String.singleton (Char.ofNat (97 + f))
     | none => "") ++
    (match rank with
     | some r => String.singleton (Char.ofNat (49 + r))
     | none => "") ++
    (if capture then "x" else "") ++
    squareName toSq ++
    (match promotion with
     | some p => "=" ++ String.singleton p.char.toUpper
     | none => "")
  | .castleShort => "O-O"
  | .castleLong => "O-O-O"
  | .put .pawn toSq => "@" ++ squareName toSq
  | .put role toSq => String.singleton role.char.toUpper ++ "@" ++ squareName toSq
  | .null => "--"

/-- san.rs `Display` for `SanPlus`: `#` when checkmate, else `+` when check. -/
def sanPlusToString (sp : SanPlus) : String :=
  if sp.checkmate then sanToString sp.san ++ "#"
  else if sp.check then sanToString sp.san ++ "+"
  else sanToString sp.san

/-- san.rs `san`: convert a move to (possibly disambiguated) SAN against a
position. -/
def san {α : Type} (ops : PositionOps α) (pos : α) (m : Move) : San :=
  match m with
  | .normal .pawn f capture t promotion =>
    San.normal .pawn (if capture.isSome then some f.file else none) none
      capture.isSome t promotion
  | .normal role f capture t promotion =>
    let legals := ops.legalMoves pos
    let rankFile := legals.foldl (fun (acc : Bool × Bool) c =>
      match c with
      | .normal r candidate _ t' _ =>
        if role ≠ r ∨ t ≠ t' ∨ f = candidate then acc
        else if f.rank = candidate.rank ∨ f.file ≠ candidate.file then (acc.1, true)
        else (true, acc.2)
      | _ => acc) (false, false)
    San.normal role (if rankFile.2 then some f.file else none)
      (if rankFile.1 then some f.rank else none) capture.isSome t promotion
  | .enPassant f t => San.normal .pawn (some f.file) none true t none
  | .castle king rook =>
    if rook.file < king.file then San.castleLong else San.castleShort
  | .put role t => San.put role t

/-- san.rs `san_plus`: render the SAN, play the move, and attach `#` when the
resulting position's outcome is decisive, else `+` when the opponent is in
check. -/
def sanPlus {α : Type} (ops : PositionOps α) (pos : α) (m : Move) : SanPlus :=
  let s := san ops pos m
  let pos2 := ops.playUnchecked pos m
  let checkmate :=
    match ops.outcome pos2 with
    | some (.decisive _) => true
    | _ => false
  { san := s, checkmate := checkmate,
    check := !checkmate && ops.checkers pos2 ≠ 0 }

/-! ### Bit extract/deposit and the magic attack tables (attacks.rs
`init_magics`; `Bitboard::extract`/`deposit`/`subsets` are modelled from the
spec, bitboard.rs not being in src) -/

/-- Population count (`Bitboard::count` on arbitrary naturals). -/
def countBits (m : Nat) : Nat :=
  if h : m = 0 then 0 else m % 2 + countBits (m / 2)
decreasing_by exact Nat.div_lt_self (Nat.pos_of_ne_zero h) one_lt_two

/-- Structural-fuel mirror of `countBits`, agreeing on all 64-bit values and
evaluable by the kernel. -/
def countBitsFuel : Nat → Nat → Nat
  | 0, _ => 0
  | fuel + 1, m => if m = 0 then 0 else m % 2 + countBitsFuel fuel (m / 2)

/-- Modelled from the spec: `extract(x, M)` (PEXT) packs the bits of `x` at
the positions of `M` into the low `popcount M` bits. -/
def pext (x m : Nat) : Nat :=
  if h : m = 0 then 0
  else if m % 2 = 1 then x % 2 + 2 * pext (x / 2) (m / 2)
  else pext (x / 2) (m / 2)
decreasing_by
  all_goals exact Nat.div_lt_self (Nat.pos_of_ne_zero h) one_lt_two

/-- Modelled from the spec: `deposit(y, M)` (PDEP) scatters the low bits of
`y` back to the positions of `M`. -/
def pdep (y m : Nat) : Nat :=
  if h : m = 0 then 0
  else if m % 2 = 1 then y % 2 + 2 * pdep (y / 2) (m / 2)
  else 2 * pdep y (m / 2)
decreasing_by
  all_goals exact Nat.div_lt_self (Nat.pos_of_ne_zero h) one_lt_two

/-- Modelled from the spec: Carry-Rippler subset enumeration of a mask —
every submask of `M`, visited in the order `deposit(0,M), deposit(1,M), ...`
produced by `S ← (S - M) & M`. -/
def subsetsList (m : Nat) : List Nat :=
  (List.range (2 ^ countBits m)).map (fun i => pdep i m)

/-- attacks.rs `init_magics`: the full reach of a slider from `s` ignoring
blockers (`ranges[s]`). -/
def magicRange (deltas : List Int) (s : Square) : Nat :=
  slidingAttacks s 0 deltas

/-- attacks.rs `init_magics`: the relevant-occupancy mask (`masks[s]`) — the
range minus the edge squares off the piece's own rank and file. -/
def magicMask (deltas : List Int) (s : Square) : Nat :=
  let edges := ((bbRank 0 ||| bbRank 7) &&& bbNot (bbRank s.rank)) |||
               ((bbFile 0 ||| bbFile 7) &&& bbNot (bbFile s.file))
  magicRange deltas s &&& bbNot edges

/-- `magicMask` lifted to raw indices (zero off the board), for the
index-accumulation recursion. -/
def magicMaskN (deltas : List Int) (n : Nat) : Nat :=
  if h : n < 64 then magicMask deltas ⟨n, h⟩ else 0

/-- attacks.rs `init_magics`: the per-square base index
(`indexes[s+1] = indexes[s] + size`, where `size` counts the enumerated
subsets of the square's mask). -/
def magicIndexOf (deltas : List Int) : Nat → Nat
  | 0 => 0
  | n + 1 => magicIndexOf deltas n + 2 ^ countBits (magicMaskN deltas n)

/-- attacks.rs `init_magics`: the sequence of table writes
`attacks[indexes[s] + subset.extract(mask)] = sliding_attacks(s, subset)
.extract(range) as u16`, in loop order. -/
def magicEntries (deltas : List Int) : List (Nat × Nat) :=
  (List.finRange 64).flatMap (fun s =>
    (subsetsList (magicMask deltas s)).map (fun sub =>
      (magicIndexOf deltas s.val + pext sub (magicMask deltas s),
       pext (slidingAttacks s sub deltas) (magicRange deltas s) % 65536)))

/-- The attack table after `init_magics` has performed all writes over the
zero-initialised vector. -/
def magicTable (deltas : List Int) : Nat → Nat :=
  (magicEntries deltas).foldl
    (fun tbl e => fun j => if j = e.1 then e.2 else tbl j) (fun _ => 0)

/-- `Precomp::rook_attacks`, the magic-style lookup: extract the occupancy
under the relevant mask, index the table, deposit the packed entry over the
range. -/
def rookAttacksMagic (s : Square) (occupied : Nat) : Nat :=
  let mask := magicMask ROOK_DELTAS s
  let range := magicRange ROOK_DELTAS s
  pdep (magicTable ROOK_DELTAS
    (magicIndexOf ROOK_DELTAS s.val + pext occupied mask)) range

/-! ### Concrete positions and strings used by the claims -/

/-- Byte values of an ASCII string, as `San::from_bytes` receives them. -/
def strBytes (s : String) : List Nat := s.data.map Char.toNat

/-- The board of FEN `2Nq4/2K5/1b6/8/7R/3k4/7P/8`: white Nc8, Kc7, Rh4, Ph2;
black Qd8, Bb6, Kd3. -/
def fen5Board : Board :=
  { white := 0x404000080008000
    black := 0x800020000080000
    pawns := 0x8000
    knights := 0x400000000000000
    bishops := 0x20000000000
    rooks := 0x80000000
    queens := 0x800000000000000
    kings := 0x4000000080000
    promoted := 0 }

/-- The full setup of FEN `2Nq4/2K5/1b6/8/7R/3k4/7P/8 w - - 0 1`. -/
def fen5Setup : SetupData :=
  { board := fen5Board, turn := .white, castlingRights := 0,
    epSquare := none, halfmoves := 0, fullmoves := 1 }

/-- The candidate `Chess` position built from `fen5Setup`. -/
def fen5Pos : Chess := (chessFromSetupUnchecked fen5Setup).1

/-- The board of the standard starting position. -/
def startBoard : Board :=
  { white := 0xFFFF
    black := 0xFFFF000000000000
    pawns := 0x00FF00000000FF00
    knights := 0x4200000000000042
    bishops := 0x2400000000000024
    rooks := 0x8100000000000081
    queens := 0x0800000000000008
    kings := 0x1000000000000010
    promoted := 0 }

/-- The standard starting position with no castling rights (the castling
state is irrelevant to the claims evaluated on it). -/
def startPos : Chess :=
  { board := startBoard, turn := .white, castles := Castles.empty,
    epSquare := none, halfmoves := 0, fullmoves := 1 }

/-- `Ng1–f3` in the starting position. -/
def nf3Move : Move :=
  Move.normal .knight ⟨6, by decide⟩ none ⟨21, by decide⟩ none

/-- An illegal move in the starting position (a king teleport). -/
def badMove : Move :=
  Move.normal .king ⟨4, by decide⟩ none ⟨36, by decide⟩ none

/-- An Antichess position with a forced capture: white Pd4 against black Pe5. -/
def antiPos : Antichess :=
  { board :=
      { white := 1 <<< 27, black := 1 <<< 36, pawns := (1 <<< 27) ||| (1 <<< 36),
        knights := 0, bishops := 0, rooks := 0, queens := 0, kings := 0,
        promoted := 0 }
    turn := .white, epSquare := none, halfmoves := 0, fullmoves := 1 }

/-- A Crazyhouse position: lone kings (e1, e8) and a knight in White's
pocket. -/
def zhPos : Crazyhouse :=
  { chess :=
      { board :=
          { white := 1 <<< 4, black := 1 <<< 60, pawns := 0, knights := 0,
            bishops := 0, rooks := 0, queens := 0,
            kings := (1 <<< 4) ||| (1 <<< 60), promoted := 0 }
        turn := .white, castles := Castles.empty, epSquare := none,
        halfmoves := 0, fullmoves := 1 }
    pockets :=
      { white := { pawns := 0, knights := 1, bishops := 0, rooks := 0,
                   queens := 0, kings := 0 }
        black := { pawns := 0, knights := 0, bishops := 0, rooks := 0,
                   queens := 0, kings := 0 } } }

/-- The board of FEN `7k/8/8/3pP3/8/3n4/8/4K3`: white Ke1, Pe5; black Kh8,
Pd5, Nd3. -/
def c1Board : Board :=
  { white := 0x1000000010
    black := 0x8000000800080000
    pawns := 0x1800000000
    knights := 0x80000
    bishops := 0
    rooks := 0
    queens := 0
    kings := 0x8000000000000010
    promoted := 0 }

/-- The position of FEN `7k/8/8/3pP3/8/3n4/8/4K3 w - d6 0 1`: White to move is
in check by the knight on d3 while the en-passant capture e5xd6 is available
(an unreachable but validation-accepted configuration). -/
def c1Pos : Chess :=
  { board := c1Board, turn := .white, castles := Castles.empty,
    epSquare := some ⟨43, by decide⟩, halfmoves := 0, fullmoves := 1 }

/-- The en-passant capture e5xd6 in `c1Pos`. -/
def c1EpMove : Move := Move.enPassant ⟨36, by decide⟩ ⟨43, by decide⟩

/-! ## Theorems for the claims -/

/-- C2: Atomicity of checked play.  For every variant position (the trait
method `play` is generic and never overridden) and every move, if `is_legal`
is false then `play` returns `Err` carrying the position unchanged, and if it
is true then `play` returns `Ok` of exactly `play_unchecked` applied to the
position; instantiated at `Chess`, the rejected position is returned with
every field structurally unchanged. -/
theorem C2_checked_play_atomicity :
    (∀ (α : Type) (isLegalFn : α → Move → Bool) (playUncheckedFn : α → Move → α)
        (pos : α) (m : Move),
      (isLegalFn pos m = false →
        playGeneric isLegalFn playUncheckedFn pos m = Except.error pos) ∧
      (isLegalFn pos m = true →
        playGeneric isLegalFn playUncheckedFn pos m =
          Except.ok (playUncheckedFn pos m))) ∧
    (∀ (pos : Chess) (m : Move), Chess.isLegal pos m = false →
      ∃ q, Chess.play pos m = Except.error q ∧ q.board = pos.board ∧
        q.turn = pos.turn ∧ q.castles = pos.castles ∧
        q.epSquare = pos.epSquare ∧ q.halfmoves = pos.halfmoves ∧
        q.fullmoves = pos.fullmoves) := by
  constructor
  · intro α isLegalFn playUncheckedFn pos m
    constructor <;> intro h <;> simp [playGeneric, h]
  · intro pos m h
    exact ⟨pos, by simp [Chess.play, playGeneric, h], rfl, rfl, rfl, rfl, rfl, rfl⟩

/-- Witness for C2: in the starting position, the legal `Ng1-f3` plays through
`play_unchecked` and an illegal king teleport is rejected with the position
returned unchanged. -/
theorem C2_checked_play_atomicity_witness :
    Chess.play startPos nf3Move = Except.ok (Chess.playUnchecked startPos nf3Move) ∧
    Chess.play startPos badMove = Except.error startPos := by
  refine ⟨?_, ?_⟩
  · exact (C2_checked_play_atomicity.1 Chess Chess.isLegal Chess.playUnchecked
      startPos nf3Move).2 (by decide)
  · exact (C2_checked_play_atomicity.1 Chess Chess.isLegal Chess.playUnchecked
      startPos badMove).1 (by decide)

/-- C7: SanPlus suffix rule.  For every position (any type implementing the
`Position` trait surface) and every move, `san_plus` sets `checkmate` iff the
position after the move has a decisive outcome, sets `check` iff `checkmate`
is false and the mover's opponent then has a nonempty checker set, and its
rendering is the plain SAN followed by `#`, `+`, or nothing accordingly. -/
theorem C7_san_plus_suffix {α : Type} (ops : PositionOps α) (pos : α) (m : Move) :
    ((sanPlus ops pos m).checkmate = true ↔
      ∃ w, ops.outcome (ops.playUnchecked pos m) = some (.decisive w)) ∧
    ((sanPlus ops pos m).check = true ↔
      ((sanPlus ops pos m).checkmate = false ∧
        ops.checkers (ops.playUnchecked pos m) ≠ 0)) ∧
    sanPlusToString (sanPlus ops pos m) =
      sanToString (san ops pos m) ++
        (if (sanPlus ops pos m).checkmate then "#"
         else if (sanPlus ops pos m).check then "+" else "") := by
  refine ⟨?_, ?_, ?_⟩
  · unfold sanPlus
    cases h : ops.outcome (ops.playUnchecked pos m) with
    | none => simp [h]
    | some o => cases o <;> simp [h]
  · unfold sanPlus
    cases h : ops.outcome (ops.playUnchecked pos m) with
    | none => simp [h]
    | some o => cases o <;> simp [h]
  · unfold sanPlus sanPlusToString
    rcases hcm : (match ops.outcome (ops.playUnchecked pos m) with
      | some (Outcome.decisive _) => true
      | _ => false) with _ | _ <;>
      simp [hcm] <;>
      by_cases hck : ops.checkers (ops.playUnchecked pos m) = 0 <;>
      simp [hck]

/-- C8: SAN text round-trip.  Each of the fifteen strings parses as a
`SanPlus` and formatting the result reproduces the original string. -/
theorem C8_san_round_trip :
    (sanPlusFromBytes (strBytes "e4")).map sanPlusToString = some "e4" ∧
    (sanPlusFromBytes (strBytes "b6")).map sanPlusToString = some "b6" ∧
    (sanPlusFromBytes (strBytes "hxg7")).map sanPlusToString = some "hxg7" ∧
    (sanPlusFromBytes (strBytes "N2c4")).map sanPlusToString = some "N2c4" ∧
    (sanPlusFromBytes (strBytes "Red3")).map sanPlusToString = some "Red3" ∧
    (sanPlusFromBytes (strBytes "Qh1=K")).map sanPlusToString = some "Qh1=K" ∧
    (sanPlusFromBytes (strBytes "d1=N")).map sanPlusToString = some "d1=N" ∧
    (sanPlusFromBytes (strBytes "@e4#")).map sanPlusToString = some "@e4#" ∧
    (sanPlusFromBytes (strBytes "K@b3")).map sanPlusToString = some "K@b3" ∧
    (sanPlusFromBytes (strBytes "Ba5")).map sanPlusToString = some "Ba5" ∧
    (sanPlusFromBytes (strBytes "Bba5")).map sanPlusToString = some "Bba5" ∧
    (sanPlusFromBytes (strBytes "Ra1a8")).map sanPlusToString = some "Ra1a8" ∧
    (sanPlusFromBytes (strBytes "--")).map sanPlusToString = some "--" ∧
    (sanPlusFromBytes (strBytes "O-O")).map sanPlusToString = some "O-O" ∧
    (sanPlusFromBytes (strBytes "O-O-O+")).map sanPlusToString = some "O-O-O+" := by
  decide

/-- C9: the public en-passant accessor is filtered by relevance — for every
`Chess` position it returns `some sq` iff the internal field holds `sq` and at
least one legal en-passant capture exists (`en_passant_moves` nonempty);
otherwise it returns `none` even when the field is set. -/
theorem C9_ep_square_accessor (pos : Chess) (sq : Square) :
    pos.epSquareAccessor = some sq ↔
      (pos.epSquare = some sq ∧ pos.enPassantMoves ≠ []) := by
  unfold Chess.epSquareAccessor Chess.hasRelevantEp
  cases h : pos.epSquare <;>
    simp [Option.filter, List.isEmpty_iff, and_comm]


theorem mem_ite_filter {l : List Move} {p : Move → Bool} {c : Prop}
    [Decidable c] {m : Move} (h : m ∈ if c then l.filter p else l) : m ∈ l := by
  split at h
  · exact (List.mem_filter.mp h).1
  · exact h

theorem notPut_genPawnMoves {b : Board} {c : Color} {tg : Nat} {m : Move}
    (h : m ∈ genPawnMoves b c tg) : m.isPut = false := by
  unfold genPawnMoves pushPromotions at h
  simp only [List.mem_append, List.mem_flatMap, List.mem_map, List.mem_filterMap,
    List.mem_cons, List.not_mem_nil, or_false, Option.map_eq_some'] at h
  rcases h with (((h | h) | h) | h) | h
  · obtain ⟨f, -, t, -, rfl⟩ := h; rfl
  · obtain ⟨f, -, t, -, rfl | rfl | rfl | rfl⟩ := h <;> rfl
  · obtain ⟨t, -, f, -, rfl⟩ := h; rfl
  · obtain ⟨t, -, h⟩ := h
    rcases ho : t.offset (c.fold (-8) 8) with _ | f <;> rw [ho] at h
    · simp at h
    · simp only [List.mem_cons, List.not_mem_nil, or_false] at h
      rcases h with rfl | rfl | rfl | rfl <;> rfl
  · obtain ⟨t, -, f, -, rfl⟩ := h; rfl

theorem notPut_genAttackMoves {role : Role} {fn : Square → Nat} {b : Board}
    {c : Color} {tg : Nat} {m : Move}
    (h : m ∈ genAttackMoves role fn b c tg) : m.isPut = false := by
  unfold genAttackMoves at h
  simp only [List.mem_flatMap, List.mem_map] at h
  obtain ⟨f, -, t, -, rfl⟩ := h; rfl

theorem notPut_genNonKing {b : Board} {c : Color} {tg : Nat} {m : Move}
    (h : m ∈ genNonKing b c tg) : m.isPut = false := by
  unfold genNonKing at h
  simp only [List.mem_append] at h
  rcases h with (((h | h) | h) | h) | h
  · exact notPut_genPawnMoves h
  all_goals exact notPut_genAttackMoves h

theorem notPut_genSafeKing {b : Board} {c : Color} {k : Square} {tg : Nat}
    {m : Move} (h : m ∈ genSafeKing b c k tg) : m.isPut = false := by
  unfold genSafeKing at h
  simp only [List.mem_filterMap] at h
  obtain ⟨t, -, h⟩ := h
  by_cases hc : b.attacksTo t c.other b.occupied = 0 <;> simp [hc] at h
  subst h; rfl

theorem notPut_genEnPassant {b : Board} {c : Color} {ep : Option Square}
    {m : Move} (h : m ∈ genEnPassant b c ep) : m.isPut = false := by
  unfold genEnPassant at h
  cases ep with
  | none => simp at h
  | some t =>
    simp only [List.mem_map] at h
    obtain ⟨f, -, rfl⟩ := h; rfl

theorem notPut_evasions {b : Board} {c : Color} {k : Square} {ck : Nat}
    {m : Move} (h : m ∈ evasions b c k ck) : m.isPut = false := by
  unfold evasions at h
  simp only [List.mem_append] at h
  rcases h with h | h
  · exact notPut_genSafeKing h
  · rcases hs : bbSingleSquare ck with _ | checker <;> rw [hs] at h
    · simp at h
    · exact notPut_genNonKing h

theorem notPut_genCastlingMoves {ka : Square → Color → Nat → Nat} {b : Board}
    {c : Color} {cs : Castles} {k : Square} {side : CastlingSide} {m : Move}
    (h : m ∈ genCastlingMoves ka b c cs k side) : m.isPut = false := by
  unfold genCastlingMoves at h
  rcases hr : cs.rookSq c side with _ | rook <;> rw [hr] at h
  · simp at h
  · split at h
    · simp at h
    · split at h
      · simp at h
      · split at h
        · simp at h
        · split at h
          · simp at h
          · simp only [List.mem_singleton] at h; subst h; rfl

theorem notPut_chessLegalMoves {pos : Chess} {m : Move}
    (h : m ∈ pos.legalMoves) : m.isPut = false := by
  unfold Chess.legalMoves at h
  rcases hk : pos.board.kingOf pos.turn with _ | king <;> rw [hk] at h
  · simp at h
  · have h2 : m ∈ genEnPassant pos.board pos.turn pos.epSquare ++
        (if pos.checkers = 0 then
          genNonKing pos.board pos.turn (bbNot (usBB pos.board pos.turn)) ++
          genSafeKing pos.board pos.turn king (bbNot (usBB pos.board pos.turn)) ++
          genCastlingMoves (fun s c occ => pos.board.attacksTo s c occ)
            pos.board pos.turn pos.castles king .kingSide ++
          genCastlingMoves (fun s c occ => pos.board.attacksTo s c occ)
            pos.board pos.turn pos.castles king .queenSide
        else evasions pos.board pos.turn king pos.checkers) := mem_ite_filter h
    rcases List.mem_append.mp h2 with h3 | h3
    · exact notPut_genEnPassant h3
    · split at h3
      · rcases List.mem_append.mp h3 with h4 | h4
        · rcases List.mem_append.mp h4 with h5 | h5
          · rcases List.mem_append.mp h5 with h6 | h6
            · exact notPut_genNonKing h6
            · exact notPut_genSafeKing h6
          · exact notPut_genCastlingMoves h5
        · exact notPut_genCastlingMoves h4
      · exact notPut_evasions h3

theorem chessSanCandidates_some (pos : Chess) (role : Role) (toSq : Square)
    (king : Square) (hk : pos.board.kingOf pos.turn = some king) :
    pos.sanCandidates role toSq =
      (if sliderBlockers pos.board (themBB pos.board pos.turn) king ≠ 0 ∨
          (!(if role = .pawn ∧ some toSq = pos.epSquare then
              genEnPassant pos.board pos.turn pos.epSquare
            else []).isEmpty) = true then
        (((if pos.checkers = 0 then
          (if !(usBB pos.board pos.turn).testBit toSq.val then
            (match role with
             | .pawn => genPawnMoves pos.board pos.turn (bbSquare toSq)
             | .king => genSafeKing pos.board pos.turn king (bbSquare toSq)
             | _ => []) ++
            (bbSquares ((match role with
              | .pawn | .king => 0
              | .knight => knightAttacks toSq
              | .bishop => bishopAttacks toSq pos.board.occupied
              | .rook => rookAttacks toSq pos.board.occupied
              | .queen => queenAttacks toSq pos.board.occupied) &&&
                ourBB pos.board pos.turn role)).map (fun f =>
              Move.normal role f (pos.board.roleAt toSq) toSq none)
          else [])
        else
          filterSanCandidates role toSq
            (evasions pos.board pos.turn king pos.checkers)) ++
        (if role = .pawn ∧ some toSq = pos.epSquare then
          genEnPassant pos.board pos.turn pos.epSquare
        else [])).filter (fun m => isSafe pos.board pos.turn king m
          (sliderBlockers pos.board (themBB pos.board pos.turn) king)))
      else
        ((if pos.checkers = 0 then
          (if !(usBB pos.board pos.turn).testBit toSq.val then
            (match role with
             | .pawn => genPawnMoves pos.board pos.turn (bbSquare toSq)
             | .king => genSafeKing pos.board pos.turn king (bbSquare toSq)
             | _ => []) ++
            (bbSquares ((match role with
              | .pawn | .king => 0
              | .knight => knightAttacks toSq
              | .bishop => bishopAttacks toSq pos.board.occupied
              | .rook => rookAttacks toSq pos.board.occupied
              | .queen => queenAttacks toSq pos.board.occupied) &&&
                ourBB pos.board pos.turn role)).map (fun f =>
              Move.normal role f (pos.board.roleAt toSq) toSq none)
          else [])
        else
          filterSanCandidates role toSq
            (evasions pos.board pos.turn king pos.checkers)) ++
        (if role = .pawn ∧ some toSq = pos.epSquare then
          genEnPassant pos.board pos.turn pos.epSquare
        else []))) := by
  unfold Chess.sanCandidates
  rw [hk]

theorem notPut_chessSanCandidates {pos : Chess} {role : Role} {toSq : Square}
    {m : Move} (h : m ∈ pos.sanCandidates role toSq) : m.isPut = false := by
  rcases hk : pos.board.kingOf pos.turn with _ | king
  · unfold Chess.sanCandidates at h
    rw [hk] at h
    simp at h
  · rw [chessSanCandidates_some pos role toSq king hk] at h
    have h2 := mem_ite_filter h
    rcases List.mem_append.mp h2 with h3 | h3
    · split at h3
      · split at h3
        · rcases List.mem_append.mp h3 with h4 | h4
          · cases role <;>
              first
              | exact notPut_genPawnMoves h4
              | exact notPut_genSafeKing h4
              | simp at h4
          · simp only [List.mem_map] at h4
            obtain ⟨f, -, rfl⟩ := h4; rfl
        · simp at h3
      · exact notPut_evasions (List.mem_filter.mp h3).1
    · split at h3
      · exact notPut_genEnPassant h3
      · simp at h3

theorem material_byColor_setColor (m : Material) (c : Color) (ms : MaterialSide) :
    (m.setColor c ms).byColor c = ms := by
  cases c <;> rfl

theorem materialSide_byRole_decRole (ms : MaterialSide) (r : Role) :
    (ms.decRole r).byRole r = ms.byRole r - 1 := by
  cases r <;> rfl

/-- C10: Crazyhouse pocket decrement cannot underflow on generated drops —
every `Put` move contained in `legal_moves` or `san_candidates` has a pocket
count of at least 1 for the dropped role on the side to move, so the
subtraction done by `Crazyhouse::play_unchecked` on that pocket is exact
(count − 1 + 1 = count). -/
theorem C10_crazyhouse_pocket_no_underflow (pos : Crazyhouse) (r : Role) (t : Square) :
    (Move.put r t ∈ pos.legalMoves → 1 ≤ pos.ourPocket.byRole r) ∧
    (∀ r' t', Move.put r t ∈ pos.sanCandidates r' t' →
      1 ≤ pos.ourPocket.byRole r) ∧
    (Move.put r t ∈ pos.legalMoves →
      ((pos.playUnchecked (Move.put r t)).pockets.byColor pos.chess.turn).byRole r
        + 1 = pos.ourPocket.byRole r) := by
  have mainLegal : Move.put r t ∈ pos.legalMoves → 1 ≤ pos.ourPocket.byRole r := by
    intro h
    have h2 : Move.put r t ∈ pos.chess.legalMoves ++
        ((bbSquares pos.legalPutSquares).flatMap (fun t' =>
          [Role.knight, Role.bishop, Role.rook, Role.queen].filterMap (fun r' =>
            if 0 < pos.ourPocket.byRole r' then some (Move.put r' t') else none))) ++
        (if 0 < pos.ourPocket.pawns then
          (bbSquares (pos.legalPutSquares &&& bbNot bbBackranks)).map
            (fun t' => Move.put .pawn t')
        else []) := h
    rcases List.mem_append.mp h2 with h3 | h3
    · rcases List.mem_append.mp h3 with h4 | h4
      · exact absurd (notPut_chessLegalMoves h4) (by simp [Move.isPut])
      · simp only [List.mem_flatMap, List.mem_filterMap, List.mem_cons,
          List.not_mem_nil, or_false] at h4
        obtain ⟨t', -, r', -, h5⟩ := h4
        by_cases hc : 0 < pos.ourPocket.byRole r' <;> simp [hc] at h5
        obtain ⟨rfl, -⟩ := h5
        omega
    · split at h3
      · simp only [List.mem_map] at h3
        obtain ⟨t', -, h4⟩ := h3
        cases h4
        rename_i hc
        simpa using hc
      · simp at h3
  refine ⟨mainLegal, ?_, ?_⟩
  · intro r' t' h
    have h2 : Move.put r t ∈ pos.chess.sanCandidates r' t' ++
        (if 0 < pos.ourPocket.byRole r' ∧ pos.legalPutSquares.testBit t'.val ∧
            (r' ≠ .pawn ∨ ¬ bbBackranks.testBit t'.val) then
          [Move.put r' t']
        else []) := h
    rcases List.mem_append.mp h2 with h3 | h3
    · exact absurd (notPut_chessSanCandidates h3) (by simp [Move.isPut])
    · split at h3
      · rename_i hc
        simp only [List.mem_singleton] at h3
        cases h3
        exact hc.1
      · simp at h3
  · intro h
    have h1 := mainLegal h
    show ((pos.pockets.setColor pos.chess.turn
      ((pos.pockets.byColor pos.chess.turn).decRole r)).byColor pos.chess.turn).byRole r
        + 1 = pos.ourPocket.byRole r
    rw [material_byColor_setColor, materialSide_byRole_decRole]
    have : pos.ourPocket.byRole r = (pos.pockets.byColor pos.chess.turn).byRole r := rfl
    omega

theorem mem_bbSquares {bb : Nat} {s : Square} :
    s ∈ bbSquares bb ↔ bb.testBit s.val = true := by
  simp [bbSquares, List.mem_filter, List.mem_finRange]

theorem testBit_bbNot {x i : Nat} (h : i < 64) :
    (bbNot x).testBit i = !x.testBit i := by
  have hall : bbAll.testBit i = true := by
    have : bbAll = 2 ^ 64 - 1 := by norm_num [bbAll]
    rw [this, Nat.testBit_two_pow_sub_one]
    simpa using h
  simp [bbNot, Nat.testBit_xor, hall]

theorem testBit_themBB_occupied {b : Board} {c : Color} {i : Nat}
    (h : (themBB b c).testBit i = true) : b.occupied.testBit i = true := by
  cases c <;>
    simp_all [themBB, Board.byColor, Color.other, Color.fold, Board.occupied,
      Nat.testBit_lor]

theorem roleAt_isSome_of_occupied {b : Board} (hv : b.Valid) {s : Square}
    (h : b.occupied.testBit s.val = true) : (b.roleAt s).isSome = true := by
  have hunion := hv.2.1
  have h2 : (b.pawns ||| b.knights ||| b.bishops ||| b.rooks ||| b.queens |||
      b.kings).testBit s.val = true := by rw [hunion]; exact h
  simp only [Nat.testBit_lor, Bool.or_eq_true] at h2
  unfold Board.roleAt
  split_ifs <;> simp_all

theorem isCapture_genAttackMoves {role : Role} {fn : Square → Nat} {b : Board}
    {c : Color} {m : Move} (hv : b.Valid)
    (h : m ∈ genAttackMoves role fn b c (themBB b c)) : m.isCapture = true := by
  unfold genAttackMoves at h
  simp only [List.mem_flatMap, List.mem_map] at h
  obtain ⟨f, -, t, ht, rfl⟩ := h
  rw [mem_bbSquares] at ht
  simp only [Nat.testBit_land, Bool.and_eq_true] at ht
  have := roleAt_isSome_of_occupied hv (testBit_themBB_occupied ht.2)
  rcases hr : b.roleAt t with _ | r
  · rw [hr] at this; simp at this
  · simp [Move.isCapture, hr]

theorem isCapture_genPawnMoves {b : Board} {c : Color} {m : Move} (hv : b.Valid)
    (h : m ∈ genPawnMoves b c (themBB b c)) : m.isCapture = true := by
  unfold genPawnMoves pushPromotions at h
  simp only [List.mem_append, List.mem_flatMap, List.mem_map, List.mem_filterMap,
    List.mem_cons, List.not_mem_nil, or_false, Option.map_eq_some'] at h
  rcases h with (((h | h) | h) | h) | h
  · obtain ⟨f, -, t, ht, rfl⟩ := h
    rw [mem_bbSquares] at ht
    simp only [Nat.testBit_land, Bool.and_eq_true] at ht
    have := roleAt_isSome_of_occupied hv (testBit_themBB_occupied ht.1.2)
    rcases hr : b.roleAt t with _ | r
    · rw [hr] at this; simp at this
    · simp [Move.isCapture, hr]
  · obtain ⟨f, -, t, ht, hor⟩ := h
    rw [mem_bbSquares] at ht
    simp only [Nat.testBit_land, Bool.and_eq_true] at ht
    have := roleAt_isSome_of_occupied hv (testBit_themBB_occupied ht.1.2)
    rcases hr : b.roleAt t with _ | r
    · rw [hr] at this; simp at this
    · rcases hor with rfl | rfl | rfl | rfl <;> simp [Move.isCapture, hr]
  · obtain ⟨t, ht, f, -, rfl⟩ := h
    rw [mem_bbSquares] at ht
    simp only [Nat.testBit_land, Bool.and_eq_true] at ht
    have h1 := ht.1.1.2
    have h2 := testBit_themBB_occupied ht.1.2
    rw [testBit_bbNot t.isLt, h2] at h1
    simp at h1
  · obtain ⟨t, ht, h⟩ := h
    rw [mem_bbSquares] at ht
    simp only [Nat.testBit_land, Bool.and_eq_true] at ht
    have h1 := ht.1.1.2
    have h2 := testBit_themBB_occupied ht.1.2
    rw [testBit_bbNot t.isLt, h2] at h1
    simp at h1
  · obtain ⟨t, ht, f, -, rfl⟩ := h
    rw [mem_bbSquares] at ht
    simp only [Nat.testBit_land, Bool.and_eq_true] at ht
    have h1 := ht.1.2
    have h2 := testBit_themBB_occupied ht.2
    rw [testBit_bbNot t.isLt, h2] at h1
    simp at h1

theorem isCapture_antichessCaptureMoves {pos : Antichess} (hv : pos.board.Valid) :
    ∀ m ∈ pos.captureMoves, m.isCapture = true := by
  intro m h
  have h2 : m ∈ addKingPromotions (pos.enPassantMoves ++
      genNonKing pos.board pos.turn (themBB pos.board pos.turn)) ++
      genAttackMoves .king kingAttacks pos.board pos.turn
        (themBB pos.board pos.turn) := h
  have base : ∀ m' ∈ pos.enPassantMoves ++
      genNonKing pos.board pos.turn (themBB pos.board pos.turn),
      Move.isCapture m' = true := by
    intro m' hm'
    rcases List.mem_append.mp hm' with h3 | h3
    · unfold Antichess.enPassantMoves genEnPassant at h3
      rcases hep : pos.epSquare with _ | t <;> rw [hep] at h3
      · simp at h3
      · simp only [List.mem_map] at h3
        obtain ⟨f, -, rfl⟩ := h3; rfl
    · unfold genNonKing at h3
      simp only [List.mem_append] at h3
      rcases h3 with (((h4 | h4) | h4) | h4) | h4
      · exact isCapture_genPawnMoves hv h4
      all_goals exact isCapture_genAttackMoves hv h4
  rcases List.mem_append.mp h2 with h3 | h3
  · unfold addKingPromotions at h3
    rcases List.mem_append.mp h3 with h4 | h4
    · exact base m h4
    · simp only [List.mem_filterMap] at h4
      obtain ⟨m', hm', hf⟩ := h4
      have := base m' hm'
      rcases m' with _ | _ | _ | _
      case normal role f capture t promotion =>
        rcases promotion with _ | pr
        · simp at hf
        · rcases pr <;> simp at hf
          subst hf
          rcases capture with _ | cp
          · simp [Move.isCapture] at this
          · rfl
      all_goals simp at hf
  · exact isCapture_genAttackMoves hv h3

theorem antichessLegalMoves_eq (pos : Antichess) :
    pos.legalMoves =
      if pos.captureMoves.isEmpty then
        addKingPromotions (pos.captureMoves ++
          genNonKing pos.board pos.turn (bbNot pos.board.occupied)) ++
        genAttackMoves .king kingAttacks pos.board pos.turn
          (bbNot pos.board.occupied)
      else pos.captureMoves := rfl

/-- C6: Compulsory capture in Antichess — if at least one capturing move
(including en passant) is legal then `legal_moves` returns exactly the list
produced by `capture_moves`, every move of which is a capture; a non-capture
appears in `legal_moves` only when no capture exists. -/
theorem C6_antichess_compulsory_capture (pos : Antichess) (hv : pos.board.Valid) :
    (pos.captureMoves ≠ [] → pos.legalMoves = pos.captureMoves) ∧
    (∀ m ∈ pos.captureMoves, m.isCapture = true) ∧
    (∀ m ∈ pos.legalMoves, m.isCapture = false → pos.captureMoves = []) := by
  refine ⟨?_, isCapture_antichessCaptureMoves hv, ?_⟩
  · intro hne
    rw [antichessLegalMoves_eq]
    have : pos.captureMoves.isEmpty = false := by
      simpa [List.isEmpty_iff] using hne
    simp [this]
  · intro m hm hcap
    by_contra hne
    have hlegal := by
      rw [antichessLegalMoves_eq] at hm
      have : pos.captureMoves.isEmpty = false := by
        simpa [List.isEmpty_iff] using hne
      rw [this] at hm
      simpa using hm
    have := isCapture_antichessCaptureMoves hv m hlegal
    rw [hcap] at this
    exact absurd this (by simp)


/-- Witness for C6: in `antiPos` (white Pd4 vs black Pe5) a capture exists and
`legal_moves` equals `capture_moves`. -/
theorem C6_antichess_compulsory_capture_witness :
    Antichess.legalMoves antiPos = Antichess.captureMoves antiPos ∧
    Antichess.captureMoves antiPos ≠ [] :=
  ⟨(C6_antichess_compulsory_capture antiPos (by decide)).1 (by decide), by decide⟩

/-- Witness for C10: in `zhPos` the knight drop `N@e3` is generated and the
pocket holds one knight. -/
theorem C10_crazyhouse_pocket_no_underflow_witness :
    1 ≤ (Crazyhouse.ourPocket zhPos).byRole .knight ∧
    ((Crazyhouse.playUnchecked zhPos
        (Move.put .knight ⟨20, by decide⟩)).pockets.byColor .white).byRole .knight
      + 1 = (Crazyhouse.ourPocket zhPos).byRole .knight := by
  refine ⟨?_, ?_⟩
  · exact (C10_crazyhouse_pocket_no_underflow zhPos .knight ⟨20, by decide⟩).1
      (by decide)
  · exact (C10_crazyhouse_pocket_no_underflow zhPos .knight ⟨20, by decide⟩).2.2
      (by decide)

theorem bbSquare_eq_pow (s : Square) : bbSquare s = 2 ^ s.val := by
  unfold bbSquare
  rw [Nat.shiftLeft_eq]
  ring

theorem testBit_bbSquare (s : Square) (i : Nat) :
    (bbSquare s).testBit i = decide (s.val = i) := by
  rw [bbSquare_eq_pow]
  exact Nat.testBit_two_pow

theorem bbSquares_pairwise (bb : Nat) : (bbSquares bb).Pairwise (· < ·) :=
  (List.pairwise_lt_finRange 64).filter _

theorem testBit_true_lt64 {x i : Nat} (h : x < 2 ^ 64)
    (hi : x.testBit i = true) : i < 64 := by
  by_contra hc
  rw [Nat.testBit_eq_false_of_lt
    (lt_of_lt_of_le h (Nat.pow_le_pow_right (by norm_num) (by omega)))] at hi
  exact absurd hi (by simp)

theorem walkRay_lt (occ : Nat) (d : Int) (s : Int) (fuel : Nat) :
    walkRay occ d s fuel < 2 ^ 64 := by
  induction fuel generalizing s with
  | zero => simp [walkRay]
  | succ fuel ih =>
    unfold walkRay
    dsimp only
    split
    · positivity
    · rename_i hguard
      push_neg at hguard
      have hu : (s + d).toNat < 64 := by omega
      have h1 : (1 <<< (s + d).toNat) < 2 ^ 64 := by
        rw [Nat.shiftLeft_eq, one_mul]
        exact Nat.pow_lt_pow_right (by norm_num) hu
      split
      · simpa using h1
      · exact Nat.or_lt_two_pow h1 (ih _)

theorem slidingAttacks_lt (sq : Square) (occ : Nat) (deltas : List Int) :
    slidingAttacks sq occ deltas < 2 ^ 64 := by
  unfold slidingAttacks
  have : ∀ (l : List Int) (init : Nat), init < 2 ^ 64 →
      l.foldl (fun attack delta => attack ||| walkRay occ delta sq.val 64) init
        < 2 ^ 64 := by
    intro l
    induction l with
    | nil => intro init h; simpa using h
    | cons d rest ih =>
      intro init h
      exact ih _ (Nat.or_lt_two_pow h (walkRay_lt occ d sq.val 64))
  exact this _ 0 (by norm_num)

theorem attacksTo_lt (b : Board) (s : Square) (c : Color) (occ : Nat) :
    b.attacksTo s c occ < 2 ^ 64 := by
  unfold Board.attacksTo
  refine lt_of_le_of_lt Nat.and_le_right ?_
  have h1 : rookAttacks s occ &&& b.rooksAndQueens < 2 ^ 64 :=
    lt_of_le_of_lt Nat.and_le_left (slidingAttacks_lt s occ ROOK_DELTAS)
  have h2 : bishopAttacks s occ &&& b.bishopsAndQueens < 2 ^ 64 :=
    lt_of_le_of_lt Nat.and_le_left (slidingAttacks_lt s occ BISHOP_DELTAS)
  have h3 : knightAttacks s &&& b.knights < 2 ^ 64 :=
    lt_of_le_of_lt Nat.and_le_left (slidingAttacks_lt s bbAll KNIGHT_DELTAS)
  have h4 : kingAttacks s &&& b.kings < 2 ^ 64 :=
    lt_of_le_of_lt Nat.and_le_left (slidingAttacks_lt s bbAll KING_DELTAS)
  have h5 : pawnAttacks c.other s &&& b.pawns < 2 ^ 64 := by
    refine lt_of_le_of_lt Nat.and_le_left ?_
    cases c.other <;> exact slidingAttacks_lt s bbAll _
  exact Nat.or_lt_two_pow (Nat.or_lt_two_pow (Nat.or_lt_two_pow
    (Nat.or_lt_two_pow h1 h2) h3) h4) h5

theorem checkers_lt (pos : Chess) : pos.checkers < 2 ^ 64 := by
  unfold Chess.checkers
  split
  · norm_num
  · exact attacksTo_lt _ _ _ _

set_option maxHeartbeats 1000000 in
set_option maxRecDepth 10000 in
theorem ray_comm : ∀ a b : Square, ray a b = ray b a := by decide

theorem aligned_comm (a b k : Square) : aligned a b k = aligned b a k := by
  unfold aligned
  rw [ray_comm]

theorem bb_of_two_squares {bb : Nat} {x y : Square}
    (hsq : bbSquares bb = [x, y]) (hlt : bb < 2 ^ 64) :
    bb = bbSquare x ||| bbSquare y := by
  apply Nat.eq_of_testBit_eq
  intro i
  by_cases hi : i < 64
  · have hmem : bb.testBit i = true ↔ (⟨i, hi⟩ : Square) ∈ bbSquares bb :=
      (@mem_bbSquares bb ⟨i, hi⟩).symm
    rw [hsq] at hmem
    simp only [List.mem_cons, List.not_mem_nil, or_false] at hmem
    rw [Nat.testBit_lor, testBit_bbSquare, testBit_bbSquare]
    rcases hb : bb.testBit i with _ | _
    · have : ¬((⟨i, hi⟩ : Square) = x ∨ (⟨i, hi⟩ : Square) = y) := by
        rw [← hmem]; simp [hb]
      push_neg at this
      have hx : x.val ≠ i := fun hc => this.1 (by cases x; cases y; simp_all [Fin.ext_iff])
      have hy : y.val ≠ i := fun hc => this.2 (by cases x; cases y; simp_all [Fin.ext_iff])
      simp [hx, hy]
    · have := hmem.mp hb
      rcases this with h | h <;>
        simp [← h]
  · have h1 : bb.testBit i = false :=
      Nat.testBit_eq_false_of_lt
        (lt_of_lt_of_le hlt (Nat.pow_le_pow_right (by norm_num) (by omega)))
    have hx : x.val ≠ i := by omega
    have hy : y.val ≠ i := by omega
    rw [h1, Nat.testBit_lor, testBit_bbSquare, testBit_bbSquare]
    simp [hx, hy]

theorem mem_of_two_squares {a x y : Square}
    (h : (bbSquare x ||| bbSquare y).testBit a.val = true) : a = x ∨ a = y := by
  rw [Nat.testBit_lor, testBit_bbSquare, testBit_bbSquare] at h
  rcases Bool.or_eq_true_iff.mp h with h | h <;>
    [left; right] <;>
    · apply Fin.ext
      simpa [eq_comm] using h

theorem testBit_bbSquare_self (x : Square) : (bbSquare x).testBit x.val = true := by
  rw [testBit_bbSquare]; simp

theorem validateChess_eq (pos : Chess) : validateChess pos =
    (if pos.board.occupied = 0 then EMPTY_BOARD else 0) |||
    (if pos.board.pawns &&& bbBackranks ≠ 0 then PAWNS_ON_BACKRANK else 0) |||
    (match pos.epSquareAccessor with
     | none => 0
     | some ep =>
       if ¬ (bbRelativeRank pos.turn 5).testBit ep.val then INVALID_EP_SQUARE
       else
         (if ¬ (theirBB pos.board pos.turn .pawn).testBit
             ((ep.offset (pos.turn.fold (-8) 8)).getD squareA1).val then
           INVALID_EP_SQUARE else 0) |||
         (if pos.board.occupied.testBit ep.val ∨
             pos.board.occupied.testBit
               ((ep.offset (pos.turn.fold 8 (-8))).getD squareA1).val then
           INVALID_EP_SQUARE else 0)) |||
    (if (pos.board.kingOf .white).isNone ∨ (pos.board.kingOf .black).isNone then
      MISSING_KING else 0) |||
    (if bbMoreThanOne (pos.board.kings &&& pos.board.white) ∨
        bbMoreThanOne (pos.board.kings &&& pos.board.black) then
      TOO_MANY_KINGS else 0) |||
    (match pos.board.kingOf pos.turn.other with
     | none => 0
     | some theirKing =>
       if pos.board.attacksTo theirKing pos.turn pos.board.occupied ≠ 0 then
         OPPOSITE_CHECK else 0) |||
    (match pos.board.kingOf pos.turn with
     | none => 0
     | some ourKing =>
       match bbFirst pos.checkers, bbLast pos.checkers with
       | some a, some b =>
         if a ≠ b ∧ (2 < bbCount pos.checkers ∨ aligned a b ourKing) then
           IMPOSSIBLE_CHECK else 0
       | _, _ => 0) := rfl

theorem and_impossible_ne_zero {x : Nat} :
    x &&& IMPOSSIBLE_CHECK ≠ 0 ↔ x.testBit 7 = true := by
  have h128 : IMPOSSIBLE_CHECK = 2 ^ 7 := by decide
  rw [h128, Nat.and_two_pow]
  rcases x.testBit 7 with _ | _ <;> simp

theorem getLast?_mem_of_eq {α : Type} {l : List α} {a : α}
    (h : l.getLast? = some a) : a ∈ l := by
  have h2 := List.mem_getLast?_eq_getLast (show a ∈ l.getLast? by rw [h]; simp)
  obtain ⟨hne, rfl⟩ := h2
  exact List.getLast_mem hne

theorem getLast?_cons_isSome {α : Type} (l : List α) (a : α) :
    ((a :: l).getLast?).isSome := by
  induction l generalizing a <;> simp_all

theorem c5_partA (pos : Chess) (k : Square)
    (hk : pos.board.kingOf pos.turn = some k) :
    (validateChess pos &&& IMPOSSIBLE_CHECK ≠ 0 ↔
      (2 < bbCount pos.checkers ∨ (bbCount pos.checkers = 2 ∧
        ∃ a b : Square, a ≠ b ∧ pos.checkers = bbSquare a ||| bbSquare b ∧
          aligned a b k = true))) := by
  rw [and_impossible_ne_zero, validateChess_eq]
  rw [hk]
  simp only [Nat.testBit_lor]
  have t1 : (if pos.board.occupied = 0 then EMPTY_BOARD else 0).testBit 7 = false := by
    split <;> decide
  have t2 : (if pos.board.pawns &&& bbBackranks ≠ 0 then PAWNS_ON_BACKRANK
      else 0).testBit 7 = false := by
    split <;> decide
  have t3 : (match pos.epSquareAccessor with
     | none => 0
     | some ep =>
       if ¬ (bbRelativeRank pos.turn 5).testBit ep.val then INVALID_EP_SQUARE
       else
         (if ¬ (theirBB pos.board pos.turn .pawn).testBit
             ((ep.offset (pos.turn.fold (-8) 8)).getD squareA1).val then
           INVALID_EP_SQUARE else 0) |||
         (if pos.board.occupied.testBit ep.val ∨
             pos.board.occupied.testBit
               ((ep.offset (pos.turn.fold 8 (-8))).getD squareA1).val then
           INVALID_EP_SQUARE else 0)).testBit 7 = false := by
    rcases pos.epSquareAccessor with _ | ep
    · exact Nat.zero_testBit 7
    · dsimp only
      split
      · decide
      · rw [Nat.testBit_lor]
        have u1 : (if ¬ (theirBB pos.board pos.turn .pawn).testBit
             ((ep.offset (pos.turn.fold (-8) 8)).getD squareA1).val then
            INVALID_EP_SQUARE else 0).testBit 7 = false := by
          split <;> decide
        have u2 : (if pos.board.occupied.testBit ep.val ∨
             pos.board.occupied.testBit
               ((ep.offset (pos.turn.fold 8 (-8))).getD squareA1).val then
            INVALID_EP_SQUARE else 0).testBit 7 = false := by
          split <;> decide
        rw [u1, u2]
        rfl
  have t4 : (if (pos.board.kingOf .white).isNone ∨
      (pos.board.kingOf .black).isNone then MISSING_KING else 0).testBit 7
        = false := by
    split <;> decide
  have t5 : (if bbMoreThanOne (pos.board.kings &&& pos.board.white) ∨
      bbMoreThanOne (pos.board.kings &&& pos.board.black) then
        TOO_MANY_KINGS else 0).testBit 7 = false := by
    split <;> decide
  have t6 : (match pos.board.kingOf pos.turn.other with
     | none => 0
     | some theirKing =>
       if pos.board.attacksTo theirKing pos.turn pos.board.occupied ≠ 0 then
         OPPOSITE_CHECK else 0).testBit 7 = false := by
    rcases pos.board.kingOf pos.turn.other with _ | tk
    · exact Nat.zero_testBit 7
    · dsimp only
      split <;> decide
  rw [t1, t2, t3, t4, t5, t6]
  simp only [Bool.false_or]
  have hlt := checkers_lt pos
  rcases hsq : bbSquares pos.checkers with _ | ⟨x, l'⟩
  · have hf : bbFirst pos.checkers = none := by rw [bbFirst, hsq]; rfl
    have hc : bbCount pos.checkers = 0 := by rw [bbCount, hsq]; rfl
    rw [hf]
    constructor
    · intro h; simp at h
    · intro h
      rcases h with h | ⟨h, -⟩ <;> omega
  · rcases hl' : l' with _ | ⟨y, l''⟩
    · have hf : bbFirst pos.checkers = some x := by rw [bbFirst, hsq, hl']; rfl
      have hg : bbLast pos.checkers = some x := by rw [bbLast, hsq, hl']; rfl
      have hc : bbCount pos.checkers = 1 := by rw [bbCount, hsq, hl']; rfl
      rw [hf, hg]
      dsimp only
      rw [if_neg (by simp)]
      constructor
      · intro h
        exact absurd h (by simp)
      · intro h
        rcases h with h | ⟨h, -⟩ <;> omega
    · subst hl'
      have hpw : (x :: y :: l'').Pairwise (· < ·) := by
        rw [← hsq]; exact bbSquares_pairwise _
      obtain ⟨z, hz⟩ : ∃ z, (y :: l'').getLast? = some z :=
        Option.isSome_iff_exists.mp (getLast?_cons_isSome l'' y)
      have hzmem : z ∈ y :: l'' := getLast?_mem_of_eq hz
      have hxz : x < z := (List.pairwise_cons.mp hpw).1 z hzmem
      have hf : bbFirst pos.checkers = some x := by rw [bbFirst, hsq]; rfl
      have hg : bbLast pos.checkers = some z := by
        rw [bbLast, hsq]
        rw [show (x :: y :: l'').getLast? = (y :: l'').getLast? from rfl, hz]
      rw [hf, hg]
      dsimp only
      rcases l'' with _ | ⟨w, rest⟩
      · -- exactly two checkers x and z = y
        have hzy : z = y := by
          rw [show ([y] : List Square).getLast? = some y from rfl] at hz
          exact (Option.some_inj.mp hz).symm
        subst hzy
        have hrep : pos.checkers = bbSquare x ||| bbSquare z :=
          bb_of_two_squares hsq hlt
        have hcnt2 : bbCount pos.checkers = 2 := by rw [bbCount, hsq]; rfl
        by_cases hal : aligned x z k = true
        · rw [if_pos ⟨ne_of_lt hxz, Or.inr (by exact_mod_cast hal)⟩]
          exact ⟨fun _ => Or.inr ⟨hcnt2, x, z, ne_of_lt hxz, hrep, hal⟩,
            fun _ => by decide⟩
        · rw [if_neg (by
            rintro ⟨-, h2 | h2⟩
            · omega
            · exact hal (by exact_mod_cast h2))]
          constructor
          · intro h
            exact absurd h (by simp)
          · rintro (h | ⟨-, a, b, hab, hab2, hab3⟩)
            · omega
            · have hxm : x = a ∨ x = b :=
                mem_of_two_squares (hab2 ▸
                  mem_bbSquares.mp (by rw [hsq]; simp))
              have hzm : z = a ∨ z = b :=
                mem_of_two_squares (hab2 ▸
                  mem_bbSquares.mp (by rw [hsq]; simp))
              have : aligned x z k = true := by
                rcases hxm with rfl | rfl
                · rcases hzm with rfl | rfl
                  · exact absurd rfl (ne_of_lt hxz)
                  · exact hab3
                · rcases hzm with rfl | rfl
                  · rw [aligned_comm]; exact hab3
                  · exact absurd rfl (ne_of_lt hxz)
              exact absurd this hal
      · -- more than two checkers
        have hcnt3 : 2 < bbCount pos.checkers := by
          rw [bbCount, hsq]; simp
        rw [if_pos ⟨ne_of_lt hxz, Or.inl hcnt3⟩]
        exact ⟨fun _ => Or.inl hcnt3, fun _ => by decide⟩


/-- C5: the `IMPOSSIBLE_CHECK` validation flag is set iff the side to move has
more than two checkers, or exactly two distinct checkers collinear with its
king; and constructing the position of FEN
`2Nq4/2K5/1b6/8/7R/3k4/7P/8 w - - 0 1` as standard Chess fails with exactly
the `IMPOSSIBLE_CHECK` error kind. -/
theorem C5_impossible_check_flag :
    (∀ (pos : Chess) (k : Square), pos.board.kingOf pos.turn = some k →
      (validateChess pos &&& IMPOSSIBLE_CHECK ≠ 0 ↔
        (2 < bbCount pos.checkers ∨ (bbCount pos.checkers = 2 ∧
          ∃ a b : Square, a ≠ b ∧ pos.checkers = bbSquare a ||| bbSquare b ∧
            aligned a b k = true)))) ∧
    (chessFromSetupUnchecked fen5Setup).2 = IMPOSSIBLE_CHECK ∧
    (∀ p, chessFromSetup fen5Setup ≠ Except.ok p) := by
  refine ⟨c5_partA, by decide, ?_⟩
  intro p
  have h : (chessFromSetupUnchecked fen5Setup).2 = IMPOSSIBLE_CHECK := by decide
  unfold chessFromSetup
  simp [h, IMPOSSIBLE_CHECK]

/-- Witness for C5: in the FEN position the two aligned checkers on b6 and d8
make the flag fire. -/
theorem C5_impossible_check_flag_witness :
    validateChess fen5Pos &&& IMPOSSIBLE_CHECK ≠ 0 :=
  (C5_impossible_check_flag.1 fen5Pos ⟨50, by decide⟩ (by decide)).mpr
    (Or.inr ⟨by decide, ⟨41, by decide⟩, ⟨59, by decide⟩, by decide, by decide,
      by decide⟩)

theorem countBits_zero : countBits 0 = 0 := by unfold countBits; simp

theorem countBits_step (m : Nat) (h : m ≠ 0) :
    countBits m = m % 2 + countBits (m / 2) := by
  conv_lhs => unfold countBits
  simp [h]

theorem pext_zero_mask (x : Nat) : pext x 0 = 0 := by unfold pext; simp

theorem pext_step (x m : Nat) (h : m ≠ 0) :
    pext x m = if m % 2 = 1 then x % 2 + 2 * pext (x / 2) (m / 2)
      else pext (x / 2) (m / 2) := by
  conv_lhs => unfold pext
  simp [h]

theorem pdep_zero_mask (y : Nat) : pdep y 0 = 0 := by unfold pdep; simp

theorem pdep_step (y m : Nat) (h : m ≠ 0) :
    pdep y m = if m % 2 = 1 then y % 2 + 2 * pdep (y / 2) (m / 2)
      else 2 * pdep y (m / 2) := by
  conv_lhs => unfold pdep
  simp [h]

theorem land_decomp (x m : Nat) :
    x &&& m = (x % 2) * (m % 2) + 2 * (x / 2 &&& m / 2) := by
  apply Nat.eq_of_testBit_eq
  intro i
  cases i with
  | zero =>
    simp only [Nat.testBit_zero, Nat.testBit_land]
    rcases Nat.mod_two_eq_zero_or_one x with hx | hx <;>
      rcases Nat.mod_two_eq_zero_or_one m with hm | hm <;>
      simp [hx, hm, Nat.add_mul_mod_self_left, Nat.mul_mod_right]
  | succ i =>
    have hdiv : ((x % 2) * (m % 2) + 2 * (x / 2 &&& m / 2)) / 2 = x / 2 &&& m / 2 := by
      rcases Nat.mod_two_eq_zero_or_one x with hx | hx <;>
        rcases Nat.mod_two_eq_zero_or_one m with hm | hm <;>
        simp [hx, hm] <;> omega
    rw [Nat.testBit_land]
    conv_rhs => rw [Nat.testBit_succ, hdiv, Nat.testBit_land]
    rw [Nat.testBit_div_two, Nat.testBit_div_two]

theorem pext_lt (m : Nat) : ∀ x, pext x m < 2 ^ countBits m := by
  induction m using Nat.strong_induction_on with
  | _ m ih =>
    intro x
    by_cases h : m = 0
    · subst h
      rw [pext_zero_mask, countBits_zero]
      norm_num
    · have hdiv : m / 2 < m := Nat.div_lt_self (Nat.pos_of_ne_zero h) one_lt_two
      rw [pext_step _ _ h, countBits_step _ h]
      rcases Nat.mod_two_eq_zero_or_one m with hm | hm
      · simp only [hm, if_false, zero_add, one_ne_zero]
        simpa using ih _ hdiv (x / 2)
      · simp only [hm, if_true]
        have h1 := ih _ hdiv (x / 2)
        have h2 : x % 2 < 2 := Nat.mod_lt _ (by norm_num)
        rw [pow_add, pow_one]
        omega

theorem pext_and (m : Nat) : ∀ x, pext (x &&& m) m = pext x m := by
  induction m using Nat.strong_induction_on with
  | _ m ih =>
    intro x
    by_cases h : m = 0
    · subst h
      rw [pext_zero_mask, pext_zero_mask]
    · have hdiv : m / 2 < m := Nat.div_lt_self (Nat.pos_of_ne_zero h) one_lt_two
      have hd := land_decomp x m
      have hmod : (x &&& m) % 2 = x % 2 * (m % 2) := by
        rw [hd]
        rcases Nat.mod_two_eq_zero_or_one x with hx | hx <;>
          rcases Nat.mod_two_eq_zero_or_one m with hm | hm <;>
          simp [hx, hm, Nat.add_mul_mod_self_left]
      have hdiv2 : (x &&& m) / 2 = x / 2 &&& m / 2 := by
        rw [hd]
        rcases Nat.mod_two_eq_zero_or_one x with hx | hx <;>
          rcases Nat.mod_two_eq_zero_or_one m with hm | hm <;>
          simp [hx, hm] <;> omega
      rw [pext_step _ _ h, pext_step _ _ h]
      rcases Nat.mod_two_eq_zero_or_one m with hm | hm
      · simp only [hm, if_false, zero_ne_one]
        rw [hdiv2, ih _ hdiv]
      · simp only [hm, if_true]
        rw [hmod, hm, hdiv2, ih _ hdiv]
        simp

theorem pdep_pext (m : Nat) : ∀ x, pdep (pext x m) m = x &&& m := by
  induction m using Nat.strong_induction_on with
  | _ m ih =>
    intro x
    by_cases h : m = 0
    · subst h
      rw [pext_zero_mask, pdep_zero_mask]
      simp
    · have hdiv : m / 2 < m := Nat.div_lt_self (Nat.pos_of_ne_zero h) one_lt_two
      have hd := land_decomp x m
      rw [pext_step _ _ h]
      rcases Nat.mod_two_eq_zero_or_one m with hm | hm
      · simp only [hm, if_false, zero_ne_one]
        rw [pdep_step _ _ h]
        simp only [hm, if_false, zero_ne_one]
        rw [ih _ hdiv, hd, hm]
        simp
      · simp only [hm, if_true]
        rw [pdep_step _ _ h]
        simp only [hm, if_true]
        have e1 : (x % 2 + 2 * pext (x / 2) (m / 2)) % 2 = x % 2 := by
          omega
        have e2 : (x % 2 + 2 * pext (x / 2) (m / 2)) / 2 = pext (x / 2) (m / 2) := by
          omega
        rw [e1, e2, ih _ hdiv, hd, hm]
        ring

theorem pext_pdep (m : Nat) : ∀ y, y < 2 ^ countBits m → pext (pdep y m) m = y := by
  induction m using Nat.strong_induction_on with
  | _ m ih =>
    intro y hy
    by_cases h : m = 0
    · subst h
      rw [countBits_zero] at hy
      interval_cases y
      rw [pdep_zero_mask, pext_zero_mask]
    · have hdiv : m / 2 < m := Nat.div_lt_self (Nat.pos_of_ne_zero h) one_lt_two
      rw [pdep_step _ _ h]
      rcases Nat.mod_two_eq_zero_or_one m with hm | hm
      · simp only [hm, if_false, zero_ne_one]
        rw [pext_step _ _ h]
        simp only [hm, if_false, zero_ne_one]
        have e1 : 2 * pdep y (m / 2) / 2 = pdep y (m / 2) := by omega
        rw [e1, ih _ hdiv]
        rw [countBits_step _ h, hm] at hy
        simpa using hy
      · simp only [hm, if_true]
        rw [pext_step _ _ h]
        simp only [hm, if_true]
        have e1 : (y % 2 + 2 * pdep (y / 2) (m / 2)) % 2 = y % 2 := by omega
        have e2 : (y % 2 + 2 * pdep (y / 2) (m / 2)) / 2 = pdep (y / 2) (m / 2) := by
          omega
        rw [e1, e2, ih _ hdiv]
        · omega
        · rw [countBits_step _ h, hm] at hy
          rw [pow_add, pow_one] at hy
          omega

theorem foldl_update_notmem (entries : List (Nat × Nat)) (f0 : Nat → Nat)
    (i : Nat) (h : i ∉ entries.map Prod.fst) :
    (entries.foldl (fun tbl e => fun j => if j = e.1 then e.2 else tbl j) f0) i
      = f0 i := by
  induction entries generalizing f0 with
  | nil => rfl
  | cons e rest ih =>
    simp only [List.map_cons, List.mem_cons] at h
    push_neg at h
    rw [List.foldl_cons, ih _ h.2]
    simp [h.1]

theorem foldl_update_lookup (entries : List (Nat × Nat)) (f0 : Nat → Nat)
    {i v : Nat} (hnd : (entries.map Prod.fst).Nodup) (hmem : (i, v) ∈ entries) :
    (entries.foldl (fun tbl e => fun j => if j = e.1 then e.2 else tbl j) f0) i
      = v := by
  induction entries generalizing f0 with
  | nil => exact absurd hmem (List.not_mem_nil _)
  | cons e rest ih =>
    simp only [List.map_cons, List.nodup_cons] at hnd
    rcases List.mem_cons.mp hmem with rfl | hmem2
    · rw [List.foldl_cons, foldl_update_notmem rest _ i hnd.1]
      simp
    · rw [List.foldl_cons]
      exact ih _ hnd.2 hmem2

theorem magicMaskN_eq (d : List Int) (s : Square) :
    magicMaskN d s.val = magicMask d s := by
  unfold magicMaskN
  rw [dif_pos s.isLt]

theorem magicIndexOf_succ (d : List Int) (s : Square) :
    magicIndexOf d (s.val + 1) =
      magicIndexOf d s.val + 2 ^ countBits (magicMask d s) := by
  show magicIndexOf d s.val + 2 ^ countBits (magicMaskN d s.val) = _
  rw [magicMaskN_eq]

theorem magicIndexOf_mono (d : List Int) {a b : Nat} (h : a ≤ b) :
    magicIndexOf d a ≤ magicIndexOf d b := by
  induction b with
  | zero => simpa [Nat.le_zero.mp h]
  | succ b ih =>
    rcases Nat.lt_or_ge a (b + 1) with h2 | h2
    · have := ih (by omega)
      have step : magicIndexOf d b ≤ magicIndexOf d (b + 1) := by
        show magicIndexOf d b ≤ magicIndexOf d b + _
        exact Nat.le_add_right _ _
      omega
    · have : a = b + 1 := by omega
      subst this
      exact le_refl _

theorem squareIndexList_eq (d : List Int) (s : Square) :
    (subsetsList (magicMask d s)).map
        (fun sub => magicIndexOf d s.val + pext sub (magicMask d s)) =
      (List.range (2 ^ countBits (magicMask d s))).map
        (fun j => magicIndexOf d s.val + j) := by
  unfold subsetsList
  rw [List.map_map]
  apply List.map_congr_left
  intro j hj
  simp only [Function.comp]
  rw [pext_pdep _ _ (List.mem_range.mp hj)]

theorem magicEntries_indices_nodup (d : List Int) :
    ((magicEntries d).map Prod.fst).Nodup := by
  unfold magicEntries
  rw [List.map_flatMap]
  rw [List.nodup_flatMap]
  constructor
  · intro s hs
    rw [List.map_map]
    have : (List.map
        (Prod.fst ∘ fun sub => (magicIndexOf d s.val + pext sub (magicMask d s),
          pext (slidingAttacks s sub d) (magicRange d s) % 65536))
        (subsetsList (magicMask d s))) =
        (List.range (2 ^ countBits (magicMask d s))).map
          (fun j => magicIndexOf d s.val + j) := by
      rw [← squareIndexList_eq]
      rfl
    rw [this]
    exact (List.nodup_range _).map (fun a b hab => by omega)
  · have hpl := List.pairwise_lt_finRange 64
    refine hpl.imp ?_
    intro s t hst
    simp only [Function.onFun]
    rw [List.map_map, List.map_map]
    have hs : (List.map
        (Prod.fst ∘ fun sub => (magicIndexOf d s.val + pext sub (magicMask d s),
          pext (slidingAttacks s sub d) (magicRange d s) % 65536))
        (subsetsList (magicMask d s))) =
        (List.range (2 ^ countBits (magicMask d s))).map
          (fun j => magicIndexOf d s.val + j) := by
      rw [← squareIndexList_eq]; rfl
    have ht : (List.map
        (Prod.fst ∘ fun sub => (magicIndexOf d t.val + pext sub (magicMask d t),
          pext (slidingAttacks t sub d) (magicRange d t) % 65536))
        (subsetsList (magicMask d t))) =
        (List.range (2 ^ countBits (magicMask d t))).map
          (fun j => magicIndexOf d t.val + j) := by
      rw [← squareIndexList_eq]; rfl
    rw [hs, ht]
    intro a ha hat
    simp only [List.mem_map, List.mem_range] at ha hat
    obtain ⟨j, hj, rfl⟩ := ha
    obtain ⟨j2, hj2, heq⟩ := hat
    have h1 : magicIndexOf d s.val + j < magicIndexOf d (s.val + 1) := by
      rw [magicIndexOf_succ]
      omega
    have h2 : magicIndexOf d (s.val + 1) ≤ magicIndexOf d t.val :=
      magicIndexOf_mono d (by exact_mod_cast hst)
    omega

theorem magicTable_lookup (d : List Int) (s : Square) (sub : Nat)
    (hsub : sub ∈ subsetsList (magicMask d s)) :
    magicTable d (magicIndexOf d s.val + pext sub (magicMask d s)) =
      pext (slidingAttacks s sub d) (magicRange d s) % 65536 := by
  unfold magicTable
  apply foldl_update_lookup _ _ (magicEntries_indices_nodup d)
  unfold magicEntries
  rw [List.mem_flatMap]
  exact ⟨s, List.mem_finRange s, List.mem_map.mpr ⟨sub, hsub, rfl⟩⟩

theorem walkRay_succ (occ : Nat) (d : Int) (t : Int) (fuel : Nat) :
    walkRay occ d t (fuel + 1) =
      if t + d < 0 ∨ 64 ≤ t + d ∨ 2 < sqDist (t + d) t then 0
      else (1 <<< (t + d).toNat) |||
        (if occ.testBit (t + d).toNat then 0 else walkRay occ d (t + d) fuel) :=
  rfl

theorem walkRay_zero_succ (d : Int) (t : Int) (fuel : Nat) :
    walkRay 0 d t (fuel + 1) =
      if t + d < 0 ∨ 64 ≤ t + d ∨ 2 < sqDist (t + d) t then 0
      else (1 <<< (t + d).toNat) ||| walkRay 0 d (t + d) fuel := by
  rw [walkRay_succ]
  simp [Nat.zero_testBit]

theorem walkRay_subset_zero (occ : Nat) (d : Int) :
    ∀ (fuel : Nat) (t : Int) (i : Nat),
      (walkRay occ d t fuel).testBit i = true →
      (walkRay 0 d t fuel).testBit i = true := by
  intro fuel
  induction fuel with
  | zero => intro t i h; exact h
  | succ fuel ih =>
    intro t i h
    rw [walkRay_succ] at h
    rw [walkRay_zero_succ]
    by_cases hguard : t + d < 0 ∨ 64 ≤ t + d ∨ 2 < sqDist (t + d) t
    · rw [if_pos hguard] at h
      exact absurd h (by simp)
    · rw [if_neg hguard] at h
      rw [if_neg hguard]
      rw [Nat.testBit_lor] at h ⊢
      rcases Bool.or_eq_true_iff.mp h with h2 | h2
      · simp [h2]
      · by_cases hocc : occ.testBit (t + d).toNat = true
        · rw [if_pos hocc] at h2
          exact absurd h2 (by simp)
        · rw [if_neg hocc] at h2
          rw [ih _ i h2]
          simp

theorem walkRay_fuel_mono (occ : Nat) (d : Int) :
    ∀ (fuel fuel' : Nat), fuel ≤ fuel' → ∀ (t : Int) (i : Nat),
      (walkRay occ d t fuel).testBit i = true →
      (walkRay occ d t fuel').testBit i = true := by
  intro fuel
  induction fuel with
  | zero =>
    intro fuel' _ t i h
    rw [show walkRay occ d t 0 = 0 from rfl] at h
    exact absurd h (by simp)
  | succ fuel ih =>
    intro fuel' hle t i h
    rcases fuel' with _ | fuel2
    · omega
    · rw [walkRay_succ] at h ⊢
      by_cases hguard : t + d < 0 ∨ 64 ≤ t + d ∨ 2 < sqDist (t + d) t
      · rw [if_pos hguard] at h
        exact absurd h (by simp)
      · rw [if_neg hguard] at h ⊢
        rw [Nat.testBit_lor] at h ⊢
        rcases Bool.or_eq_true_iff.mp h with h2 | h2
        · simp [h2]
        · by_cases hocc : occ.testBit (t + d).toNat = true
          · rw [if_pos hocc] at h2
            exact absurd h2 (by simp)
          · rw [if_neg hocc] at h2 ⊢
            rw [ih fuel2 (by omega) _ i h2]
            simp

theorem nat_eq_zero_of_testBit (w : Nat)
    (h : ∀ i : Nat, w.testBit i = false) : w = 0 :=
  Nat.eq_of_testBit_eq (fun i => by rw [h i, Nat.zero_testBit])

theorem walkRay_mask_cong (mask : Nat) (d : Int) (sq : Square) (occ : Nat)
    (hD : ∀ u : Fin 64, (walkRay 0 d sq.val 64).testBit u.val = true →
      (mask.testBit u.val = true ∨ walkRay 0 d u.val 64 = 0)) :
    ∀ (fuel : Nat) (t : Int), fuel ≤ 64 →
      (∀ i : Nat, (walkRay 0 d t fuel).testBit i = true →
        (walkRay 0 d (sq.val : Int) 64).testBit i = true) →
      walkRay occ d t fuel = walkRay (occ &&& mask) d t fuel := by
  intro fuel
  induction fuel with
  | zero => intro t _ _; rfl
  | succ fuel ih =>
    intro t hle hsub
    rw [walkRay_succ, walkRay_succ]
    by_cases hguard : t + d < 0 ∨ 64 ≤ t + d ∨ 2 < sqDist (t + d) t
    · rw [if_pos hguard, if_pos hguard]
    · rw [if_neg hguard, if_neg hguard]
      push_neg at hguard
      obtain ⟨hg1, hg2, hg3⟩ := hguard
      have hu64 : (t + d).toNat < 64 := by omega
      have hucast : ((t + d).toNat : Int) = t + d := Int.toNat_of_nonneg hg1
      have hzs : walkRay 0 d t (fuel + 1) =
          (1 <<< (t + d).toNat) ||| walkRay 0 d (t + d) fuel := by
        rw [walkRay_zero_succ, if_neg (by push_neg; exact ⟨hg1, hg2, hg3⟩)]
      have hu_mem : (walkRay 0 d (sq.val : Int) 64).testBit (t + d).toNat = true := by
        apply hsub
        rw [hzs, Nat.testBit_lor]
        have : (1 <<< (t + d).toNat).testBit (t + d).toNat = true := by
          rw [Nat.shiftLeft_eq, one_mul, Nat.testBit_two_pow]
          simp
        simp [this]
      have hsub2 : ∀ i : Nat, (walkRay 0 d (t + d) fuel).testBit i = true →
          (walkRay 0 d (sq.val : Int) 64).testBit i = true := by
        intro i hi
        apply hsub
        rw [hzs, Nat.testBit_lor, hi]
        simp
      rcases hD ⟨(t + d).toNat, hu64⟩ hu_mem with hmask | hdead
      · -- the square is inside the relevant mask: blockers agree
        simp only at hmask
        have hocceq : (occ &&& mask).testBit (t + d).toNat =
            occ.testBit (t + d).toNat := by
          rw [Nat.testBit_land, hmask, Bool.and_true]
        rw [hocceq]
        by_cases hocc : occ.testBit (t + d).toNat = true
        · rw [if_pos hocc, if_pos hocc]
        · rw [if_neg hocc, if_neg hocc, ih _ (by omega) hsub2]
      · -- the square is terminal: the walk beyond it is empty either way
        simp only at hdead
        rw [hucast] at hdead
        have hstop : ∀ occ2 : Nat, walkRay occ2 d (t + d) fuel = 0 := by
          intro occ2
          apply nat_eq_zero_of_testBit
          intro i
          by_contra hc
          rw [Bool.not_eq_false] at hc
          have h1 := walkRay_subset_zero occ2 d fuel (t + d) i hc
          have h2 := walkRay_fuel_mono 0 d fuel 64 (by omega) (t + d) i h1
          rw [hdead] at h2
          exact absurd h2 (by simp)
        rw [hstop occ, hstop (occ &&& mask)]
        by_cases hocc : occ.testBit (t + d).toNat = true <;>
          by_cases hocc2 : (occ &&& mask).testBit (t + d).toNat = true <;>
          simp [hocc, hocc2]

set_option maxRecDepth 10000 in
theorem rookWalkMaskD8 : ∀ sq u : Fin 64,
    (walkRay 0 8 sq.val 64).testBit u.val = true →
    ((magicMask ROOK_DELTAS sq).testBit u.val = true ∨
      walkRay 0 8 u.val 64 = 0) := by decide

set_option maxRecDepth 10000 in
theorem rookWalkMaskD1 : ∀ sq u : Fin 64,
    (walkRay 0 1 sq.val 64).testBit u.val = true →
    ((magicMask ROOK_DELTAS sq).testBit u.val = true ∨
      walkRay 0 1 u.val 64 = 0) := by decide

set_option maxRecDepth 10000 in
theorem rookWalkMaskD8n : ∀ sq u : Fin 64,
    (walkRay 0 (-8) sq.val 64).testBit u.val = true →
    ((magicMask ROOK_DELTAS sq).testBit u.val = true ∨
      walkRay 0 (-8) u.val 64 = 0) := by decide

set_option maxRecDepth 10000 in
theorem rookWalkMaskD1n : ∀ sq u : Fin 64,
    (walkRay 0 (-1) sq.val 64).testBit u.val = true →
    ((magicMask ROOK_DELTAS sq).testBit u.val = true ∨
      walkRay 0 (-1) u.val 64 = 0) := by decide

theorem slidingAttacks_foldl_subset (occ : Nat) (sqv : Int) (D : List Int) :
    ∀ (acc1 acc2 : Nat),
      (∀ i : Nat, acc1.testBit i = true → acc2.testBit i = true) →
      ∀ i : Nat,
        (D.foldl (fun attack delta => attack ||| walkRay occ delta sqv 64) acc1).testBit i = true →
        (D.foldl (fun attack delta => attack ||| walkRay 0 delta sqv 64) acc2).testBit i = true := by
  induction D with
  | nil => intro acc1 acc2 hacc i h; exact hacc i h
  | cons d rest ih =>
    intro acc1 acc2 hacc i h
    rw [List.foldl_cons] at h ⊢
    refine ih _ _ ?_ i h
    intro j hj
    rw [Nat.testBit_lor] at hj ⊢
    rcases Bool.or_eq_true_iff.mp hj with h2 | h2
    · rw [hacc j h2]
      simp
    · rw [walkRay_subset_zero occ d 64 sqv j h2]
      simp

theorem slidingAttacks_subset_range (s : Square) (occ : Nat) (D : List Int)
    (i : Nat) (h : (slidingAttacks s occ D).testBit i = true) :
    (slidingAttacks s 0 D).testBit i = true := by
  unfold slidingAttacks at h ⊢
  exact slidingAttacks_foldl_subset occ s.val D 0 0 (fun _ hi => hi) i h

theorem slidingAttacks_land_range (s : Square) (occ : Nat) (D : List Int) :
    slidingAttacks s occ D &&& slidingAttacks s 0 D = slidingAttacks s occ D := by
  apply Nat.eq_of_testBit_eq
  intro i
  rw [Nat.testBit_land]
  rcases hb : (slidingAttacks s occ D).testBit i with _ | _
  · simp
  · rw [slidingAttacks_subset_range s occ D i hb]
    simp

theorem slidingAttacks_rookMask_cong (s : Square) (occ : Nat) :
    slidingAttacks s (occ &&& magicMask ROOK_DELTAS s) ROOK_DELTAS =
      slidingAttacks s occ ROOK_DELTAS := by
  unfold slidingAttacks
  have hcong : ∀ d : Int,
      (∀ u : Fin 64, (walkRay 0 d s.val 64).testBit u.val = true →
        ((magicMask ROOK_DELTAS s).testBit u.val = true ∨
          walkRay 0 d u.val 64 = 0)) →
      walkRay (occ &&& magicMask ROOK_DELTAS s) d s.val 64 =
        walkRay occ d s.val 64 :=
    fun d hD =>
      (walkRay_mask_cong (magicMask ROOK_DELTAS s) d s occ hD 64 s.val
        (le_refl 64) (fun i hi => hi)).symm
  show List.foldl _ 0 [8, 1, -8, -1] = List.foldl _ 0 [8, 1, -8, -1]
  simp only [List.foldl_cons, List.foldl_nil]
  rw [hcong 8 (rookWalkMaskD8 s), hcong 1 (rookWalkMaskD1 s),
    hcong (-8) (rookWalkMaskD8n s), hcong (-1) (rookWalkMaskD1n s)]

theorem countBits_eq_fuel : ∀ (fuel m : Nat), m < 2 ^ fuel →
    countBits m = countBitsFuel fuel m := by
  intro fuel
  induction fuel with
  | zero =>
    intro m hm
    have : m = 0 := by simpa using hm
    subst this
    rw [countBits_zero]
    rfl
  | succ fuel ih =>
    intro m hm
    by_cases h : m = 0
    · subst h
      rw [countBits_zero]
      simp [countBitsFuel]
    · rw [countBits_step _ h]
      show _ = if m = 0 then 0 else m % 2 + countBitsFuel fuel (m / 2)
      rw [if_neg h, ih (m / 2) (by
        rw [pow_succ] at hm
        omega)]

set_option maxRecDepth 10000 in
theorem rookRange_countBits : ∀ s : Fin 64,
    countBits (magicRange ROOK_DELTAS s) ≤ 16 := by
  intro s
  unfold magicRange
  rw [countBits_eq_fuel 64 _ (slidingAttacks_lt s 0 ROOK_DELTAS)]
  revert s
  decide

/-- **C4.** Correctness of the magic-style rook-attack lookup: for every square
`s` and every occupancy, `Precomp::rook_attacks` (extract the occupancy under
the square's relevant mask, index the precomputed 16-bit table, deposit the
entry over the range mask) equals the direct ray scan
`sliding_attacks(s, occ, ROOK_DELTAS)`; in particular the rook attack from d6
under occupancy `0x3f7f28802826f5b9` is the bitboard `0x8370808000000`. -/
theorem C4_rook_magic_lookup :
    (∀ (s : Square) (occupied : Nat),
      rookAttacksMagic s occupied = rookAttacks s occupied) ∧
    rookAttacksMagic ⟨43, by decide⟩ 0x3f7f28802826f5b9 = 0x8370808000000 := by
  have main : ∀ (s : Square) (occupied : Nat),
      rookAttacksMagic s occupied = rookAttacks s occupied := by
    intro s occ
    show pdep (magicTable ROOK_DELTAS
        (magicIndexOf ROOK_DELTAS s.val + pext occ (magicMask ROOK_DELTAS s)))
        (magicRange ROOK_DELTAS s) = slidingAttacks s occ ROOK_DELTAS
    have hmem : occ &&& magicMask ROOK_DELTAS s ∈
        subsetsList (magicMask ROOK_DELTAS s) := by
      unfold subsetsList
      exact List.mem_map.mpr ⟨pext occ (magicMask ROOK_DELTAS s),
        List.mem_range.mpr (pext_lt _ _), pdep_pext _ _⟩
    have hpe : pext (occ &&& magicMask ROOK_DELTAS s) (magicMask ROOK_DELTAS s)
        = pext occ (magicMask ROOK_DELTAS s) := pext_and _ _
    rw [← hpe, magicTable_lookup ROOK_DELTAS s _ hmem]
    have hlt : pext (slidingAttacks s (occ &&& magicMask ROOK_DELTAS s)
        ROOK_DELTAS) (magicRange ROOK_DELTAS s) < 65536 := by
      calc pext _ _ < 2 ^ countBits (magicRange ROOK_DELTAS s) := pext_lt _ _
        _ ≤ 2 ^ 16 := Nat.pow_le_pow_right (by omega) (rookRange_countBits s)
        _ = 65536 := by norm_num
    rw [Nat.mod_eq_of_lt hlt, pdep_pext]
    unfold magicRange
    rw [slidingAttacks_land_range]
    exact slidingAttacks_rookMask_cong s occ
  refine ⟨main, ?_⟩
  rw [main]
  decide


theorem testBit_one_shiftLeft (n i : Nat) :
    (1 <<< n).testBit i = decide (n = i) := by
  rw [Nat.shiftLeft_eq, one_mul, Nat.testBit_two_pow]

theorem sqDist_symm (a b : Int) : sqDist a b = sqDist b a := by
  have hn : ∀ x y : Int, (x - y).natAbs = (y - x).natAbs := fun x y => by omega
  unfold sqDist
  rw [hn (a % 8), hn (a / 8)]

theorem walkRay_extend (occ : Nat) (d : Int) (x : Nat)
    (hocc : occ.testBit x = false)
    (hguard : ¬((x : Int) + d < 0 ∨ 64 ≤ (x : Int) + d ∨
      2 < sqDist ((x : Int) + d) x)) :
    ∀ (fuel : Nat) (t : Int), (walkRay occ d t fuel).testBit x = true →
      (walkRay occ d t (fuel + 1)).testBit ((x : Int) + d).toNat = true := by
  intro fuel
  induction fuel with
  | zero => intro t h; exact absurd h (by simp [walkRay])
  | succ fuel ih =>
    intro t h
    rw [walkRay_succ] at h
    by_cases hg : t + d < 0 ∨ 64 ≤ t + d ∨ 2 < sqDist (t + d) t
    · rw [if_pos hg] at h
      exact absurd h (by simp)
    · rw [if_neg hg, Nat.testBit_lor] at h
      rw [walkRay_succ, if_neg hg, Nat.testBit_lor]
      rcases Bool.or_eq_true_iff.mp h with h1 | h2
      · have hx : (t + d).toNat = x := by
          have h3 := testBit_one_shiftLeft (t + d).toNat x
          rw [h1] at h3
          exact of_decide_eq_true h3.symm
        have htd : t + d = (x : Int) := by
          push_neg at hg
          omega
        apply Bool.or_eq_true_iff.mpr
        right
        rw [if_neg (by rw [hx, hocc]; simp)]
        rw [htd, walkRay_succ, if_neg hguard, Nat.testBit_lor]
        apply Bool.or_eq_true_iff.mpr
        left
        rw [testBit_one_shiftLeft]
        simp
      · by_cases hoccd : occ.testBit (t + d).toNat = true
        · rw [if_pos hoccd] at h2
          exact absurd h2 (by simp)
        · rw [if_neg hoccd] at h2
          apply Bool.or_eq_true_iff.mpr
          right
          rw [if_neg hoccd]
          exact ih (t + d) h2

theorem walkRay_symm (occ : Nat) (d : Int) (u : Nat) :
    ∀ (fuel : Nat) (t : Int), 0 ≤ t → t < 64 →
      (walkRay occ d t fuel).testBit u = true →
      (walkRay occ (-d) (u : Int) fuel).testBit t.toNat = true := by
  intro fuel
  induction fuel with
  | zero => intro t _ _ h; exact absurd h (by simp [walkRay])
  | succ fuel ih =>
    intro t ht0 ht64 h
    rw [walkRay_succ] at h
    by_cases hg : t + d < 0 ∨ 64 ≤ t + d ∨ 2 < sqDist (t + d) t
    · rw [if_pos hg] at h
      exact absurd h (by simp)
    · rw [if_neg hg, Nat.testBit_lor] at h
      push_neg at hg
      obtain ⟨hg1, hg2, hg3⟩ := hg
      rcases Bool.or_eq_true_iff.mp h with h1 | h2
      · have hu : (t + d).toNat = u := by
          have h3 := testBit_one_shiftLeft (t + d).toNat u
          rw [h1] at h3
          exact of_decide_eq_true h3.symm
        have huI : (u : Int) = t + d := by omega
        have hstep : (u : Int) + -d = t := by omega
        rw [walkRay_succ]
        have hgr : ¬((u : Int) + -d < 0 ∨ 64 ≤ (u : Int) + -d ∨
            2 < sqDist ((u : Int) + -d) u) := by
          push_neg
          refine ⟨by omega, by omega, ?_⟩
          rw [hstep, huI, sqDist_symm]
          exact hg3
        rw [if_neg hgr, Nat.testBit_lor]
        apply Bool.or_eq_true_iff.mpr
        left
        rw [hstep, testBit_one_shiftLeft]
        simp
      · by_cases hoccd : occ.testBit (t + d).toNat = true
        · rw [if_pos hoccd] at h2
          exact absurd h2 (by simp)
        · rw [if_neg hoccd] at h2
          have hrev := ih (t + d) (by omega) (by omega) h2
          have hoccd' : occ.testBit (t + d).toNat = false := by
            simpa using hoccd
          have hcast : (((t + d).toNat : Nat) : Int) = t + d :=
            Int.toNat_of_nonneg (by omega)
          have hguard' : ¬((((t + d).toNat : Nat) : Int) + -d < 0 ∨
              64 ≤ (((t + d).toNat : Nat) : Int) + -d ∨
              2 < sqDist ((((t + d).toNat : Nat) : Int) + -d)
                ((t + d).toNat : Nat)) := by
            push_neg
            refine ⟨by omega, by omega, ?_⟩
            rw [hcast, show t + d + -d = t from by ring, sqDist_symm]
            exact hg3
          have hext := walkRay_extend occ (-d) (t + d).toNat hoccd' hguard'
            fuel (u : Int) hrev
          have hidx : ((((t + d).toNat : Nat) : Int) + -d) = t := by
            rw [hcast]; ring
          rw [hidx] at hext
          exact hext

theorem walkRay_symm64 (occ : Nat) (d : Int) (s u : Fin 64)
    (h : (walkRay occ d s.val 64).testBit u.val = true) :
    (walkRay occ (-d) u.val 64).testBit s.val = true := by
  have h2 := walkRay_symm occ d u.val 64 s.val (by positivity)
    (by exact_mod_cast s.isLt) h
  simpa using h2

theorem testBit_foldl_or (g : Int → Nat) (i : Nat) :
    ∀ (L : List Int) (init : Nat),
      ((L.foldl (fun a d => a ||| g d) init).testBit i = true ↔
        init.testBit i = true ∨ ∃ d ∈ L, (g d).testBit i = true) := by
  intro L
  induction L with
  | nil => intro init; simp
  | cons d L ih =>
    intro init
    rw [List.foldl_cons, ih]
    simp only [Nat.testBit_lor, Bool.or_eq_true, List.mem_cons]
    constructor
    · rintro ((h | h) | ⟨d', hd', h⟩)
      · exact Or.inl h
      · exact Or.inr ⟨d, Or.inl rfl, h⟩
      · exact Or.inr ⟨d', Or.inr hd', h⟩
    · rintro (h | ⟨d', rfl | hd', h⟩)
      · exact Or.inl (Or.inl h)
      · exact Or.inl (Or.inr h)
      · exact Or.inr ⟨d', hd', h⟩

theorem testBit_slidingAttacks (s : Square) (occ : Nat) (D : List Int) (i : Nat) :
    (slidingAttacks s occ D).testBit i = true ↔
      ∃ d ∈ D, (walkRay occ d s.val 64).testBit i = true := by
  unfold slidingAttacks
  rw [testBit_foldl_or]
  simp

theorem slidingAttacks_symm (occ : Nat) (D : List Int)
    (hD : ∀ d ∈ D, -d ∈ D) (s u : Fin 64)
    (h : (slidingAttacks s occ D).testBit u.val = true) :
    (slidingAttacks u occ D).testBit s.val = true := by
  rw [testBit_slidingAttacks] at h ⊢
  obtain ⟨d, hd, hw⟩ := h
  exact ⟨-d, hD d hd, walkRay_symm64 occ d s u hw⟩

theorem rookAttacks_symm (occ : Nat) (s u : Fin 64) :
    (rookAttacks s occ).testBit u.val = true ↔
      (rookAttacks u occ).testBit s.val = true :=
  ⟨slidingAttacks_symm occ ROOK_DELTAS (by decide) s u,
   slidingAttacks_symm occ ROOK_DELTAS (by decide) u s⟩

theorem bishopAttacks_symm (occ : Nat) (s u : Fin 64) :
    (bishopAttacks s occ).testBit u.val = true ↔
      (bishopAttacks u occ).testBit s.val = true :=
  ⟨slidingAttacks_symm occ BISHOP_DELTAS (by decide) s u,
   slidingAttacks_symm occ BISHOP_DELTAS (by decide) u s⟩

theorem queenAttacks_symm (occ : Nat) (s u : Fin 64) :
    (queenAttacks s occ).testBit u.val = true ↔
      (queenAttacks u occ).testBit s.val = true := by
  unfold queenAttacks
  rw [Nat.testBit_lor, Nat.testBit_lor, Bool.or_eq_true, Bool.or_eq_true]
  rw [rookAttacks_symm occ s u, bishopAttacks_symm occ s u]

theorem knightAttacks_symm (s u : Fin 64) :
    (knightAttacks s).testBit u.val = true ↔
      (knightAttacks u).testBit s.val = true :=
  ⟨slidingAttacks_symm bbAll KNIGHT_DELTAS (by decide) s u,
   slidingAttacks_symm bbAll KNIGHT_DELTAS (by decide) u s⟩

theorem mem_map_bbSquares {bb : Nat} {g : Square → Move} {m : Move} :
    m ∈ (bbSquares bb).map g ↔
      ∃ s : Square, bb.testBit s.val = true ∧ m = g s := by
  simp only [List.mem_map, mem_bbSquares]
  constructor
  · rintro ⟨s, hs, rfl⟩; exact ⟨s, hs, rfl⟩
  · rintro ⟨s, hs, rfl⟩; exact ⟨s, hs, rfl⟩

theorem mem_pushPromotions {f t2 : Square} {c : Option Role} {m : Move} :
    m ∈ pushPromotions f t2 c ↔
      (m = Move.normal .pawn f c t2 (some .queen) ∨
       m = Move.normal .pawn f c t2 (some .rook) ∨
       m = Move.normal .pawn f c t2 (some .bishop) ∨
       m = Move.normal .pawn f c t2 (some .knight)) := by
  simp [pushPromotions]

theorem mem_genAttackMoves {role : Role} {atk : Square → Nat} {b : Board}
    {turn : Color} {T : Nat} {m : Move} :
    m ∈ genAttackMoves role atk b turn T ↔
      ∃ t2 : Square, T.testBit t2.val = true ∧
        ∃ f : Square, (ourBB b turn role).testBit f.val = true ∧
          (atk f).testBit t2.val = true ∧
          m = Move.normal role f (b.roleAt t2) t2 none := by
  unfold genAttackMoves
  simp only [List.mem_flatMap, List.mem_map, mem_bbSquares, Nat.testBit_land,
    Bool.and_eq_true]
  constructor
  · rintro ⟨f, hf, t2, ⟨ha, hT⟩, rfl⟩
    exact ⟨t2, hT, f, hf, ha, rfl⟩
  · rintro ⟨t2, hT, f, hf, ha, rfl⟩
    exact ⟨f, hf, t2, ⟨ha, hT⟩, rfl⟩

theorem mem_genSafeKing {b : Board} {turn : Color} {king : Square} {T : Nat}
    {m : Move} :
    m ∈ genSafeKing b turn king T ↔
      ∃ t2 : Square, T.testBit t2.val = true ∧
        (kingAttacks king).testBit t2.val = true ∧
        b.attacksTo t2 turn.other b.occupied = 0 ∧
        m = Move.normal .king king (b.roleAt t2) t2 none := by
  unfold genSafeKing
  simp only [List.mem_filterMap, mem_bbSquares, Nat.testBit_land, Bool.and_eq_true]
  constructor
  · rintro ⟨t2, ⟨ha, hT⟩, hopt⟩
    by_cases hz : b.attacksTo t2 turn.other b.occupied = 0
    · rw [if_pos hz] at hopt
      exact ⟨t2, hT, ha, hz, (Option.some_inj.mp hopt).symm⟩
    · rw [if_neg hz] at hopt
      exact absurd hopt (by simp)
  · rintro ⟨t2, hT, ha, hz, rfl⟩
    exact ⟨t2, ⟨ha, hT⟩, by rw [if_pos hz]⟩

theorem mem_genEnPassant {b : Board} {turn : Color} {ep : Option Square} {m : Move} :
    m ∈ genEnPassant b turn ep ↔
      ∃ e f : Square, ep = some e ∧
        (b.pawns &&& b.byColor turn &&&
          pawnAttacks turn.other e).testBit f.val = true ∧
        m = Move.enPassant f e := by
  unfold genEnPassant
  rcases ep with _ | e
  · simp
  · rw [mem_map_bbSquares]
    constructor
    · rintro ⟨f, hf, rfl⟩
      exact ⟨e, f, rfl, hf, rfl⟩
    · rintro ⟨e', f, he, hf, rfl⟩
      obtain rfl : e = e' := Option.some_inj.mp he
      exact ⟨f, hf, rfl⟩

theorem mem_genPawnMoves {b : Board} {turn : Color} {T : Nat} {m : Move} :
    m ∈ genPawnMoves b turn T ↔
      ∃ t2 : Square, T.testBit t2.val = true ∧
        ((∃ f : Square,
            (ourBB b turn .pawn &&&
              bbNot (ourBB b turn .pawn &&& bbRelativeRank turn 6)).testBit f.val
                = true ∧
            (pawnAttacks turn f &&& themBB b turn).testBit t2.val = true ∧
            m = Move.normal .pawn f (b.roleAt t2) t2 none) ∨
         (∃ f : Square,
            (ourBB b turn .pawn &&& bbRelativeRank turn 6).testBit f.val = true ∧
            (pawnAttacks turn f &&& themBB b turn).testBit t2.val = true ∧
            m ∈ pushPromotions f t2 (b.roleAt t2)) ∨
         (∃ f : Square,
            (bbRelativeShift turn (ourBB b turn .pawn) 8 &&&
              bbNot b.occupied).testBit t2.val = true ∧
            (bbNot bbBackranks).testBit t2.val = true ∧
            t2.offset (turn.fold (-8) 8) = some f ∧
            m = Move.normal .pawn f none t2 none) ∨
         (∃ f : Square,
            (bbRelativeShift turn (ourBB b turn .pawn) 8 &&&
              bbNot b.occupied).testBit t2.val = true ∧
            bbBackranks.testBit t2.val = true ∧
            t2.offset (turn.fold (-8) 8) = some f ∧
            m ∈ pushPromotions f t2 none) ∨
         (∃ f : Square,
            (bbRelativeShift turn
              (bbRelativeShift turn (ourBB b turn .pawn) 8 &&&
                bbNot b.occupied) 8 &&&
              (bbRelativeRank turn 3 ||| bbRelativeRank turn 2) &&&
              bbNot b.occupied).testBit t2.val = true ∧
            t2.offset (turn.fold (-16) 16) = some f ∧
            m = Move.normal .pawn f none t2 none)) := by
  unfold genPawnMoves
  simp only [List.mem_append, List.mem_flatMap, List.mem_map, List.mem_filterMap,
    mem_bbSquares]
  constructor
  · rintro ((((h | h) | h) | h) | h)
    · obtain ⟨f, hf, t2, ht2, rfl⟩ := h
      rw [Nat.testBit_land] at ht2
      obtain ⟨hA, hT⟩ := Bool.and_eq_true_iff.mp ht2
      exact ⟨t2, hT, Or.inl ⟨f, hf, hA, rfl⟩⟩
    · obtain ⟨f, hf, t2, ht2, hm⟩ := h
      rw [Nat.testBit_land] at ht2
      obtain ⟨hA, hT⟩ := Bool.and_eq_true_iff.mp ht2
      exact ⟨t2, hT, Or.inr (Or.inl ⟨f, hf, hA, hm⟩)⟩
    · obtain ⟨t2, ht2, hopt⟩ := h
      rw [Nat.testBit_land] at ht2
      obtain ⟨hST, hBR⟩ := Bool.and_eq_true_iff.mp ht2
      rw [Nat.testBit_land] at hST
      obtain ⟨hS, hT⟩ := Bool.and_eq_true_iff.mp hST
      obtain ⟨f, hoff, hmm⟩ := Option.map_eq_some'.mp hopt
      exact ⟨t2, hT, Or.inr (Or.inr (Or.inl ⟨f, hS, hBR, hoff, hmm.symm⟩))⟩
    · obtain ⟨t2, ht2, hm⟩ := h
      rw [Nat.testBit_land] at ht2
      obtain ⟨hST, hBR⟩ := Bool.and_eq_true_iff.mp ht2
      rw [Nat.testBit_land] at hST
      obtain ⟨hS, hT⟩ := Bool.and_eq_true_iff.mp hST
      rcases ho : t2.offset (turn.fold (-8) 8) with _ | f
      · rw [ho] at hm
        simp at hm
      · rw [ho] at hm
        exact ⟨t2, hT, Or.inr (Or.inr (Or.inr (Or.inl ⟨f, hS, hBR, ho, hm⟩)))⟩
    · obtain ⟨t2, ht2, hopt⟩ := h
      rw [Nat.testBit_land] at ht2
      obtain ⟨hD, hT⟩ := Bool.and_eq_true_iff.mp ht2
      obtain ⟨f, hoff, hmm⟩ := Option.map_eq_some'.mp hopt
      exact ⟨t2, hT, Or.inr (Or.inr (Or.inr (Or.inr ⟨f, hD, hoff, hmm.symm⟩)))⟩
  · rintro ⟨t2, hT, h | h | h | h | h⟩
    · obtain ⟨f, hf, hA, rfl⟩ := h
      refine Or.inl (Or.inl (Or.inl (Or.inl ⟨f, hf, t2, ?_, rfl⟩)))
      rw [Nat.testBit_land]
      exact Bool.and_eq_true_iff.mpr ⟨hA, hT⟩
    · obtain ⟨f, hf, hA, hm⟩ := h
      refine Or.inl (Or.inl (Or.inl (Or.inr ⟨f, hf, t2, ?_, hm⟩)))
      rw [Nat.testBit_land]
      exact Bool.and_eq_true_iff.mpr ⟨hA, hT⟩
    · obtain ⟨f, hS, hBR, hoff, rfl⟩ := h
      refine Or.inl (Or.inl (Or.inr ⟨t2, ?_, ?_⟩))
      · rw [Nat.testBit_land, Nat.testBit_land]
        exact Bool.and_eq_true_iff.mpr ⟨Bool.and_eq_true_iff.mpr ⟨hS, hT⟩, hBR⟩
      · rw [hoff]
        rfl
    · obtain ⟨f, hS, hBR, hoff, hm⟩ := h
      refine Or.inl (Or.inr ⟨t2, ?_, ?_⟩)
      · rw [Nat.testBit_land, Nat.testBit_land]
        exact Bool.and_eq_true_iff.mpr ⟨Bool.and_eq_true_iff.mpr ⟨hS, hT⟩, hBR⟩
      · rw [hoff]
        exact hm
    · obtain ⟨f, hD, hoff, rfl⟩ := h
      refine Or.inr ⟨t2, ?_, ?_⟩
      · rw [Nat.testBit_land]
        exact Bool.and_eq_true_iff.mpr ⟨hD, hT⟩
      · rw [hoff]
        rfl

theorem chessLegalMoves_some (pos : Chess) (king : Square)
    (hk : pos.board.kingOf pos.turn = some king) :
    pos.legalMoves =
      (if sliderBlockers pos.board (themBB pos.board pos.turn) king ≠ 0 ∨
          (!(genEnPassant pos.board pos.turn pos.epSquare).isEmpty) = true then
        ((genEnPassant pos.board pos.turn pos.epSquare ++
          (if pos.checkers = 0 then
            genNonKing pos.board pos.turn (bbNot (usBB pos.board pos.turn)) ++
            genSafeKing pos.board pos.turn king
              (bbNot (usBB pos.board pos.turn)) ++
            genCastlingMoves (fun s c occ => pos.board.attacksTo s c occ)
              pos.board pos.turn pos.castles king .kingSide ++
            genCastlingMoves (fun s c occ => pos.board.attacksTo s c occ)
              pos.board pos.turn pos.castles king .queenSide
          else evasions pos.board pos.turn king pos.checkers)).filter
            (fun m => isSafe pos.board pos.turn king m
              (sliderBlockers pos.board (themBB pos.board pos.turn) king)))
      else
        (genEnPassant pos.board pos.turn pos.epSquare ++
          (if pos.checkers = 0 then
            genNonKing pos.board pos.turn (bbNot (usBB pos.board pos.turn)) ++
            genSafeKing pos.board pos.turn king
              (bbNot (usBB pos.board pos.turn)) ++
            genCastlingMoves (fun s c occ => pos.board.attacksTo s c occ)
              pos.board pos.turn pos.castles king .kingSide ++
            genCastlingMoves (fun s c occ => pos.board.attacksTo s c occ)
              pos.board pos.turn pos.castles king .queenSide
          else evasions pos.board pos.turn king pos.checkers))) := by
  unfold Chess.legalMoves
  rw [hk]

theorem mem_ite_filter_iff {l : List Move} {p : Move → Bool} {c : Prop}
    [Decidable c] {m : Move} :
    (m ∈ if c then l.filter p else l) ↔ m ∈ l ∧ (c → p m = true) := by
  split
  · rename_i hc
    rw [List.mem_filter]
    exact ⟨fun h => ⟨h.1, fun _ => h.2⟩, fun h => ⟨h.1, h.2 hc⟩⟩
  · rename_i hc
    exact ⟨fun h => ⟨h, fun hcc => absurd hcc hc⟩, fun h => h.1⟩

theorem isSafe_zero_normal {b : Board} {turn : Color} {king : Square} {r : Role}
    {f : Square} {c : Option Role} {t : Square} {p : Option Role} :
    isSafe b turn king (Move.normal r f c t p) 0 = true := by
  unfold isSafe
  simp [Nat.zero_testBit]

theorem bang_isEmpty_true {L : List Move} : ((!L.isEmpty) = true) ↔ L ≠ [] := by
  cases L <;> simp

theorem bbSquares_zero : bbSquares 0 = [] := by decide

theorem keep_normal {r : Role} {t : Square} {r' : Role} {f : Square}
    {c : Option Role} {t2 : Square} {p : Option Role} :
    sanCandidateKeep r t (Move.normal r' f c t2 p) = true ↔ t = t2 ∧ r = r' := by
  simp [sanCandidateKeep]

theorem keep_ep {r : Role} {t : Square} {f e : Square} :
    sanCandidateKeep r t (Move.enPassant f e) = true ↔ r = .pawn ∧ e = t := by
  simp [sanCandidateKeep]

theorem keep_castle {r : Role} {t : Square} {k rk : Square} :
    sanCandidateKeep r t (Move.castle k rk) = false := rfl

theorem castle_genCastlingMoves {ka : Square → Color → Nat → Nat} {b : Board}
    {turn : Color} {cs : Castles} {king : Square} {side : CastlingSide} {m : Move}
    (h : m ∈ genCastlingMoves ka b turn cs king side) :
    ∃ k r, m = Move.castle k r := by
  unfold genCastlingMoves at h
  rcases hr : cs.rookSq turn side with _ | rook <;> rw [hr] at h
  · exact absurd h (List.not_mem_nil m)
  · split at h
    · exact absurd h (List.not_mem_nil m)
    · split at h
      · exact absurd h (List.not_mem_nil m)
      · split at h
        · exact absurd h (List.not_mem_nil m)
        · split at h
          · exact absurd h (List.not_mem_nil m)
          · exact ⟨king, _, List.mem_singleton.mp h⟩

theorem genPawnMoves_shape {b : Board} {turn : Color} {T : Nat} {m : Move}
    (h : m ∈ genPawnMoves b turn T) :
    ∃ (f tsq : Square) (c p : Option Role),
      m = Move.normal .pawn f c tsq p ∧ T.testBit tsq.val = true := by
  rw [mem_genPawnMoves] at h
  obtain ⟨t2, hT, hcore⟩ := h
  rcases hcore with ⟨f, -, -, rfl⟩ | ⟨f, -, -, hp⟩ | ⟨f, -, -, -, rfl⟩ |
    ⟨f, -, -, -, hp⟩ | ⟨f, -, -, rfl⟩
  · exact ⟨f, t2, _, _, rfl, hT⟩
  · rcases mem_pushPromotions.mp hp with rfl | rfl | rfl | rfl <;>
      exact ⟨f, t2, _, _, rfl, hT⟩
  · exact ⟨f, t2, _, _, rfl, hT⟩
  · rcases mem_pushPromotions.mp hp with rfl | rfl | rfl | rfl <;>
      exact ⟨f, t2, _, _, rfl, hT⟩
  · exact ⟨f, t2, _, _, rfl, hT⟩

theorem genPawnMoves_congr {b : Board} {turn : Color} {T1 T2 : Nat} {m : Move}
    (h : m ∈ genPawnMoves b turn T1)
    (hT : ∀ (tsq f : Square) (c p : Option Role),
      m = Move.normal .pawn f c tsq p → T2.testBit tsq.val = true) :
    m ∈ genPawnMoves b turn T2 := by
  rw [mem_genPawnMoves] at h ⊢
  obtain ⟨t2, hT1, hcore⟩ := h
  refine ⟨t2, ?_, hcore⟩
  rcases hcore with ⟨f, -, -, rfl⟩ | ⟨f, -, -, hp⟩ | ⟨f, -, -, -, rfl⟩ |
    ⟨f, -, -, -, hp⟩ | ⟨f, -, -, rfl⟩
  · exact hT t2 f _ _ rfl
  · rcases mem_pushPromotions.mp hp with rfl | rfl | rfl | rfl <;>
      exact hT t2 f _ _ rfl
  · exact hT t2 f _ _ rfl
  · rcases mem_pushPromotions.mp hp with rfl | rfl | rfl | rfl <;>
      exact hT t2 f _ _ rfl
  · exact hT t2 f _ _ rfl

theorem genAttackMoves_shape {role : Role} {atk : Square → Nat} {b : Board}
    {turn : Color} {T : Nat} {m : Move} (h : m ∈ genAttackMoves role atk b turn T) :
    ∃ (f t2 : Square),
      m = Move.normal role f (b.roleAt t2) t2 none ∧ T.testBit t2.val = true := by
  rw [mem_genAttackMoves] at h
  obtain ⟨t2, hT, f, -, -, rfl⟩ := h
  exact ⟨f, t2, rfl, hT⟩

theorem genSafeKing_shape {b : Board} {turn : Color} {king : Square} {T : Nat}
    {m : Move} (h : m ∈ genSafeKing b turn king T) :
    ∃ t2 : Square,
      m = Move.normal .king king (b.roleAt t2) t2 none ∧ T.testBit t2.val = true := by
  rw [mem_genSafeKing] at h
  obtain ⟨t2, hT, -, -, rfl⟩ := h
  exact ⟨t2, rfl, hT⟩

theorem genNonKing_normal {b : Board} {turn : Color} {T : Nat} {m : Move}
    (h : m ∈ genNonKing b turn T) :
    ∃ (r' : Role) (f : Square) (c : Option Role) (t2 : Square) (p : Option Role),
      m = Move.normal r' f c t2 p := by
  unfold genNonKing at h
  rcases List.mem_append.mp h with h | h
  rotate_left
  · obtain ⟨f, t2, rfl, -⟩ := genAttackMoves_shape h
    exact ⟨_, _, _, _, _, rfl⟩
  rcases List.mem_append.mp h with h | h
  rotate_left
  · obtain ⟨f, t2, rfl, -⟩ := genAttackMoves_shape h
    exact ⟨_, _, _, _, _, rfl⟩
  rcases List.mem_append.mp h with h | h
  rotate_left
  · obtain ⟨f, t2, rfl, -⟩ := genAttackMoves_shape h
    exact ⟨_, _, _, _, _, rfl⟩
  rcases List.mem_append.mp h with h | h
  · obtain ⟨f, tsq, c, p, rfl, -⟩ := genPawnMoves_shape h
    exact ⟨_, _, _, _, _, rfl⟩
  · obtain ⟨f, t2, rfl, -⟩ := genAttackMoves_shape h
    exact ⟨_, _, _, _, _, rfl⟩

theorem evasions_normal {b : Board} {turn : Color} {king : Square} {ck : Nat}
    {m : Move} (h : m ∈ evasions b turn king ck) :
    ∃ (r' : Role) (f : Square) (c : Option Role) (t2 : Square) (p : Option Role),
      m = Move.normal r' f c t2 p := by
  unfold evasions at h
  simp only [List.mem_append] at h
  rcases h with h | h
  · obtain ⟨t2, rfl, -⟩ := genSafeKing_shape h
    exact ⟨_, _, _, _, _, rfl⟩
  · rcases hs : bbSingleSquare ck with _ | c2 <;> rw [hs] at h
    · exact absurd h (List.not_mem_nil m)
    · exact genNonKing_normal h

theorem keep_kill_attack {r : Role} {t : Square} {role : Role} {atk : Square → Nat}
    {b : Board} {turn : Color} {T : Nat} {m : Move} (hne : r ≠ role)
    (hm : m ∈ genAttackMoves role atk b turn T)
    (hkeep : sanCandidateKeep r t m = true) : False := by
  obtain ⟨f, t2, rfl, -⟩ := genAttackMoves_shape hm
  exact hne (keep_normal.mp hkeep).2

theorem keep_kill_pawn {r : Role} {t : Square} {b : Board} {turn : Color}
    {T : Nat} {m : Move} (hne : r ≠ .pawn) (hm : m ∈ genPawnMoves b turn T)
    (hkeep : sanCandidateKeep r t m = true) : False := by
  obtain ⟨f, tsq, c, p, rfl, -⟩ := genPawnMoves_shape hm
  exact hne (keep_normal.mp hkeep).2

theorem keep_kill_king {r : Role} {t : Square} {b : Board} {turn : Color}
    {king : Square} {T : Nat} {m : Move} (hne : r ≠ .king)
    (hm : m ∈ genSafeKing b turn king T)
    (hkeep : sanCandidateKeep r t m = true) : False := by
  obtain ⟨t2, rfl, -⟩ := genSafeKing_shape hm
  exact hne (keep_normal.mp hkeep).2

theorem keep_kill_castle {r : Role} {t : Square} {ka : Square → Color → Nat → Nat}
    {b : Board} {turn : Color} {cs : Castles} {king : Square} {side : CastlingSide}
    {m : Move} (hm : m ∈ genCastlingMoves ka b turn cs king side)
    (hkeep : sanCandidateKeep r t m = true) : False := by
  obtain ⟨k, rk, rfl⟩ := castle_genCastlingMoves hm
  rw [keep_castle] at hkeep
  exact Bool.false_ne_true hkeep

theorem kill_target_us {b : Board} {turn : Color} {t : Square}
    (hus : (usBB b turn).testBit t.val = true) :
    (bbNot (usBB b turn)).testBit t.val ≠ true := by
  rw [testBit_bbNot t.isLt, hus]
  simp

theorem rev_attack_equiv {b : Board} {turn : Color} {t : Square} {m : Move}
    {role : Role} {atk : Square → Nat}
    (hsymm : ∀ s u : Fin 64,
      (atk s).testBit u.val = true ↔ (atk u).testBit s.val = true)
    (hus : (usBB b turn).testBit t.val = false) :
    m ∈ (bbSquares (atk t &&& ourBB b turn role)).map
        (fun f => Move.normal role f (b.roleAt t) t none) ↔
      (m ∈ genAttackMoves role atk b turn (bbNot (usBB b turn)) ∧
        sanCandidateKeep role t m = true) := by
  rw [mem_map_bbSquares, mem_genAttackMoves]
  constructor
  · rintro ⟨f, hbit, rfl⟩
    rw [Nat.testBit_land] at hbit
    obtain ⟨hA, hour⟩ := Bool.and_eq_true_iff.mp hbit
    refine ⟨⟨t, ?_, f, hour, (hsymm t f).mp hA, rfl⟩, ?_⟩
    · rw [testBit_bbNot t.isLt, hus]
      rfl
    · rw [keep_normal]
      exact ⟨rfl, rfl⟩
  · rintro ⟨⟨t2, hT, f, hour, hAf, rfl⟩, hkeep⟩
    obtain ⟨htt, -⟩ := keep_normal.mp hkeep
    subst htt
    refine ⟨f, ?_, rfl⟩
    rw [Nat.testBit_land]
    exact Bool.and_eq_true_iff.mpr ⟨(hsymm t f).mpr hAf, hour⟩

theorem pawn_target_equiv {b : Board} {turn : Color} {t : Square} {m : Move}
    (hus : (usBB b turn).testBit t.val = false) :
    m ∈ genPawnMoves b turn (bbSquare t) ↔
      (m ∈ genPawnMoves b turn (bbNot (usBB b turn)) ∧
        sanCandidateKeep .pawn t m = true) := by
  constructor
  · intro h
    obtain ⟨f, tsq, c, p, hm, hbit⟩ := genPawnMoves_shape h
    have htt : t = tsq := by
      rw [testBit_bbSquare] at hbit
      exact Fin.ext (of_decide_eq_true hbit)
    refine ⟨genPawnMoves_congr h ?_, ?_⟩
    · rintro tsq' f' c' p' heq
      rw [hm] at heq
      injection heq with h1 h2 h3 h4 h5
      rw [← h4, ← htt, testBit_bbNot t.isLt, hus]
      rfl
    · rw [hm, keep_normal]
      exact ⟨htt, rfl⟩
  · rintro ⟨h, hkeep⟩
    obtain ⟨f, tsq, c, p, hm, -⟩ := genPawnMoves_shape h
    have htt : t = tsq := by
      rw [hm] at hkeep
      exact (keep_normal.mp hkeep).1
    apply genPawnMoves_congr h
    rintro tsq' f' c' p' heq
    rw [hm] at heq
    injection heq with h1 h2 h3 h4 h5
    rw [← h4, ← htt]
    exact testBit_bbSquare_self t

theorem king_target_equiv {b : Board} {turn : Color} {king t : Square} {m : Move}
    (hus : (usBB b turn).testBit t.val = false) :
    m ∈ genSafeKing b turn king (bbSquare t) ↔
      (m ∈ genSafeKing b turn king (bbNot (usBB b turn)) ∧
        sanCandidateKeep .king t m = true) := by
  rw [mem_genSafeKing, mem_genSafeKing]
  constructor
  · rintro ⟨t2, hT, hka, hz, rfl⟩
    have htt : t = t2 := by
      rw [testBit_bbSquare] at hT
      exact Fin.ext (of_decide_eq_true hT)
    subst htt
    refine ⟨⟨t, ?_, hka, hz, rfl⟩, ?_⟩
    · rw [testBit_bbNot t.isLt, hus]
      rfl
    · rw [keep_normal]
      exact ⟨rfl, rfl⟩
  · rintro ⟨⟨t2, hT, hka, hz, rfl⟩, hkeep⟩
    obtain ⟨htt, -⟩ := keep_normal.mp hkeep
    subst htt
    exact ⟨t, testBit_bbSquare_self t, hka, hz, rfl⟩

theorem core_ep {b : Board} {turn : Color} {epSq : Option Square} {r : Role}
    {t : Square} {m : Move} :
    m ∈ (if r = .pawn ∧ some t = epSq then genEnPassant b turn epSq else []) ↔
      (m ∈ genEnPassant b turn epSq ∧ sanCandidateKeep r t m = true) := by
  split
  · rename_i hc
    obtain ⟨hr, hts⟩ := hc
    subst hr
    constructor
    · intro h
      refine ⟨h, ?_⟩
      obtain ⟨e, f, heq, -, rfl⟩ := mem_genEnPassant.mp h
      rw [keep_ep]
      refine ⟨rfl, ?_⟩
      rw [heq] at hts
      exact (Option.some_inj.mp hts).symm
    · exact fun h => h.1
  · rename_i hc
    simp only [List.not_mem_nil, false_iff]
    rintro ⟨hmem, hkeep⟩
    obtain ⟨e, f, heq, -, rfl⟩ := mem_genEnPassant.mp hmem
    obtain ⟨hr, hte⟩ := keep_ep.mp hkeep
    subst hr
    subst hte
    exact hc ⟨rfl, heq.symm⟩

theorem core_body {b : Board} {turn : Color} {cs : Castles} {king : Square}
    {ck : Nat} {r : Role} {t : Square} {m : Move} :
    m ∈ (if ck = 0 then
          (if !(usBB b turn).testBit t.val then
            (match r with
             | .pawn => genPawnMoves b turn (bbSquare t)
             | .king => genSafeKing b turn king (bbSquare t)
             | _ => []) ++
            (bbSquares ((match r with
              | .pawn | .king => 0
              | .knight => knightAttacks t
              | .bishop => bishopAttacks t b.occupied
              | .rook => rookAttacks t b.occupied
              | .queen => queenAttacks t b.occupied) &&& ourBB b turn r)).map
              (fun f => Move.normal r f (b.roleAt t) t none)
          else [])
        else filterSanCandidates r t (evasions b turn king ck)) ↔
      (m ∈ (if ck = 0 then
              genNonKing b turn (bbNot (usBB b turn)) ++
              genSafeKing b turn king (bbNot (usBB b turn)) ++
              genCastlingMoves (fun s c occ => b.attacksTo s c occ) b turn cs
                king .kingSide ++
              genCastlingMoves (fun s c occ => b.attacksTo s c occ) b turn cs
                king .queenSide
            else evasions b turn king ck) ∧
        sanCandidateKeep r t m = true) := by
  by_cases hck : ck = 0
  · rw [if_pos hck, if_pos hck]
    by_cases hus : (usBB b turn).testBit t.val = true
    · rw [if_neg (by simp [hus])]
      simp only [List.not_mem_nil, false_iff]
      rintro ⟨hmem, hkeep⟩
      rcases List.mem_append.mp hmem with h1 | hC2
      rotate_left
      · exact keep_kill_castle hC2 hkeep
      rcases List.mem_append.mp h1 with h2 | hC1
      rotate_left
      · exact keep_kill_castle hC1 hkeep
      rcases List.mem_append.mp h2 with hNK | hSK
      rotate_left
      · obtain ⟨t2, hm, hT⟩ := genSafeKing_shape hSK
        rw [hm] at hkeep
        obtain ⟨htt, -⟩ := keep_normal.mp hkeep
        rw [← htt] at hT
        exact kill_target_us hus hT
      unfold genNonKing at hNK
      rcases List.mem_append.mp hNK with h3 | hQ
      rotate_left
      · obtain ⟨f, t2, hm, hT⟩ := genAttackMoves_shape hQ
        rw [hm] at hkeep
        obtain ⟨htt, -⟩ := keep_normal.mp hkeep
        rw [← htt] at hT
        exact kill_target_us hus hT
      rcases List.mem_append.mp h3 with h4 | hR
      rotate_left
      · obtain ⟨f, t2, hm, hT⟩ := genAttackMoves_shape hR
        rw [hm] at hkeep
        obtain ⟨htt, -⟩ := keep_normal.mp hkeep
        rw [← htt] at hT
        exact kill_target_us hus hT
      rcases List.mem_append.mp h4 with h5 | hB
      rotate_left
      · obtain ⟨f, t2, hm, hT⟩ := genAttackMoves_shape hB
        rw [hm] at hkeep
        obtain ⟨htt, -⟩ := keep_normal.mp hkeep
        rw [← htt] at hT
        exact kill_target_us hus hT
      rcases List.mem_append.mp h5 with hP | hN
      · obtain ⟨f, tsq, c, p, hm, hT⟩ := genPawnMoves_shape hP
        rw [hm] at hkeep
        obtain ⟨htt, -⟩ := keep_normal.mp hkeep
        rw [← htt] at hT
        exact kill_target_us hus hT
      · obtain ⟨f, t2, hm, hT⟩ := genAttackMoves_shape hN
        rw [hm] at hkeep
        obtain ⟨htt, -⟩ := keep_normal.mp hkeep
        rw [← htt] at hT
        exact kill_target_us hus hT
    · have hus' : (usBB b turn).testBit t.val = false := by simpa using hus
      rw [if_pos (by rw [hus']; rfl)]
      cases r with
      | pawn =>
        simp only [Nat.zero_and, bbSquares_zero, List.map_nil, List.append_nil]
        refine Iff.trans (pawn_target_equiv hus') ?_
        unfold genNonKing
        simp only [List.mem_append, or_assoc]
        constructor
        · rintro ⟨h, hkeep⟩
          exact ⟨Or.inl h, hkeep⟩
        · rintro ⟨h, hkeep⟩
          refine ⟨?_, hkeep⟩
          rcases h with h | h | h | h | h | h | h | h
          · exact h
          · exact (keep_kill_attack (by decide) h hkeep).elim
          · exact (keep_kill_attack (by decide) h hkeep).elim
          · exact (keep_kill_attack (by decide) h hkeep).elim
          · exact (keep_kill_attack (by decide) h hkeep).elim
          · exact (keep_kill_king (by decide) h hkeep).elim
          · exact (keep_kill_castle h hkeep).elim
          · exact (keep_kill_castle h hkeep).elim
      | king =>
        simp only [Nat.zero_and, bbSquares_zero, List.map_nil, List.append_nil]
        refine Iff.trans (king_target_equiv hus') ?_
        unfold genNonKing
        simp only [List.mem_append, or_assoc]
        constructor
        · rintro ⟨h, hkeep⟩
          exact ⟨Or.inr (Or.inr (Or.inr (Or.inr (Or.inr (Or.inl h))))), hkeep⟩
        · rintro ⟨h, hkeep⟩
          refine ⟨?_, hkeep⟩
          rcases h with h | h | h | h | h | h | h | h
          · exact (keep_kill_pawn (by decide) h hkeep).elim
          · exact (keep_kill_attack (by decide) h hkeep).elim
          · exact (keep_kill_attack (by decide) h hkeep).elim
          · exact (keep_kill_attack (by decide) h hkeep).elim
          · exact (keep_kill_attack (by decide) h hkeep).elim
          · exact h
          · exact (keep_kill_castle h hkeep).elim
          · exact (keep_kill_castle h hkeep).elim
      | knight =>
        refine Iff.trans
          (rev_attack_equiv (fun s u => knightAttacks_symm s u) hus') ?_
        unfold genNonKing
        simp only [List.mem_append, or_assoc]
        constructor
        · rintro ⟨h, hkeep⟩
          exact ⟨Or.inr (Or.inl h), hkeep⟩
        · rintro ⟨h, hkeep⟩
          refine ⟨?_, hkeep⟩
          rcases h with h | h | h | h | h | h | h | h
          · exact (keep_kill_pawn (by decide) h hkeep).elim
          · exact h
          · exact (keep_kill_attack (by decide) h hkeep).elim
          · exact (keep_kill_attack (by decide) h hkeep).elim
          · exact (keep_kill_attack (by decide) h hkeep).elim
          · exact (keep_kill_king (by decide) h hkeep).elim
          · exact (keep_kill_castle h hkeep).elim
          · exact (keep_kill_castle h hkeep).elim
      | bishop =>
        refine Iff.trans
          (rev_attack_equiv (fun s u => bishopAttacks_symm b.occupied s u)
            hus') ?_
        unfold genNonKing
        simp only [List.mem_append, or_assoc]
        constructor
        · rintro ⟨h, hkeep⟩
          exact ⟨Or.inr (Or.inr (Or.inl h)), hkeep⟩
        · rintro ⟨h, hkeep⟩
          refine ⟨?_, hkeep⟩
          rcases h with h | h | h | h | h | h | h | h
          · exact (keep_kill_pawn (by decide) h hkeep).elim
          · exact (keep_kill_attack (by decide) h hkeep).elim
          · exact h
          · exact (keep_kill_attack (by decide) h hkeep).elim
          · exact (keep_kill_attack (by decide) h hkeep).elim
          · exact (keep_kill_king (by decide) h hkeep).elim
          · exact (keep_kill_castle h hkeep).elim
          · exact (keep_kill_castle h hkeep).elim
      | rook =>
        refine Iff.trans
          (rev_attack_equiv (fun s u => rookAttacks_symm b.occupied s u)
            hus') ?_
        unfold genNonKing
        simp only [List.mem_append, or_assoc]
        constructor
        · rintro ⟨h, hkeep⟩
          exact ⟨Or.inr (Or.inr (Or.inr (Or.inl h))), hkeep⟩
        · rintro ⟨h, hkeep⟩
          refine ⟨?_, hkeep⟩
          rcases h with h | h | h | h | h | h | h | h
          · exact (keep_kill_pawn (by decide) h hkeep).elim
          · exact (keep_kill_attack (by decide) h hkeep).elim
          · exact (keep_kill_attack (by decide) h hkeep).elim
          · exact h
          · exact (keep_kill_attack (by decide) h hkeep).elim
          · exact (keep_kill_king (by decide) h hkeep).elim
          · exact (keep_kill_castle h hkeep).elim
          · exact (keep_kill_castle h hkeep).elim
      | queen =>
        refine Iff.trans
          (rev_attack_equiv (fun s u => queenAttacks_symm b.occupied s u)
            hus') ?_
        unfold genNonKing
        simp only [List.mem_append, or_assoc]
        constructor
        · rintro ⟨h, hkeep⟩
          exact ⟨Or.inr (Or.inr (Or.inr (Or.inr (Or.inl h)))), hkeep⟩
        · rintro ⟨h, hkeep⟩
          refine ⟨?_, hkeep⟩
          rcases h with h | h | h | h | h | h | h | h
          · exact (keep_kill_pawn (by decide) h hkeep).elim
          · exact (keep_kill_attack (by decide) h hkeep).elim
          · exact (keep_kill_attack (by decide) h hkeep).elim
          · exact (keep_kill_attack (by decide) h hkeep).elim
          · exact h
          · exact (keep_kill_king (by decide) h hkeep).elim
          · exact (keep_kill_castle h hkeep).elim
          · exact (keep_kill_castle h hkeep).elim
  · rw [if_neg hck, if_neg hck]
    unfold filterSanCandidates
    exact List.mem_filter

theorem sanBody_normal {b : Board} {turn : Color} {king : Square} {ck : Nat}
    {r : Role} {t : Square} {m : Move}
    (h : m ∈ (if ck = 0 then
          (if !(usBB b turn).testBit t.val then
            (match r with
             | .pawn => genPawnMoves b turn (bbSquare t)
             | .king => genSafeKing b turn king (bbSquare t)
             | _ => []) ++
            (bbSquares ((match r with
              | .pawn | .king => 0
              | .knight => knightAttacks t
              | .bishop => bishopAttacks t b.occupied
              | .rook => rookAttacks t b.occupied
              | .queen => queenAttacks t b.occupied) &&& ourBB b turn r)).map
              (fun f => Move.normal r f (b.roleAt t) t none)
          else [])
        else filterSanCandidates r t (evasions b turn king ck))) :
    ∃ (r' : Role) (f : Square) (c : Option Role) (t2 : Square) (p : Option Role),
      m = Move.normal r' f c t2 p := by
  split at h
  · split at h
    · rcases List.mem_append.mp h with hL | hR
      · cases r with
        | pawn =>
          obtain ⟨f, tsq, c, p, rfl, -⟩ := genPawnMoves_shape hL
          exact ⟨_, _, _, _, _, rfl⟩
        | king =>
          obtain ⟨t2, rfl, -⟩ := genSafeKing_shape hL
          exact ⟨_, _, _, _, _, rfl⟩
        | knight => exact absurd hL (List.not_mem_nil m)
        | bishop => exact absurd hL (List.not_mem_nil m)
        | rook => exact absurd hL (List.not_mem_nil m)
        | queen => exact absurd hL (List.not_mem_nil m)
      · obtain ⟨f, -, rfl⟩ := mem_map_bbSquares.mp hR
        exact ⟨_, _, _, _, _, rfl⟩
    · exact absurd h (List.not_mem_nil m)
  · unfold filterSanCandidates at h
    exact evasions_normal (List.mem_filter.mp h).1

/-- **C3.** Equivalence of the specialized SAN-candidate generator with the
filtering definition: for every standard `Chess` position, role `r` and target
square `t`, a move is in `Chess::san_candidates(r, t)` iff it is in
`legal_moves` and is retained by the `filter_san_candidates` predicate — a
non-castling move of role `r` ending at `t`, an en-passant capture counting as
a pawn move to the en-passant square. -/
theorem C3_san_candidates_equiv (pos : Chess) (r : Role) (t : Square) (m : Move) :
    m ∈ pos.sanCandidates r t ↔
      (m ∈ pos.legalMoves ∧ sanCandidateKeep r t m = true) := by
  rcases hk : pos.board.kingOf pos.turn with _ | king
  · unfold Chess.sanCandidates Chess.legalMoves
    rw [hk]
    simp
  · rw [chessSanCandidates_some pos r t king hk, chessLegalMoves_some pos king hk]
    rw [mem_ite_filter_iff, mem_ite_filter_iff]
    constructor
    · rintro ⟨hmem, hsafe⟩
      rcases List.mem_append.mp hmem with hB | hE
      · obtain ⟨hL, hkeep⟩ := core_body.mp hB
        refine ⟨⟨List.mem_append.mpr (Or.inr hL), ?_⟩, hkeep⟩
        intro hcondR
        by_cases hb : sliderBlockers pos.board (themBB pos.board pos.turn) king = 0
        · obtain ⟨r', f, c, t2, p, rfl⟩ := sanBody_normal hB
          show isSafe pos.board pos.turn king _ _ = true
          rw [hb]
          exact isSafe_zero_normal
        · exact hsafe (Or.inl hb)
      · obtain ⟨hEmem, hkeep⟩ := core_ep.mp hE
        have hne := List.ne_nil_of_mem hE
        have hsafe' := hsafe (Or.inr (bang_isEmpty_true.mpr hne))
        exact ⟨⟨List.mem_append.mpr (Or.inl hEmem), fun _ => hsafe'⟩, hkeep⟩
    · rintro ⟨⟨hmem, hsafeR⟩, hkeep⟩
      rcases List.mem_append.mp hmem with hE | hL
      · have hsan := core_ep.mpr ⟨hE, hkeep⟩
        refine ⟨List.mem_append.mpr (Or.inr hsan), ?_⟩
        intro hcondL
        exact hsafeR (Or.inr (bang_isEmpty_true.mpr (List.ne_nil_of_mem hE)))
      · have hsan := core_body.mpr ⟨hL, hkeep⟩
        refine ⟨List.mem_append.mpr (Or.inl hsan), ?_⟩
        intro hcondL
        by_cases hb : sliderBlockers pos.board (themBB pos.board pos.turn) king = 0
        · obtain ⟨r', f, c, t2, p, rfl⟩ := sanBody_normal hsan
          show isSafe pos.board pos.turn king _ _ = true
          rw [hb]
          exact isSafe_zero_normal
        · exact hsafeR (Or.inl hb)

theorem bbSingleSquare_testBit {bb : Nat} {s : Square}
    (h : bbSingleSquare bb = some s) : bb.testBit s.val = true := by
  unfold bbSingleSquare at h
  split at h
  · exact absurd h (by simp)
  · unfold bbFirst at h
    rcases hl : bbSquares bb with _ | ⟨a, l⟩ <;> rw [hl] at h
    · exact absurd h (by simp)
    · obtain rfl : a = s := by simpa using h
      exact mem_bbSquares.mp (hl ▸ List.mem_cons_self a l)

theorem kingOf_us_bit {b : Board} {c : Color} {king : Square}
    (h : b.kingOf c = some king) : (usBB b c).testBit king.val = true := by
  unfold Board.kingOf at h
  have h2 := bbSingleSquare_testBit h
  rw [Nat.testBit_land] at h2
  exact (Bool.and_eq_true_iff.mp h2).2

theorem ourBB_us_bit {b : Board} {c : Color} {role : Role} {i : Nat}
    (h : (ourBB b c role).testBit i = true) : (usBB b c).testBit i = true := by
  unfold ourBB at h
  rw [Nat.testBit_land] at h
  exact (Bool.and_eq_true_iff.mp h).1

theorem offset_val {s : Square} {d : Int} {f : Square}
    (h : s.offset d = some f) : (f.val : Int) = s.val + d := by
  have h2 : (if hc : 0 ≤ (s.val : Int) + d ∧ (s.val : Int) + d < 64 then
      some (⟨((s.val : Int) + d).toNat, by omega⟩ : Square) else none) = some f := h
  split at h2
  · rename_i hb
    have h3 := Option.some_inj.mp h2
    rw [← h3]
    show (((s.val : Int) + d).toNat : Int) = s.val + d
    omega
  · exact absurd h2 (by simp)

theorem single_shift_us {b : Board} {turn : Color} {t2 f : Square}
    (hS : (bbRelativeShift turn (ourBB b turn .pawn) 8 &&&
      bbNot b.occupied).testBit t2.val = true)
    (hoff : t2.offset (turn.fold (-8) 8) = some f) :
    (usBB b turn).testBit f.val = true := by
  rw [Nat.testBit_land] at hS
  have h1 := (Bool.and_eq_true_iff.mp hS).1
  have hfv := offset_val hoff
  apply @ourBB_us_bit b turn Role.pawn f.val
  cases turn with
  | white =>
    unfold bbRelativeShift at h1
    rw [Nat.testBit_land] at h1
    have h2 := (Bool.and_eq_true_iff.mp h1).1
    rw [Nat.testBit_shiftLeft] at h2
    obtain ⟨h8, h3⟩ := Bool.and_eq_true_iff.mp h2
    have : f.val = t2.val - 8 := by
      have := of_decide_eq_true h8
      simp only [Color.fold] at hfv
      omega
    rw [this]
    exact h3
  | black =>
    unfold bbRelativeShift at h1
    rw [Nat.testBit_shiftRight] at h1
    have : f.val = 8 + t2.val := by
      simp only [Color.fold] at hfv
      omega
    rw [this]
    exact h1

theorem double_shift_us {b : Board} {turn : Color} {t2 f : Square}
    (hD : (bbRelativeShift turn
      (bbRelativeShift turn (ourBB b turn .pawn) 8 &&& bbNot b.occupied) 8 &&&
      (bbRelativeRank turn 3 ||| bbRelativeRank turn 2) &&&
      bbNot b.occupied).testBit t2.val = true)
    (hoff : t2.offset (turn.fold (-16) 16) = some f) :
    (usBB b turn).testBit f.val = true := by
  rw [Nat.testBit_land, Nat.testBit_land] at hD
  have h1 := (Bool.and_eq_true_iff.mp (Bool.and_eq_true_iff.mp hD).1).1
  have hfv := offset_val hoff
  apply @ourBB_us_bit b turn Role.pawn f.val
  cases turn with
  | white =>
    unfold bbRelativeShift at h1
    rw [Nat.testBit_land] at h1
    have h2 := (Bool.and_eq_true_iff.mp h1).1
    rw [Nat.testBit_shiftLeft] at h2
    obtain ⟨h8, h3⟩ := Bool.and_eq_true_iff.mp h2
    rw [Nat.testBit_land] at h3
    have h4 := (Bool.and_eq_true_iff.mp h3).1
    rw [Nat.testBit_land] at h4
    have h5 := (Bool.and_eq_true_iff.mp h4).1
    rw [Nat.testBit_shiftLeft] at h5
    obtain ⟨h16, h6⟩ := Bool.and_eq_true_iff.mp h5
    have : f.val = t2.val - 8 - 8 := by
      have := of_decide_eq_true h8
      have := of_decide_eq_true h16
      simp only [Color.fold] at hfv
      omega
    rw [this]
    exact h6
  | black =>
    unfold bbRelativeShift at h1
    rw [Nat.testBit_shiftRight] at h1
    rw [Nat.testBit_land] at h1
    have h3 := (Bool.and_eq_true_iff.mp h1).1
    rw [Nat.testBit_shiftRight] at h3
    have : f.val = 8 + (8 + t2.val) := by
      simp only [Color.fold] at hfv
      omega
    rw [this]
    exact h3

theorem genPawnMoves_us {b : Board} {turn : Color} {T : Nat} {f t2 : Square}
    {c p : Option Role}
    (h : Move.normal .pawn f c t2 p ∈ genPawnMoves b turn T) :
    (usBB b turn).testBit f.val = true := by
  rw [mem_genPawnMoves] at h
  obtain ⟨t3, -, hcore⟩ := h
  rcases hcore with ⟨f', hf, -, heq⟩ | ⟨f', hf, -, hp⟩ | ⟨f', hS, -, hoff, heq⟩ |
    ⟨f', hS, -, hoff, hp⟩ | ⟨f', hD, hoff, heq⟩
  · injection heq with h1 h2 h3 h4 h5
    subst h2
    rw [Nat.testBit_land] at hf
    exact @ourBB_us_bit b turn Role.pawn _ (Bool.and_eq_true_iff.mp hf).1
  · rcases mem_pushPromotions.mp hp with heq | heq | heq | heq <;>
      (injection heq with h1 h2 h3 h4 h5
       subst h2
       rw [Nat.testBit_land] at hf
       exact @ourBB_us_bit b turn Role.pawn _ (Bool.and_eq_true_iff.mp hf).1)
  · injection heq with h1 h2 h3 h4 h5
    subst h2
    exact single_shift_us hS hoff
  · rcases mem_pushPromotions.mp hp with heq | heq | heq | heq <;>
      (injection heq with h1 h2 h3 h4 h5
       subst h2
       exact single_shift_us hS hoff)
  · injection heq with h1 h2 h3 h4 h5
    subst h2
    exact double_shift_us hD hoff

theorem genAttackMoves_us {role : Role} {atk : Square → Nat} {b : Board}
    {turn : Color} {T : Nat} {m : Move} (h : m ∈ genAttackMoves role atk b turn T) :
    ∃ (f t2 : Square), m = Move.normal role f (b.roleAt t2) t2 none ∧
      (usBB b turn).testBit f.val = true := by
  rw [mem_genAttackMoves] at h
  obtain ⟨t2, -, f, hour, -, rfl⟩ := h
  exact ⟨f, t2, rfl, ourBB_us_bit hour⟩

theorem genEnPassant_us {b : Board} {turn : Color} {ep : Option Square} {m : Move}
    (h : m ∈ genEnPassant b turn ep) :
    ∃ (e f2 : Square), m = Move.enPassant f2 e ∧
      (usBB b turn).testBit f2.val = true := by
  obtain ⟨e, f2, -, hbit, rfl⟩ := mem_genEnPassant.mp h
  refine ⟨e, f2, rfl, ?_⟩
  rw [Nat.testBit_land] at hbit
  have h1 := (Bool.and_eq_true_iff.mp hbit).1
  rw [Nat.testBit_land] at h1
  exact (Bool.and_eq_true_iff.mp h1).2

theorem castle_genCastlingMoves_king {ka : Square → Color → Nat → Nat} {b : Board}
    {turn : Color} {cs : Castles} {king : Square} {side : CastlingSide} {m : Move}
    (h : m ∈ genCastlingMoves ka b turn cs king side) :
    ∃ r, m = Move.castle king r := by
  unfold genCastlingMoves at h
  rcases hr : cs.rookSq turn side with _ | rook <;> rw [hr] at h
  · exact absurd h (List.not_mem_nil m)
  · split at h
    · exact absurd h (List.not_mem_nil m)
    · split at h
      · exact absurd h (List.not_mem_nil m)
      · split at h
        · exact absurd h (List.not_mem_nil m)
        · split at h
          · exact absurd h (List.not_mem_nil m)
          · exact ⟨_, List.mem_singleton.mp h⟩

theorem genNonKing_us {b : Board} {turn : Color} {T : Nat} {m : Move}
    (h : m ∈ genNonKing b turn T) :
    ∃ (r' : Role) (f : Square) (c : Option Role) (t2 : Square) (p : Option Role),
      m = Move.normal r' f c t2 p ∧ (usBB b turn).testBit f.val = true := by
  unfold genNonKing at h
  rcases List.mem_append.mp h with h1 | h1
  rotate_left
  · obtain ⟨f, t2, rfl, hus⟩ := genAttackMoves_us h1
    exact ⟨_, _, _, _, _, rfl, hus⟩
  rcases List.mem_append.mp h1 with h2 | h2
  rotate_left
  · obtain ⟨f, t2, rfl, hus⟩ := genAttackMoves_us h2
    exact ⟨_, _, _, _, _, rfl, hus⟩
  rcases List.mem_append.mp h2 with h3 | h3
  rotate_left
  · obtain ⟨f, t2, rfl, hus⟩ := genAttackMoves_us h3
    exact ⟨_, _, _, _, _, rfl, hus⟩
  rcases List.mem_append.mp h3 with h4 | h4
  · obtain ⟨f, tsq, c, p, hm, -⟩ := genPawnMoves_shape h4
    subst hm
    exact ⟨_, _, _, _, _, rfl, genPawnMoves_us h4⟩
  · obtain ⟨f, t2, rfl, hus⟩ := genAttackMoves_us h4
    exact ⟨_, _, _, _, _, rfl, hus⟩

theorem evasions_us {b : Board} {turn : Color} {king : Square} {ck : Nat}
    {m : Move} (h : m ∈ evasions b turn king ck)
    (hking : (usBB b turn).testBit king.val = true) :
    ∃ (r' : Role) (f : Square) (c : Option Role) (t2 : Square) (p : Option Role),
      m = Move.normal r' f c t2 p ∧ (usBB b turn).testBit f.val = true := by
  unfold evasions at h
  simp only [List.mem_append] at h
  rcases h with h | h
  · obtain ⟨t2, rfl, -⟩ := genSafeKing_shape h
    exact ⟨_, _, _, _, _, rfl, hking⟩
  · rcases hs : bbSingleSquare ck with _ | c2 <;> rw [hs] at h
    · exact absurd h (List.not_mem_nil m)
    · exact genNonKing_us h

/-- **C1** (amended). Every move emitted by `Chess::legal_moves` moves a piece
of the side to move: its from-square (the king's square for a castling move)
carries a piece of the color to move.  The original claim's second conjunct —
that `play_unchecked` on a generated move never leaves the mover's king
attacked — is refuted by `C1_legality_soundness_counterexample` below. -/
theorem C1_moves_own_piece (pos : Chess) (m : Move)
    (h : m ∈ pos.legalMoves) :
    (match m with
     | .normal _ f _ _ _ => (usBB pos.board pos.turn).testBit f.val = true
     | .castle k _ => (usBB pos.board pos.turn).testBit k.val = true
     | .enPassant f _ => (usBB pos.board pos.turn).testBit f.val = true
     | .put _ _ => False) := by
  rcases hk : pos.board.kingOf pos.turn with _ | king
  · unfold Chess.legalMoves at h
    rw [hk] at h
    exact absurd h (List.not_mem_nil m)
  · rw [chessLegalMoves_some pos king hk] at h
    have h2 := (mem_ite_filter_iff.mp h).1
    rcases List.mem_append.mp h2 with hE | hB
    · obtain ⟨e, f2, rfl, hus⟩ := genEnPassant_us hE
      exact hus
    · split at hB
      · rcases List.mem_append.mp hB with h3 | hC2
        rotate_left
        · obtain ⟨r, rfl⟩ := castle_genCastlingMoves_king hC2
          exact kingOf_us_bit hk
        rcases List.mem_append.mp h3 with h4 | hC1
        rotate_left
        · obtain ⟨r, rfl⟩ := castle_genCastlingMoves_king hC1
          exact kingOf_us_bit hk
        rcases List.mem_append.mp h4 with hNK | hSK
        rotate_left
        · obtain ⟨t2, rfl, -⟩ := genSafeKing_shape hSK
          exact kingOf_us_bit hk
        · obtain ⟨r', f, c, t2, p, rfl, hus⟩ := genNonKing_us hNK
          exact hus
      · obtain ⟨r', f, c, t2, p, rfl, hus⟩ :=
          evasions_us hB (kingOf_us_bit hk)
        exact hus

/-- Witness for `C1_moves_own_piece`: the knight move Ng1–f3 is generated in
the starting position and g1 indeed carries a white piece. -/
theorem C1_moves_own_piece_witness :
    nf3Move ∈ startPos.legalMoves ∧
      (usBB startPos.board startPos.turn).testBit 6 = true :=
  ⟨by decide, C1_moves_own_piece startPos nf3Move (by decide)⟩

/-- **C1** counterexample. Legality soundness as claimed is false: the position
of FEN `7k/8/8/3pP3/8/3n4/8/4K3 w - d6 0 1` is accepted by `validate` (no
error flags — the knight check is a single checker and the en-passant
configuration is well formed), yet `legal_moves` contains the en-passant
capture e5xd6, and playing it with `play_unchecked` leaves the white king on
e1 attacked by the knight on d3: the en-passant arm of `is_safe` re-checks
only sliders, so a non-slider check survives the capture. -/
theorem C1_legality_soundness_counterexample :
    validateChess c1Pos = 0 ∧
    c1EpMove ∈ c1Pos.legalMoves ∧
    (c1Pos.playUnchecked c1EpMove).board.kingOf c1Pos.turn =
      some ⟨4, by decide⟩ ∧
    (c1Pos.playUnchecked c1EpMove).board.attacksTo ⟨4, by decide⟩
      (c1Pos.playUnchecked c1EpMove).turn
      (c1Pos.playUnchecked c1EpMove).board.occupied ≠ 0 := by
  refine ⟨by decide, by decide, by decide, by decide⟩
